import Mathlib

/-! # micrograd-cpp: a scalar reverse-mode autodiff engine

Embedding of `Value.h` / `value.cpp`.

* A `Value` object lives in a heap; a pointer to it (`std::shared_ptr<Value>`,
  `std::weak_ptr<Value>`, `Value *`) is its address, a natural number: the index at
  which it was allocated.  `std::make_shared` allocates at the end of the heap.
  The heap keeps every object; which objects `shared_ptr` ownership keeps alive is
  tracked beside it by `Alive` and `SeverSafe`.
* `double` is a type `R` with the operations the code uses (`+`, `*`, `-`, `/`, `<`,
  `==`, the literals); the engine assumes no law of arithmetic.  Statements are made for
  every such `R`, for a linearly ordered field (exact arithmetic), or on `F64`, a model
  of binary64 with round-to-nearest-even.  The `<cmath>` functions are carried in a
  `Libm R` record.
* The closure stored in `backward_` is a `Closure`: which lambda it is, together
  with the three (or two) weak pointers it captured.
* `throw std::runtime_error` and a failing `assert` are `Except.error`.
-/

namespace Micrograd

/-- The `<cmath>` functions used by the engine: `std::pow`, `std::exp`, `std::tanh`, `std::log`. -/
structure Libm (R : Type) where
  pow : R → R → R
  exp : R → R
  tanh : R → R
  log : R → R

/-- The lambdas assigned to `backward_`, each with its captured weak pointers. -/
inductive Closure where
  | add (wl wr wout : Nat)
  | mul (wl wr wout : Nat)
  | pow (wbase wexp wout : Nat)
  | exp (wv wout : Nat)
  | tanh (wv wout : Nat)
  deriving DecidableEq

/-- What a call can raise: the two `std::runtime_error`s, a failed `assert`, and the
recursion budget of `build_topo` running out. -/
inductive Err where
  | divisionByZero
  | undefinedGradient
  | assertFailed
  | recursionBudget
  deriving DecidableEq

/-- The fields of `class Value`. -/
structure Value (R : Type) where
  data : R
  grad : R
  prev_ : List Nat
  op : String
  backward_ : Option Closure
  requires_grad : Bool
  is_leaf : Bool
  deriving DecidableEq

/-- The heap of `Value` objects, in allocation order. -/
abbrev Heap (R : Type) := List (Value R)

section Core

variable {R : Type} [Zero R] [One R] [Add R] [Mul R] [Neg R]

instance : Inhabited (Value R) := ⟨⟨0, 0, [], "", none, false, true⟩⟩

/-- Dereference `p` (`p->...`). -/
def Heap.node (h : Heap R) (p : Nat) : Value R := h[p]?.getD default

/-- Constructor `Value::Value(v, prev, op, requires_grad, is_leaf)`; `grad` starts at `0.0`
and `backward_` empty. -/
def Value.mk0 (v : R) (prev : List Nat) (op : String) (requires_grad is_leaf : Bool) :
    Value R :=
  ⟨v, 0, prev, op, none, requires_grad, is_leaf⟩

/-- Function `create_value`: `std::make_shared<Value>(...)`; returns the new heap and the pointer. -/
def create_value (h : Heap R) (value : R) (prev : List Nat) (op : String)
    (requires_grad is_leaf : Bool) : Heap R × Nat :=
  (h ++ [Value.mk0 value prev op requires_grad is_leaf], h.length)

/-- Function `create_parameter`: `create_value(value, {}, "", true, true)`. -/
def create_parameter (h : Heap R) (value : R) : Heap R × Nat :=
  create_value h value [] "" true true

/-- Accessor `Value::get_data`. -/
def get_data (h : Heap R) (p : Nat) : R := (h.node p).data

/-- Accessor `Value::get_grad`. -/
def get_grad (h : Heap R) (p : Nat) : R := (h.node p).grad

/-- Accessor `Value::needs_grad`. -/
def needs_grad (h : Heap R) (p : Nat) : Bool := (h.node p).requires_grad

/-- Mutator `Value::set_grad`. -/
def set_grad (h : Heap R) (p : Nat) (g : R) : Heap R :=
  h.modify (fun v => { v with grad := g }) p

/-- Mutator `Value::zero_grad`. -/
def zero_grad (h : Heap R) (p : Nat) : Heap R :=
  h.modify (fun v => { v with grad := 0 }) p

/-- Mutator `Value::set_data`. -/
def set_data (h : Heap R) (p : Nat) (d : R) : Heap R :=
  h.modify (fun v => { v with data := d }) p

/-- The statement `p->grad += d`, with the `+` of `R`. -/
def add_grad (h : Heap R) (p : Nat) (d : R) : Heap R :=
  h.modify (fun v => { v with grad := v.grad + d }) p

/-- The statement `output->backward_ = ...`. -/
def set_backward (h : Heap R) (p : Nat) (c : Option Closure) : Heap R :=
  h.modify (fun v => { v with backward_ := c }) p

/-- Method `Value::build_topo`.  The state is `(visited, topo)`; `visited` lists the keys of the
`unordered_map`.  The first argument bounds the recursion depth; `none` means it ran out. -/
def build_topo (h : Heap R) :
    Nat → Nat → List Nat × List Nat → Option (List Nat × List Nat)
  | 0, _, _ => none
  | fuel + 1, v, (visited, topo) =>
    if v ∈ visited then some (visited, topo)
    else
      match (h.node v).prev_.foldlM (fun st child => build_topo h fuel child st)
          (v :: visited, topo) with
      | none => none
      | some (visited1, topo1) => some (visited1, topo1 ++ [v])

/-- Method `Value::build_topological_order`, called on the object at `self`. -/
def build_topological_order (h : Heap R) (self : Nat) : Option (List Nat) :=
  (build_topo h (h.length + 1) self ([], [])).map Prod.snd

/-- Builder `operator+`. -/
def operator_add (h : Heap R) (lhs rhs : Nat) : Heap R × Nat :=
  let rg := (h.node lhs).requires_grad || (h.node rhs).requires_grad
  let (h1, output) := create_value h ((h.node lhs).data + (h.node rhs).data) [lhs, rhs] "+" rg false
  if rg then (set_backward h1 output (some (Closure.add lhs rhs output)), output)
  else (set_backward h1 output none, output)

/-- Builder `operator*`. -/
def operator_mul (h : Heap R) (lhs rhs : Nat) : Heap R × Nat :=
  let rg := (h.node lhs).requires_grad || (h.node rhs).requires_grad
  let (h1, output) := create_value h ((h.node lhs).data * (h.node rhs).data) [lhs, rhs] "*" rg false
  if rg then (set_backward h1 output (some (Closure.mul lhs rhs output)), output)
  else (set_backward h1 output none, output)

/-- Builder unary `operator-`: `rhs * create_value(-1, {}, "", false)`. -/
def operator_neg (h : Heap R) (rhs : Nat) : Heap R × Nat :=
  let (h1, c) := create_value h (-1) [] "" false true
  operator_mul h1 rhs c

/-- Builder binary `operator-`: `lhs + (-rhs)`. -/
def operator_sub (h : Heap R) (lhs rhs : Nat) : Heap R × Nat :=
  let (h1, n) := operator_neg h rhs
  operator_add h1 lhs n

/-- The loop `for (auto *node : topo) if (!node->is_leaf) node->grad = 0.0;`. -/
def clear_grads (topo : List Nat) (h : Heap R) : Heap R :=
  topo.foldl (fun h node => if !(h.node node).is_leaf then set_grad h node 0 else h) h

/-- The loop `for (auto *node : topo) { node->backward_ = nullptr; node->prev_.clear(); }`:
its field writes.  Whether each node is still alive when the loop reaches it is `SeverSafe`. -/
def clear_graph (topo : List Nat) (h : Heap R) : Heap R :=
  topo.foldl (fun h node => h.modify (fun v => { v with backward_ := none, prev_ := [] }) node) h

end Core

section Engine

variable {R : Type} [Zero R] [One R] [Add R] [Mul R] [Neg R] [Sub R] [Div R] [NatCast R]
  [Pow R ℕ] [LT R] [DecidableEq R] [DecidableRel (fun a b : R => a < b)]

/-- The literal `1e-12`. -/
def tiny : R := 1 / 10 ^ 12

/-- Builder `pow`. -/
def pow (L : Libm R) (h : Heap R) (base exponent : Nat) : Heap R × Nat :=
  let rg := (h.node base).requires_grad || (h.node exponent).requires_grad
  let (h1, output) :=
    create_value h (L.pow (h.node base).data (h.node exponent).data) [base, exponent] "pow" rg false
  if rg then (set_backward h1 output (some (Closure.pow base exponent output)), output)
  else (set_backward h1 output none, output)

/-- Function `std::abs` on `double`. -/
def fabs (x : R) : R := if x < 0 then -x else x

/-- Builder `operator/`.  An error carries the heap as it is at the `throw`. -/
def operator_div (L : Libm R) (h : Heap R) (lhs rhs : Nat) :
    Except (Err × Heap R) (Heap R × Nat) :=
  if (h.node rhs).data = 0 ∨ fabs (h.node rhs).data < tiny then
    .error (Err.divisionByZero, h)
  else
    let (h1, c) := create_value h (-1) [] "" false true
    let (h2, p) := pow L h1 rhs c
    .ok (operator_mul h2 lhs p)

/-- Builder `exp`. -/
def exp (L : Libm R) (h : Heap R) (v : Nat) : Heap R × Nat :=
  let (h1, output) :=
    create_value h (L.exp (h.node v).data) [v] "exp" (h.node v).requires_grad false
  if !(h.node v).requires_grad then (set_backward h1 output none, output)
  else (set_backward h1 output (some (Closure.exp v output)), output)

/-- Builder `tanh`. -/
def tanh (L : Libm R) (h : Heap R) (v : Nat) : Heap R × Nat :=
  let (h1, output) :=
    create_value h (L.tanh (h.node v).data) [v] "tanh" (h.node v).requires_grad false
  if !(h.node v).requires_grad then (set_backward h1 output none, output)
  else (set_backward h1 output (some (Closure.tanh v output)), output)

/-- Invocation `node->backward_()` of a stored closure.  Each `lock()` is a bounds check;
a failed `assert` is `Err.assertFailed`.  Every closure checks before it writes, so the heap
at an error is the heap it was called on. -/
def Closure.call (L : Libm R) (h : Heap R) : Closure → Except Err (Heap R)
  | .add wl wr wout =>
    if wout < h.length ∧ wl < h.length ∧ wr < h.length then
      let h1 := if (h.node wl).requires_grad then add_grad h wl (h.node wout).grad else h
      let h2 := if (h1.node wr).requires_grad then add_grad h1 wr (h1.node wout).grad else h1
      .ok h2
    else .error Err.assertFailed
  | .mul wl wr wout =>
    if wout < h.length ∧ wl < h.length ∧ wr < h.length then
      let h1 :=
        if (h.node wl).requires_grad then add_grad h wl ((h.node wr).data * (h.node wout).grad)
        else h
      let h2 :=
        if (h1.node wr).requires_grad then
          add_grad h1 wr ((h1.node wl).data * (h1.node wout).grad)
        else h1
      .ok h2
    else .error Err.assertFailed
  | .pow wbase wexp wout =>
    if wout < h.length ∧ wbase < h.length ∧ wexp < h.length then
      if (h.node wbase).data = 0 ∧ (h.node wexp).data < 1 then .error Err.undefinedGradient
      else
        let h1 :=
          if (h.node wbase).requires_grad then
            add_grad h wbase
              ((h.node wexp).data * L.pow (h.node wbase).data ((h.node wexp).data - 1)
                * (h.node wout).grad)
          else h
        let h2 :=
          if (h1.node wbase).data > tiny ∧ (h1.node wexp).requires_grad then
            add_grad h1 wexp
              (L.log (h1.node wbase).data * L.pow (h1.node wbase).data (h1.node wexp).data
                * (h1.node wout).grad)
          else h1
        .ok h2
    else .error Err.assertFailed
  | .exp wv wout =>
    if wout < h.length ∧ wv < h.length then
      .ok (add_grad h wv ((h.node wout).data * (h.node wout).grad))
    else .error Err.assertFailed
  | .tanh wv wout =>
    if wout < h.length ∧ wv < h.length then
      .ok (add_grad h wv ((1 - (h.node wout).data * (h.node wout).data) * (h.node wout).grad))
    else .error Err.assertFailed

/-- The loop `for (auto *node : topo) if (node->requires_grad && node->backward_) node->backward_();`. -/
def propagate (L : Libm R) : List Nat → Heap R → Except (Err × Heap R) (Heap R)
  | [], h => .ok h
  | node :: rest, h =>
    match (h.node node).requires_grad, (h.node node).backward_ with
    | true, some c =>
      match c.call L h with
      | .ok h1 => propagate L rest h1
      | .error e => .error (e, h)
    | _, _ => propagate L rest h

/-- Method `Value::backward(grad_out, retain_grads, retain_graph)`, called on the object at `self`.
An error carries the heap as it is at the `throw`.  The result lists the field values; with
`retain_graph = false` it describes a run of the program only when the severing loop is
lifetime-safe (`SeverSafe`), which holds when the client owns every node of the order. -/
def backward (L : Libm R) (h : Heap R) (self : Nat) (grad_out : R)
    (retain_grads retain_graph : Bool) : Except (Err × Heap R) (Heap R) :=
  let h0 := set_grad h self grad_out
  match build_topological_order h0 self with
  | none => .error (Err.recursionBudget, h0)
  | some order =>
    let topo := order.reverse
    match propagate L topo h0 with
    | .error e => .error e
    | .ok h1 =>
      let h2 := if !retain_grads then clear_grads topo h1 else h1
      let h3 := if !retain_graph then clear_graph topo h2 else h2
      .ok h3

end Engine

/-! ## Specification-side definitions -/

section SpecDefs

variable {R : Type} [CommRing R]

/-- What claim C9 asks of the node a builder returns: it is not a leaf, its `requires_grad`
is `rg`, and it carries a closure exactly when `rg` is true. -/
def FlagsOK (r : Heap R × Nat) (rg : Bool) : Prop :=
  (r.1.node r.2).is_leaf = false ∧ (r.1.node r.2).requires_grad = rg ∧
    ((r.1.node r.2).backward_.isSome = rg)

/-- Every stored predecessor pointer refers to an object allocated earlier. -/
def Acyclic (h : Heap R) : Prop := ∀ x, ∀ p ∈ (h.node x).prev_, p < x

/-- Proposition `Reach h r x`: `x` is reachable from `r` through `prev_` edges (`r` included). -/
inductive Reach (h : Heap R) (r : Nat) : Nat → Prop
  | root : Reach h r r
  | pred {x p : Nat} : Reach h r x → p ∈ (h.node x).prev_ → Reach h r p

/-- Every member of `order` comes strictly after each of its predecessors. -/
def Ordered (h : Heap R) (order : List Nat) : Prop :=
  ∀ x ∈ order, ∀ p ∈ (h.node x).prev_, p ∈ order ∧ order.indexOf p < order.indexOf x

/-- Invariant of the traversal state `(visited, topo)`. -/
def DfsInv (h : Heap R) (st : List Nat × List Nat) : Prop :=
  st.2 ⊆ st.1 ∧ st.2.Nodup ∧ Ordered h st.2

/-- The nodes entered but not yet emitted are the same in both states. -/
def SameOpen (st st1 : List Nat × List Nat) : Prop :=
  ∀ x, (x ∈ st1.1 ∧ x ∉ st1.2) ↔ (x ∈ st.1 ∧ x ∉ st.2)

/-- The output grew by nodes satisfying `P`. -/
def Extends (P : Nat → Prop) (st st1 : List Nat × List Nat) : Prop :=
  ∃ added, st1.2 = st.2 ++ added ∧ ∀ x ∈ added, P x

/-- What one call `build_topo(v, visited, topo)` achieves. -/
def CallPost (h : Heap R) (v : Nat) (st st1 : List Nat × List Nat) : Prop :=
  DfsInv h st1 ∧ Extends (fun x => Reach h v x) st st1 ∧ v ∈ st1.2 ∧ SameOpen st st1

/-- What the loop over the children `cs` achieves. -/
def LoopPost (h : Heap R) (cs : List Nat) (st st1 : List Nat × List Nat) : Prop :=
  DfsInv h st1 ∧ Extends (fun x => ∃ c ∈ cs, Reach h c x) st st1 ∧ (∀ c ∈ cs, c ∈ st1.2) ∧
    SameOpen st st1

end SpecDefs

section EngineSpecDefs

variable {R : Type} [LinearOrderedField R]

/-- Heaps that the public construction interface can produce: `create_value` (of which
`create_parameter` and the `Value` constructor are instances) and the eight builders, applied to
pointers to existing objects. -/
inductive Built (L : Libm R) : Heap R → Prop
  | empty : Built L []
  | create_value {h : Heap R} (v : R) (prev : List Nat) (op : String) (rg lf : Bool) :
      Built L h → (∀ p ∈ prev, p < h.length) → Built L (create_value h v prev op rg lf).1
  | add {h : Heap R} (a b : Nat) :
      Built L h → a < h.length → b < h.length → Built L (operator_add h a b).1
  | mul {h : Heap R} (a b : Nat) :
      Built L h → a < h.length → b < h.length → Built L (operator_mul h a b).1
  | neg {h : Heap R} (a : Nat) :
      Built L h → a < h.length → Built L (operator_neg h a).1
  | sub {h : Heap R} (a b : Nat) :
      Built L h → a < h.length → b < h.length → Built L (operator_sub h a b).1
  | pow {h : Heap R} (a b : Nat) :
      Built L h → a < h.length → b < h.length → Built L (pow L h a b).1
  | div {h : Heap R} (a b : Nat) (r : Heap R × Nat) :
      Built L h → a < h.length → b < h.length → operator_div L h a b = .ok r → Built L r.1
  | exp {h : Heap R} (a : Nat) :
      Built L h → a < h.length → Built L (exp L h a).1
  | tanh {h : Heap R} (a : Nat) :
      Built L h → a < h.length → Built L (tanh L h a).1

/-- A `Libm` over the rationals for the worked examples (its functions are placeholders). -/
def exLibm : Libm ℚ := ⟨fun x _ => x, fun x => x, fun x => x, fun x => x⟩

/-- Two leaves: a parameter `2` and a fixed input `3`. -/
def exLeaves : Heap ℚ := [Value.mk0 2 [] "" true true, Value.mk0 3 [] "" false true]

end EngineSpecDefs

/-- The heap of `y = x*x + x` for the parameter `x = 3`: `x` at 0, `x*x` at 1, `y` at 2. -/
def exShared : Heap ℚ :=
  (operator_add (operator_mul (create_parameter [] 3).1 0 0).1 1 0).1

section FrameDefs

variable {R : Type} [CommRing R]

/-- The node with its `grad` field blanked. -/
def Value.forgetGrad (v : Value R) : Value R := { v with grad := 0 }

/-- Heap `h1` differs from `h` in `grad` fields only. -/
def GradOnly (h h1 : Heap R) : Prop :=
  h1.length = h.length ∧ ∀ p, (h1.node p).forgetGrad = (h.node p).forgetGrad

end FrameDefs

/-- The heap `exShared` after `y.backward(1, true, false)`: gradients kept, graph severed. -/
def exSharedSevered : Heap ℚ :=
  [⟨3, 0 + 1 + 3 * (0 + 1) + 3 * (0 + 1), [], "", none, true, true⟩,
   ⟨3 * 3, 0 + 1, [], "*", none, true, false⟩,
   ⟨3 * 3 + 3, 1, [], "+", none, true, false⟩]

/-- The heap `exShared` after `y.backward(1, false, true)`: non-leaf gradients reset, graph kept. -/
def exSharedReset : Heap ℚ :=
  [⟨3, 0 + 1 + 3 * (0 + 1) + 3 * (0 + 1), [], "", none, true, true⟩,
   ⟨3 * 3, 0, [0, 0], "*", some (Closure.mul 0 0 1), true, false⟩,
   ⟨3 * 3 + 3, 0, [1, 0], "+", some (Closure.add 1 0 2), true, false⟩]

section ScenarioDefs

variable {R : Type} [Zero R] [One R] [Add R] [Mul R] [Neg R]

/-- The program `x = create_parameter(v); y = x*x + x`, run on a heap `h0`; returns the heap and
the pointers `(x, y)`. -/
def sharedGraph (h0 : Heap R) (v : R) : Heap R × Nat × Nat :=
  let (h1, x) := create_parameter h0 v
  let (h2, m) := operator_mul h1 x x
  let (h3, y) := operator_add h2 m x
  (h3, x, y)

end ScenarioDefs

section ScenarioEngineDefs

variable {R : Type} [Zero R] [One R] [Add R] [Mul R] [Neg R] [Sub R] [Div R] [NatCast R]
  [Pow R ℕ] [LT R] [DecidableEq R] [DecidableRel (fun a b : R => a < b)]

/-- The program `a, b, c = create_parameter(..); d = a*b + c; e = tanh(d)`, run on a heap `h0`;
returns the heap and the pointers `(a, b, c, d, e)`. -/
def tanhGraph (L : Libm R) (h0 : Heap R) (va vb vc : R) :
    Heap R × Nat × Nat × Nat × Nat × Nat :=
  let (h1, a) := create_parameter h0 va
  let (h2, b) := create_parameter h1 vb
  let (h3, c) := create_parameter h2 vc
  let (h4, m) := operator_mul h3 a b
  let (h5, d) := operator_add h4 m c
  let (h6, e) := tanh L h5 d
  (h6, a, b, c, d, e)

end ScenarioEngineDefs

section TangentDefs

variable {R : Type} [CommRing R]

/-- The list handed to the propagate loop: every node stands before all of its predecessors and
does not occur again. -/
def RevTopo (H : Heap R) : List Nat → Prop
  | [] => True
  | x :: rest => (∀ p ∈ (H.node x).prev_, p ∈ rest) ∧ x ∉ rest ∧ RevTopo H rest

/-- Node `i` of `H` has zero `grad`, and `D` obeys at `i` the differentiation rule of the
operation that produced `i`, for differentiation with respect to the leaf `l`: a node without
predecessors has derivative `1` if it is `l` and `0` otherwise; a sum has the sum of the
derivatives; a product obeys the product rule. -/
def TangentAt (H : Heap R) (l : Nat) (D : Nat → R) (i : Nat) : Prop :=
  (H.node i).grad = 0 ∧
  (((H.node i).prev_ = [] ∧ (H.node i).backward_ = none ∧ D i = if i = l then 1 else 0) ∨
   (∃ a b, a < i ∧ b < i ∧ (H.node i).prev_ = [a, b] ∧
      (H.node i).requires_grad = ((H.node a).requires_grad || (H.node b).requires_grad) ∧
      (H.node i).backward_ =
        (if (H.node i).requires_grad then some (Closure.add a b i) else none) ∧
      D i = D a + D b) ∨
   (∃ a b, a < i ∧ b < i ∧ (H.node i).prev_ = [a, b] ∧
      (H.node i).requires_grad = ((H.node a).requires_grad || (H.node b).requires_grad) ∧
      (H.node i).backward_ =
        (if (H.node i).requires_grad then some (Closure.mul a b i) else none) ∧
      D i = D a * (H.node b).data + (H.node a).data * D b))

/-- The sum of `grad i * w i` over the heap. -/
def gradSum (h : Heap R) (w : Nat → R) : R :=
  Finset.sum (Finset.range h.length) (fun i => (h.node i).grad * w i)

/-- Weight of node `i` while the nodes `todo` still await their closure call: the derivative
`D i` for those nodes and for the leaf `l`, zero for the others. -/
def pendingWeight (D : Nat → R) (l : Nat) (todo : List Nat) (i : Nat) : R :=
  if i ∈ todo ∨ i = l then D i else 0

end TangentDefs

section ProgramDefs

variable {R : Type} [Zero R] [One R] [Add R] [Mul R] [Neg R]

/-- One statement of a client program that builds a polynomial expression graph: a client leaf
with the given `requires_grad`, or one of the builders `+`, `*`, unary `-`, binary `-` applied
to pointers. -/
inductive Cmd where
  | leaf (requires_grad : Bool)
  | add (a b : Nat)
  | mul (a b : Nat)
  | neg (a : Nat)
  | sub (a b : Nat)
  deriving DecidableEq

/-- Run one statement.  A leaf is `create_value(v, {}, "", requires_grad)`, with its value `v`
read from the input vector `env` at the address the leaf receives. -/
def Cmd.run (env : Nat → R) (h : Heap R) : Cmd → Heap R
  | .leaf rg => (create_value h (env h.length) [] "" rg true).1
  | .add a b => (operator_add h a b).1
  | .mul a b => (operator_mul h a b).1
  | .neg a => (operator_neg h a).1
  | .sub a b => (operator_sub h a b).1

/-- The pointers a statement dereferences. -/
def Cmd.operands : Cmd → List Nat
  | .leaf _ => []
  | .add a b => [a, b]
  | .mul a b => [a, b]
  | .neg a => [a]
  | .sub a b => [a, b]

/-- How many objects a statement allocates. -/
def Cmd.allocs : Cmd → Nat
  | .leaf _ => 1
  | .add _ _ => 1
  | .mul _ _ => 1
  | .neg _ => 2
  | .sub _ _ => 3

/-- Every statement only uses pointers to objects that exist when it runs, on a heap that holds
`n` objects at the start. -/
def ValidFrom : Nat → List Cmd → Prop
  | _, [] => True
  | n, c :: cs => (∀ a ∈ c.operands, a < n) ∧ ValidFrom (n + c.allocs) cs

/-- Run a program on the heap `h`. -/
def execFrom (env : Nat → R) (h : Heap R) (cmds : List Cmd) : Heap R :=
  cmds.foldl (Cmd.run env) h

/-- Run a program on the empty heap. -/
def exec (env : Nat → R) (cmds : List Cmd) : Heap R := execFrom env [] cmds

end ProgramDefs

section ProgramSpecDefs

variable {R : Type} [CommRing R]

/-- Image of a node under a map of scalars. -/
def Value.map {S : Type} (f : R → S) (v : Value R) : Value S :=
  ⟨f v.data, f v.grad, v.prev_, v.op, v.backward_, v.requires_grad, v.is_leaf⟩

/-- Node `i` of `H` is as a program leaves it: `grad` is zero and the node is a leaf holding
`env i` (or the synthetic constant `-1`, which does not require grad), a sum of two earlier
nodes, or a product of two earlier nodes, with flags and closure as the builders set them. -/
def Shape (H : Heap R) (env : Nat → R) (i : Nat) : Prop :=
  (H.node i).grad = 0 ∧
  (((H.node i).prev_ = [] ∧ (H.node i).backward_ = none ∧ (H.node i).is_leaf = true ∧
      ((H.node i).data = env i ∨ ((H.node i).data = -1 ∧ (H.node i).requires_grad = false))) ∨
   (∃ a b, a < i ∧ b < i ∧ (H.node i).prev_ = [a, b] ∧ (H.node i).is_leaf = false ∧
      (H.node i).requires_grad = ((H.node a).requires_grad || (H.node b).requires_grad) ∧
      (H.node i).backward_ =
        (if (H.node i).requires_grad then some (Closure.add a b i) else none) ∧
      (H.node i).data = (H.node a).data + (H.node b).data) ∨
   (∃ a b, a < i ∧ b < i ∧ (H.node i).prev_ = [a, b] ∧ (H.node i).is_leaf = false ∧
      (H.node i).requires_grad = ((H.node a).requires_grad || (H.node b).requires_grad) ∧
      (H.node i).backward_ =
        (if (H.node i).requires_grad then some (Closure.mul a b i) else none) ∧
      (H.node i).data = (H.node a).data * (H.node b).data))

end ProgramSpecDefs

/-- The program `x = leaf(requires_grad = true); m = x*x; y = m + x`. -/
def exProgram : List Cmd := [Cmd.leaf true, Cmd.mul 0 0, Cmd.add 1 0]

section ForwardDefs

variable {R : Type} [CommRing R]

/-- The builder result `r` (new heap, returned pointer) leaves every object of `h` as it was. -/
def Preserves (h : Heap R) (r : Heap R × Nat) : Prop :=
  ∀ q, q < h.length → r.1.node q = h.node q

/-- Method `Module::zero_grad` of `nn.h`: `for (auto &p : parameters()) p->zero_grad();`, with
the result of the virtual `parameters()` given as a list of pointers. -/
def Module_zero_grad (parameters : List Nat) (h : Heap R) : Heap R :=
  parameters.foldl (fun h p => zero_grad h p) h

end ForwardDefs

section ForwardEngineDefs

variable {R : Type} [LinearOrderedField R]

/-- Heaps produced by the public construction interface when `create_value` (and the `Value`
constructor) is never asked for `is_leaf = true` together with a non-empty `prev`. -/
inductive BuiltLeafSafe (L : Libm R) : Heap R → Prop
  | empty : BuiltLeafSafe L []
  | create_value {h : Heap R} (v : R) (prev : List Nat) (op : String) (rg lf : Bool) :
      BuiltLeafSafe L h → (∀ p ∈ prev, p < h.length) → (lf = true → prev = []) →
      BuiltLeafSafe L (create_value h v prev op rg lf).1
  | create_parameter {h : Heap R} (v : R) :
      BuiltLeafSafe L h → BuiltLeafSafe L (create_parameter h v).1
  | add {h : Heap R} (a b : Nat) :
      BuiltLeafSafe L h → a < h.length → b < h.length → BuiltLeafSafe L (operator_add h a b).1
  | mul {h : Heap R} (a b : Nat) :
      BuiltLeafSafe L h → a < h.length → b < h.length → BuiltLeafSafe L (operator_mul h a b).1
  | neg {h : Heap R} (a : Nat) :
      BuiltLeafSafe L h → a < h.length → BuiltLeafSafe L (operator_neg h a).1
  | sub {h : Heap R} (a b : Nat) :
      BuiltLeafSafe L h → a < h.length → b < h.length → BuiltLeafSafe L (operator_sub h a b).1
  | pow {h : Heap R} (a b : Nat) :
      BuiltLeafSafe L h → a < h.length → b < h.length → BuiltLeafSafe L (pow L h a b).1
  | div {h : Heap R} (a b : Nat) (r : Heap R × Nat) :
      BuiltLeafSafe L h → a < h.length → b < h.length → operator_div L h a b = .ok r →
      BuiltLeafSafe L r.1
  | exp {h : Heap R} (a : Nat) :
      BuiltLeafSafe L h → a < h.length → BuiltLeafSafe L (exp L h a).1
  | tanh {h : Heap R} (a : Nat) :
      BuiltLeafSafe L h → a < h.length → BuiltLeafSafe L (tanh L h a).1

/-- A `Libm` over the rationals whose `pow` is exact for the exponents `-1` and `-2`
(the other functions are placeholders). -/
def ratLibm : Libm ℚ :=
  ⟨fun x y => if y = -1 then x⁻¹ else if y = -2 then (x ^ 2)⁻¹ else x,
    fun x => x, fun x => x, fun x => x⟩

end ForwardEngineDefs

/-- The leaves of the boundary case of `pow`: `leaf(0.0, true)` and `leaf(-1.0, true)`. -/
def exZeroPow : Heap ℚ := [Value.mk0 0 [] "" true true, Value.mk0 (-1) [] "" true true]

/-- Two parameters, `2` and `3`. -/
def exParams : Heap ℚ := [Value.mk0 2 [] "" true true, Value.mk0 3 [] "" true true]

section DivideDefs

variable {R : Type} [Zero R] [One R] [Add R] [Mul R] [Neg R] [Sub R] [Div R] [NatCast R]
  [Pow R ℕ] [LT R] [DecidableEq R] [DecidableRel (fun a b : R => a < b)]

/-- The program `a = create_parameter(va); b = create_parameter(vb); out = a / b`, run on a
heap `h0`; returns the heap and the pointers `(a, b, out)`, or the error of `operator/`. -/
def divGraph (L : Libm R) (h0 : Heap R) (va vb : R) :
    Except (Err × Heap R) (Heap R × Nat × Nat × Nat) :=
  let (h1, a) := create_parameter h0 va
  let (h2, b) := create_parameter h1 vb
  match operator_div L h2 a b with
  | .ok (h3, out) => .ok (h3, a, b, out)
  | .error e => .error e

end DivideDefs

section ClosureDefs

variable {R : Type} [CommRing R]

/-- The captured `wout` of a closure. -/
def Closure.out : Closure → Nat
  | .add _ _ wout => wout
  | .mul _ _ wout => wout
  | .pow _ _ wout => wout
  | .exp _ wout => wout
  | .tanh _ wout => wout

/-- The pointers whose `grad` a closure may write: its captured operands. -/
def Closure.targets : Closure → List Nat
  | .add wl wr _ => [wl, wr]
  | .mul wl wr _ => [wl, wr]
  | .pow wbase wexp _ => [wbase, wexp]
  | .exp wv _ => [wv]
  | .tanh wv _ => [wv]

/-- The operands a closure writes without testing `requires_grad` (`exp`, `tanh`). -/
def Closure.unguarded : Closure → List Nat
  | .exp wv _ => [wv]
  | .tanh wv _ => [wv]
  | _ => []

/-- Every stored closure is as a builder leaves it: it sits on the node it captured as `wout`,
that node is not a leaf, the captured operands are the node's predecessors, and an operand
written without a `requires_grad` test does require grad. -/
def ClosuresOK (h : Heap R) : Prop :=
  ∀ x c, (h.node x).backward_ = some c →
    c.out = x ∧ (h.node x).is_leaf = false ∧ c.targets = (h.node x).prev_ ∧
      ∀ t ∈ c.unguarded, (h.node t).requires_grad = true

end ClosureDefs

/-- The heap of `-x` for the parameter `x = 2`, next to the fixed input `3`: the constant `-1`
at 2, the product at 3. -/
def exNeg : Heap ℚ := (operator_neg exLeaves 0).1


section TraceDefs

variable {R : Type} [LinearOrderedField R]

/-- The loop of `propagate` once more, recording every invocation `node->backward_()`: the
node, the heap before the call and the heap after it.  A call that throws is recorded with the
heap unchanged, and ends the pass. -/
def propagate_trace (L : Libm R) : List Nat → Heap R → List (Nat × Heap R × Heap R)
  | [], _ => []
  | node :: rest, h =>
    match (h.node node).requires_grad, (h.node node).backward_ with
    | true, some c =>
      match c.call L h with
      | .ok h1 => (node, h, h1) :: propagate_trace L rest h1
      | .error _ => [(node, h, h)]
    | _, _ => propagate_trace L rest h

/-- The heap after the last recorded call (`h` when nothing was called). -/
def traceEnd (tr : List (Nat × Heap R × Heap R)) (h : Heap R) : Heap R :=
  match tr.getLast? with
  | some e => e.2.2
  | none => h

end TraceDefs

section OffsetDefs

variable {R : Type} [CommRing R]

/-- Heap `k` has the structure and data of `h`, and every `grad` of `k` is the `grad` of `h`
plus the fixed offset `off`. -/
def OffsetRel (off : Nat → R) (h k : Heap R) : Prop :=
  GradOnly h k ∧ ∀ x, (k.node x).grad = (h.node x).grad + off x

end OffsetDefs

section LifetimeDefs

variable {R : Type} [CommRing R]

/-- The body of the severing loop, `node->backward_ = nullptr; node->prev_.clear();`. -/
def sever_node (h : Heap R) (node : Nat) : Heap R :=
  h.modify (fun v => { v with backward_ := none, prev_ := [] }) node

/-- Object `x` is alive: some owning `shared_ptr` chain leads to it.  The owners of a `Value` are
the client's `ValuePtr` handles and the entries of the `prev_` vector of an object that is itself
alive (the closures hold `weak_ptr` only), so on an acyclic heap an object has a positive
reference count exactly when it is reachable from a handle through `prev_`. -/
def Alive (h : Heap R) (handles : List Nat) (x : Nat) : Prop :=
  ∃ r ∈ handles, Reach h r x

/-- The severing loop `for (auto *node : topo) { ... }` run over raw pointers, with lifetimes
tracked: each node is alive at the moment the loop dereferences it, in the heap the earlier
iterations have left. -/
def SeverSafe (handles : List Nat) : List Nat → Heap R → Prop
  | [], _ => True
  | node :: rest, h => Alive h handles node ∧ SeverSafe handles rest (sever_node h node)

end LifetimeDefs

/-- The heap of `e = tanh(a*b + c)` for parameters `a = 2`, `b = -3`, `c = 10`: `a`, `b`, `c` at
0, 1, 2, `a*b` at 3, `a*b + c` at 4, `e` at 5. -/
def exTanh : Heap ℚ := (tanhGraph exLibm [] 2 (-3) 10).1

/-! ## A model of `double` with rounding -/

/-- The finite values of IEEE-754 binary64 with the exponent range left unbounded:
`(-1)^neg * m * 2^e`.  Zero is `⟨false, 0, 0⟩`; every other value the operations return has
`2^52 ≤ m < 2^53`.  Overflow, subnormals, infinities, NaN and the sign of zero are not modelled. -/
structure F64 where
  neg : Bool
  m : Nat
  e : Int
  deriving DecidableEq

namespace F64

/-- Bit length of `n`; the first argument bounds the recursion. -/
def bitlen : Nat → Nat → Nat
  | 0, _ => 0
  | fuel + 1, n => if n = 0 then 0 else bitlen fuel (n / 2) + 1

/-- Round `(-1)^neg * (n / d) * 2^e` to the nearest value with a 53-bit significand, ties to
even (the default IEEE rounding mode).  The quotient is first taken with at least 55 bits;
`d = 0` gives zero. -/
def round (neg : Bool) (n d : Nat) (e : Int) : F64 :=
  if n = 0 ∨ d = 0 then ⟨false, 0, 0⟩
  else
    let k := 55 + bitlen d d - bitlen n n
    let q := n * 2 ^ k / d
    let sticky := n * 2 ^ k % d
    let s := bitlen q q - 53
    let m0 := q / 2 ^ s
    let rest := q % 2 ^ s
    let half := 2 ^ (s - 1)
    let up : Bool :=
      if rest < half then false
      else if half < rest ∨ sticky ≠ 0 then true
      else m0 % 2 = 1
    let m1 := if up then m0 + 1 else m0
    if m1 = 2 ^ 53 then ⟨neg, 2 ^ 52, e - k + s + 1⟩ else ⟨neg, m1, e - k + s⟩

/-- The integer `x * 2^(-e0)` for an exponent `e0` not above that of `x`. -/
def scaled (x : F64) (e0 : Int) : Int :=
  (if x.neg then -1 else 1) * (x.m : Int) * 2 ^ (x.e - e0).toNat

/-- Round an integer multiple of `2^e`. -/
def ofScaled (z : Int) (e : Int) : F64 := round (decide (z < 0)) z.natAbs 1 e

instance : Zero F64 := ⟨⟨false, 0, 0⟩⟩

instance : One F64 := ⟨round false 1 1 0⟩

instance : NatCast F64 := ⟨fun n => round false n 1 0⟩

instance : Neg F64 := ⟨fun x => if x.m = 0 then x else ⟨!x.neg, x.m, x.e⟩⟩

instance : Add F64 :=
  ⟨fun x y => ofScaled (x.scaled (min x.e y.e) + y.scaled (min x.e y.e)) (min x.e y.e)⟩

instance : Sub F64 :=
  ⟨fun x y => ofScaled (x.scaled (min x.e y.e) - y.scaled (min x.e y.e)) (min x.e y.e)⟩

instance : Mul F64 := ⟨fun x y => round (x.neg != y.neg) (x.m * y.m) 1 (x.e + y.e)⟩

instance : Div F64 := ⟨fun x y => round (x.neg != y.neg) x.m y.m (x.e - y.e)⟩

instance : Pow F64 ℕ := ⟨fun x n => Nat.rec 1 (fun _ r => r * x) n⟩

instance : LT F64 := ⟨fun x y => x.scaled (min x.e y.e) < y.scaled (min x.e y.e)⟩

instance (x y : F64) : Decidable (x < y) :=
  inferInstanceAs (Decidable (x.scaled (min x.e y.e) < y.scaled (min x.e y.e)))

/-- The rational number a value stands for. -/
def toRat (x : F64) : ℚ := (if x.neg then -1 else 1) * (x.m : ℚ) * (2 : ℚ) ^ x.e

end F64

/-- A `Libm` over the binary64 model whose `pow(x, -1)` is `1 / x` correctly rounded (what
glibc returns at the inputs used here); the other values are placeholders. -/
def f64Libm : Libm F64 :=
  ⟨fun x y => if y = -1 then 1 / x else x, fun x => x, fun x => x, fun x => x⟩

/-! ## Heap lemmas -/

section HeapLemmas

variable {R : Type} [Zero R]

theorem node_append_left (h t : Heap R) (p : Nat) (hp : p < h.length) :
    Heap.node (h ++ t) p = h.node p := by
  simp [Heap.node, List.getElem?_append_left hp]

theorem node_append_right (h t : Heap R) (k : Nat) :
    Heap.node (h ++ t) (h.length + k) = Heap.node t k := by
  simp [Heap.node, List.getElem?_append_right (Nat.le_add_right _ _)]

theorem node_append_length (h : Heap R) (v : Value R) (t : Heap R) :
    Heap.node (h ++ v :: t) h.length = v := by
  simpa [Heap.node] using node_append_right h (v :: t) 0

theorem node_cons_zero (v : Value R) (t : Heap R) : Heap.node (v :: t) 0 = v := by
  simp [Heap.node]

theorem node_cons_succ (v : Value R) (t : Heap R) (k : Nat) :
    Heap.node (v :: t) (k + 1) = Heap.node t k := by
  simp [Heap.node]

theorem node_modify (h : Heap R) (f : Value R → Value R) (p q : Nat) :
    Heap.node (List.modify f p h) q = if q = p ∧ p < h.length then f (h.node q) else h.node q := by
  unfold Heap.node
  rw [List.getElem?_modify]
  by_cases hq : q = p
  · subst hq
    by_cases hl : q < h.length
    · simp [hl, List.getElem?_eq_getElem hl]
    · simp [hl, List.getElem?_eq_none (Nat.le_of_not_lt hl)]
  · have : ¬ p = q := fun e => hq e.symm
    simp [hq, this]

theorem node_nil (k : Nat) : Heap.node ([] : Heap R) k = default := by
  simp [Heap.node]

theorem default_prev : (default : Value R).prev_ = [] := rfl

theorem node_of_length_le (h : Heap R) (p : Nat) (hp : h.length ≤ p) :
    h.node p = default := by
  simp [Heap.node, List.getElem?_eq_none hp]

omit [Zero R] in
theorem modify_append_length (h : Heap R) (v : Value R) (f : Value R → Value R) :
    List.modify f h.length (h ++ [v]) = h ++ [f v] := by
  induction h with
  | nil => rfl
  | cons a t ih => simp [List.modify_succ_cons, ih]

end HeapLemmas

/-! ## Closed forms of the builders -/

section BuilderLemmasAdd

variable {R : Type} [Zero R] [Add R]

theorem operator_add_eq (h : Heap R) (a b : Nat) :
    operator_add h a b =
      (h ++ [⟨(h.node a).data + (h.node b).data, 0, [a, b], "+",
          if (h.node a).requires_grad || (h.node b).requires_grad
            then some (Closure.add a b h.length) else none,
          (h.node a).requires_grad || (h.node b).requires_grad, false⟩], h.length) := by
  unfold operator_add create_value set_backward
  cases hrg : ((h.node a).requires_grad || (h.node b).requires_grad) <;>
    simp [modify_append_length, Value.mk0]

end BuilderLemmasAdd

section BuilderLemmasMul

variable {R : Type} [Zero R] [Mul R]

theorem operator_mul_eq (h : Heap R) (a b : Nat) :
    operator_mul h a b =
      (h ++ [⟨(h.node a).data * (h.node b).data, 0, [a, b], "*",
          if (h.node a).requires_grad || (h.node b).requires_grad
            then some (Closure.mul a b h.length) else none,
          (h.node a).requires_grad || (h.node b).requires_grad, false⟩], h.length) := by
  unfold operator_mul create_value set_backward
  cases hrg : ((h.node a).requires_grad || (h.node b).requires_grad) <;>
    simp [modify_append_length, Value.mk0]

end BuilderLemmasMul

section BuilderLemmas

variable {R : Type} [CommRing R]

theorem operator_neg_eq (h : Heap R) (a : Nat) (ha : a < h.length) :
    operator_neg h a =
      (h ++ [⟨-1, 0, [], "", none, false, true⟩,
             ⟨(h.node a).data * (-1), 0, [a, h.length], "*",
              if (h.node a).requires_grad then some (Closure.mul a h.length (h.length + 1))
              else none,
              (h.node a).requires_grad, false⟩], h.length + 1) := by
  unfold operator_neg create_value
  simp only [operator_mul_eq]
  rw [node_append_left _ _ _ ha, node_append_length]
  simp [Value.mk0]

theorem operator_sub_eq (h : Heap R) (a b : Nat) (ha : a < h.length) (hb : b < h.length) :
    operator_sub h a b =
      (h ++ [⟨-1, 0, [], "", none, false, true⟩,
             ⟨(h.node b).data * (-1), 0, [b, h.length], "*",
              if (h.node b).requires_grad then some (Closure.mul b h.length (h.length + 1))
              else none,
              (h.node b).requires_grad, false⟩,
             ⟨(h.node a).data + (h.node b).data * (-1), 0, [a, h.length + 1], "+",
              if (h.node a).requires_grad || (h.node b).requires_grad
                then some (Closure.add a (h.length + 1) (h.length + 2)) else none,
              (h.node a).requires_grad || (h.node b).requires_grad, false⟩], h.length + 2) := by
  unfold operator_sub
  rw [operator_neg_eq h b hb]
  simp only [operator_add_eq]
  rw [node_append_left _ _ _ ha, node_append_right]
  simp [node_cons_succ, node_cons_zero]

end BuilderLemmas

section LibmBuilderLemmas

variable {R : Type} [Zero R]

theorem pow_eq (L : Libm R) (h : Heap R) (a b : Nat) :
    pow L h a b =
      (h ++ [⟨L.pow (h.node a).data (h.node b).data, 0, [a, b], "pow",
          if (h.node a).requires_grad || (h.node b).requires_grad
            then some (Closure.pow a b h.length) else none,
          (h.node a).requires_grad || (h.node b).requires_grad, false⟩], h.length) := by
  unfold pow create_value set_backward
  cases hrg : ((h.node a).requires_grad || (h.node b).requires_grad) <;>
    simp [modify_append_length, Value.mk0]

theorem exp_eq (L : Libm R) (h : Heap R) (a : Nat) :
    exp L h a =
      (h ++ [⟨L.exp (h.node a).data, 0, [a], "exp",
          if (h.node a).requires_grad then some (Closure.exp a h.length) else none,
          (h.node a).requires_grad, false⟩], h.length) := by
  unfold exp create_value set_backward
  cases hrg : (h.node a).requires_grad <;>
    simp [modify_append_length, Value.mk0]

theorem tanh_eq (L : Libm R) (h : Heap R) (a : Nat) :
    tanh L h a =
      (h ++ [⟨L.tanh (h.node a).data, 0, [a], "tanh",
          if (h.node a).requires_grad then some (Closure.tanh a h.length) else none,
          (h.node a).requires_grad, false⟩], h.length) := by
  unfold tanh create_value set_backward
  cases hrg : (h.node a).requires_grad <;>
    simp [modify_append_length, Value.mk0]

end LibmBuilderLemmas

section EngineBuilderLemmas

variable {R : Type} [LinearOrderedField R]

theorem tiny_pos : (0 : R) < tiny := by
  unfold tiny
  positivity

/-- In an ordered field `fabs` is the absolute value. -/
theorem fabs_eq_abs (x : R) : fabs x = |x| := by
  unfold fabs
  split
  · rename_i h
    rw [abs_of_neg h]
  · rename_i h
    rw [abs_of_nonneg (not_lt.1 h)]

theorem operator_div_guard (x : R) : (x = 0 ∨ fabs x < tiny) ↔ |x| < tiny := by
  rw [fabs_eq_abs]
  constructor
  · rintro (h | h)
    · subst h
      simpa using (tiny_pos : (0 : R) < tiny)
    · exact h
  · exact Or.inr

theorem operator_div_eq (L : Libm R) (h : Heap R) (a b : Nat)
    (ha : a < h.length) (hb : b < h.length) (hnz : ¬ |(h.node b).data| < tiny) :
    operator_div L h a b = .ok
      (h ++ [⟨-1, 0, [], "", none, false, true⟩,
             ⟨L.pow (h.node b).data (-1), 0, [b, h.length], "pow",
              if (h.node b).requires_grad then some (Closure.pow b h.length (h.length + 1))
              else none,
              (h.node b).requires_grad, false⟩,
             ⟨(h.node a).data * L.pow (h.node b).data (-1), 0, [a, h.length + 1], "*",
              if (h.node a).requires_grad || (h.node b).requires_grad
                then some (Closure.mul a (h.length + 1) (h.length + 2)) else none,
              (h.node a).requires_grad || (h.node b).requires_grad, false⟩], h.length + 2) := by
  unfold operator_div
  rw [if_neg (by rw [operator_div_guard]; exact hnz)]
  simp only [create_value, pow_eq, operator_mul_eq, List.append_assoc, List.length_append,
    List.length_singleton, List.singleton_append, List.cons_append, List.nil_append]
  rw [node_append_left _ _ _ hb, node_append_length, node_append_left _ _ _ ha,
    node_append_right]
  simp [node_cons_succ, node_cons_zero, Value.mk0]

end EngineBuilderLemmas

/-! ## Claims C9 and C10: the builders -/

section BuilderClaims

variable {R : Type} [LinearOrderedField R]

/-- Claim C9.  Each of the eight builders, applied to existing operands `a`, `b`, returns a node
with `is_leaf = false`, `requires_grad` equal to the OR of the operands' flags (the synthetic
`-1` constant of negate, subtract and divide contributes nothing), and a `backward_` closure that
is present exactly when that `requires_grad` is true.  `operator/` is covered where it returns. -/
theorem builder_flags (L : Libm R) (h : Heap R) (a b : Nat)
    (ha : a < h.length) (hb : b < h.length) :
    FlagsOK (operator_add h a b) ((h.node a).requires_grad || (h.node b).requires_grad) ∧
    FlagsOK (operator_mul h a b) ((h.node a).requires_grad || (h.node b).requires_grad) ∧
    FlagsOK (operator_neg h a) (h.node a).requires_grad ∧
    FlagsOK (operator_sub h a b) ((h.node a).requires_grad || (h.node b).requires_grad) ∧
    FlagsOK (pow L h a b) ((h.node a).requires_grad || (h.node b).requires_grad) ∧
    (¬ |(h.node b).data| < tiny →
      ∃ r, operator_div L h a b = .ok r ∧
        FlagsOK r ((h.node a).requires_grad || (h.node b).requires_grad)) ∧
    FlagsOK (exp L h a) (h.node a).requires_grad ∧
    FlagsOK (tanh L h a) (h.node a).requires_grad := by
  refine ⟨?_, ?_, ?_, ?_, ?_, ?_, ?_, ?_⟩
  · rw [operator_add_eq]
    simp only [FlagsOK, node_append_length]
    cases (h.node a).requires_grad <;> cases (h.node b).requires_grad <;> simp
  · rw [operator_mul_eq]
    simp only [FlagsOK, node_append_length]
    cases (h.node a).requires_grad <;> cases (h.node b).requires_grad <;> simp
  · rw [operator_neg_eq h a ha]
    simp only [FlagsOK, node_append_right, node_cons_succ, node_cons_zero]
    cases (h.node a).requires_grad <;> simp
  · rw [operator_sub_eq h a b ha hb]
    simp only [FlagsOK, node_append_right, node_cons_succ, node_cons_zero]
    cases (h.node a).requires_grad <;> cases (h.node b).requires_grad <;> simp
  · rw [pow_eq]
    simp only [FlagsOK, node_append_length]
    cases (h.node a).requires_grad <;> cases (h.node b).requires_grad <;> simp
  · intro hnz
    refine ⟨_, operator_div_eq L h a b ha hb hnz, ?_⟩
    simp only [FlagsOK, node_append_right, node_cons_succ, node_cons_zero]
    cases (h.node a).requires_grad <;> cases (h.node b).requires_grad <;> simp
  · rw [exp_eq]
    simp only [FlagsOK, node_append_length]
    cases (h.node a).requires_grad <;> simp
  · rw [tanh_eq]
    simp only [FlagsOK, node_append_length]
    cases (h.node a).requires_grad <;> simp

/-- Instance of C9 on two leaves. -/
theorem builder_flags_witness :
    FlagsOK (operator_add exLeaves 0 1) true ∧ FlagsOK (operator_neg exLeaves 1) false :=
  have h := builder_flags exLibm exLeaves 0 1 (by decide) (by decide)
  have h1 := builder_flags exLibm exLeaves 1 1 (by decide) (by decide)
  ⟨h.1, h1.2.2.1⟩

/-- Claim C10.  `operator/` raises exactly when `|rhs->data| < 1e-12`, whatever `lhs` and the
flags are; what it raises is the division-by-zero error with the heap untouched; and in every
other case it returns a pointer to a node of the new heap, the old objects unchanged. -/
theorem operator_div_fails_iff (L : Libm R) (h : Heap R) (a b : Nat) :
    ((∃ e, operator_div L h a b = .error e) ↔ |(h.node b).data| < tiny) ∧
    (∀ e, operator_div L h a b = .error e → e = (Err.divisionByZero, h)) ∧
    ((∃ r, operator_div L h a b = .ok r ∧ r.2 < r.1.length ∧
        ∀ q, q < h.length → r.1.node q = h.node q) ↔ ¬ |(h.node b).data| < tiny) := by
  by_cases hz : |(h.node b).data| < tiny
  · have e : operator_div L h a b = .error (Err.divisionByZero, h) := by
      unfold operator_div
      rw [if_pos ((operator_div_guard _).2 hz)]
    rw [e]
    simp [hz]
  · have e : ∃ r, operator_div L h a b = .ok r ∧ r.2 < r.1.length ∧
        ∀ q, q < h.length → r.1.node q = h.node q := by
      unfold operator_div
      rw [if_neg (by rw [operator_div_guard]; exact hz)]
      simp only [create_value, pow_eq, operator_mul_eq, List.append_assoc]
      refine ⟨_, rfl, by simp, ?_⟩
      intro q hq
      exact node_append_left _ _ _ hq
    obtain ⟨r, hr, h1, h2⟩ := e
    rw [hr]
    simp [hz]
    exact ⟨h1, h2⟩

end BuilderClaims

/-! ## The topological sequencer -/

section Dfs
variable {R : Type} [CommRing R]

theorem reach_trans {h : Heap R} {a b c : Nat} (hab : Reach h a b) (hbc : Reach h b c) :
    Reach h a c := by
  induction hbc with
  | root => exact hab
  | pred _ hp ih => exact Reach.pred ih hp

theorem reach_of_pred {h : Heap R} {v c x : Nat} (hc : c ∈ (h.node v).prev_)
    (hx : Reach h c x) : Reach h v x :=
  reach_trans (Reach.pred Reach.root hc) hx

theorem reach_le {h : Heap R} (hac : Acyclic h) {r x : Nat} (hx : Reach h r x) : x ≤ r := by
  induction hx with
  | root => exact Nat.le_refl _
  | pred _ hp ih => exact Nat.le_of_lt (Nat.lt_of_lt_of_le (hac _ _ hp) ih)

theorem ordered_closed {h : Heap R} {order : List Nat} (ho : Ordered h order)
    {r x : Nat} (hr : r ∈ order) (hx : Reach h r x) : x ∈ order := by
  induction hx with
  | root => exact hr
  | pred _ hp ih => exact (ho _ ih _ hp).1

/-- Emitting `v` once all its predecessors are in the output keeps the output ordered. -/
theorem ordered_snoc {h : Heap R} {order : List Nat} (ho : Ordered h order) {v : Nat}
    (hv : v ∉ order) (hp : ∀ p ∈ (h.node v).prev_, p ∈ order) : Ordered h (order ++ [v]) := by
  intro x hx p hpx
  rw [List.mem_append, List.mem_singleton] at hx
  rcases hx with hx | hx
  · obtain ⟨h1, h2⟩ := ho x hx p hpx
    refine ⟨List.mem_append_left _ h1, ?_⟩
    rw [List.indexOf_append_of_mem h1, List.indexOf_append_of_mem hx]
    exact h2
  · subst hx
    have h1 := hp p hpx
    refine ⟨List.mem_append_left _ h1, ?_⟩
    rw [List.indexOf_append_of_mem h1, List.indexOf_append_of_not_mem hv]
    have := List.indexOf_lt_length.2 h1
    omega

theorem loop_children (h : Heap R) (f : List Nat × List Nat → Nat →
      Option (List Nat × List Nat)) (v : Nat)
    (hf : ∀ c st, c < v → DfsInv h st → (∀ x, x ∈ st.1 → x ∉ st.2 → c < x) →
      ∃ st1, f st c = some st1 ∧ CallPost h c st st1) :
    ∀ (cs : List Nat) (st : List Nat × List Nat), (∀ c ∈ cs, c < v) →
      DfsInv h st → (∀ x, x ∈ st.1 → x ∉ st.2 → v ≤ x) →
      ∃ st1, cs.foldlM f st = some st1 ∧ LoopPost h cs st st1 := by
  intro cs
  induction cs with
  | nil =>
    intro st _ hinv _
    exact ⟨st, rfl, hinv, ⟨[], by simp, by simp⟩, by simp, fun x => Iff.rfl⟩
  | cons c cs ih =>
    intro st hlt hinv hopen
    have hc : c < v := hlt c (List.mem_cons_self _ _)
    obtain ⟨st1, e1, inv1, ⟨add1, ea1, hr1⟩, hc1, so1⟩ :=
      hf c st hc hinv (fun x hx hnx => Nat.lt_of_lt_of_le hc (hopen x hx hnx))
    have hopen1 : ∀ x, x ∈ st1.1 → x ∉ st1.2 → v ≤ x := fun x hx hnx =>
      hopen x ((so1 x).1 ⟨hx, hnx⟩).1 ((so1 x).1 ⟨hx, hnx⟩).2
    obtain ⟨st2, e2, inv2, ⟨add2, ea2, hr2⟩, hc2, so2⟩ :=
      ih st1 (fun c' hc' => hlt c' (List.mem_cons_of_mem _ hc')) inv1 hopen1
    refine ⟨st2, ?_, inv2, ⟨add1 ++ add2, ?_, ?_⟩, ?_, ?_⟩
    · rw [List.foldlM_cons, e1]
      exact e2
    · rw [ea2, ea1, List.append_assoc]
    · intro x hx
      rw [List.mem_append] at hx
      rcases hx with hx | hx
      · exact ⟨c, List.mem_cons_self _ _, hr1 x hx⟩
      · obtain ⟨c', hc', hr⟩ := hr2 x hx
        exact ⟨c', List.mem_cons_of_mem _ hc', hr⟩
    · intro c' hc'
      rw [List.mem_cons] at hc'
      rcases hc' with rfl | hc'
      · rw [ea2]
        exact List.mem_append_left _ hc1
      · exact hc2 c' hc'
    · intro x
      exact (so2 x).trans (so1 x)

theorem build_topo_spec (h : Heap R) (hac : Acyclic h) :
    ∀ (fuel : Nat) (v : Nat) (st : List Nat × List Nat), v < fuel →
      DfsInv h st → (∀ x, x ∈ st.1 → x ∉ st.2 → v < x) →
      ∃ st1, build_topo h fuel v st = some st1 ∧ CallPost h v st st1 := by
  intro fuel
  induction fuel with
  | zero => intro v st hv; exact absurd hv (Nat.not_lt_zero _)
  | succ fuel ih =>
    intro v st hv hinv hopen
    obtain ⟨visited, topo⟩ := st
    unfold build_topo
    by_cases hvis : v ∈ visited
    · rw [if_pos hvis]
      have hvt : v ∈ topo := by
        by_contra hn
        exact Nat.lt_irrefl _ (hopen v hvis hn)
      exact ⟨(visited, topo), rfl, hinv, ⟨[], by simp, by simp⟩, hvt, fun x => Iff.rfl⟩
    · rw [if_neg hvis]
      have hvt : v ∉ topo := fun hn => hvis (hinv.1 hn)
      have hinv0 : DfsInv h (v :: visited, topo) :=
        ⟨fun x hx => List.mem_cons_of_mem _ (hinv.1 hx), hinv.2.1, hinv.2.2⟩
      have hopen0 : ∀ x, x ∈ (v :: visited, topo).1 → x ∉ (v :: visited, topo).2 → v ≤ x := by
        intro x hx hnx
        rcases List.mem_cons.1 hx with rfl | hx
        · exact Nat.le_refl _
        · exact Nat.le_of_lt (hopen x hx hnx)
      obtain ⟨st2, e2, inv2, ⟨add2, ea2, hr2⟩, hc2, so2⟩ :=
        loop_children h (fun st child => build_topo h fuel child st) v
          (fun c st hc hi ho => ih c st (Nat.lt_of_lt_of_le hc (Nat.le_of_lt_succ hv)) hi ho)
          (h.node v).prev_ (v :: visited, topo) (fun c hc => hac v c hc) hinv0 hopen0
      obtain ⟨visited2, topo2⟩ := st2
      have hvopen : v ∈ visited2 ∧ v ∉ topo2 :=
        (so2 v).2 ⟨List.mem_cons_self _ _, hvt⟩
      simp only [e2]
      refine ⟨_, rfl, ⟨?_, ?_, ?_⟩, ⟨add2 ++ [v], ?_, ?_⟩, ?_, ?_⟩
      · intro x hx
        rcases List.mem_append.1 hx with hx | hx
        · exact inv2.1 hx
        · rw [List.mem_singleton.1 hx]
          exact hvopen.1
      · exact List.Nodup.append inv2.2.1 (List.nodup_singleton v)
          (fun x hx hxv => hvopen.2 (by rwa [List.mem_singleton.1 hxv] at hx))
      · exact ordered_snoc inv2.2.2 hvopen.2 hc2
      · show topo2 ++ [v] = topo ++ (add2 ++ [v])
        have : topo2 = topo ++ add2 := ea2
        rw [this, List.append_assoc]
      · intro x hx
        rcases List.mem_append.1 hx with hx | hx
        · obtain ⟨c, hc, hr⟩ := hr2 x hx
          exact reach_of_pred hc hr
        · rw [List.mem_singleton.1 hx]
          exact Reach.root
      · exact List.mem_append_right _ (List.mem_singleton_self v)
      · intro x
        constructor
        · rintro ⟨hx1, hx2⟩
          have hx3 : x ∉ topo2 := fun hn => hx2 (List.mem_append_left _ hn)
          have hxv : x ≠ v := fun e => hx2 (by rw [e]; exact List.mem_append_right _ (List.mem_singleton_self v))
          obtain ⟨h1, h2⟩ := (so2 x).1 ⟨hx1, hx3⟩
          rcases List.mem_cons.1 h1 with h1 | h1
          · exact absurd h1 hxv
          · exact ⟨h1, h2⟩
        · rintro ⟨hx1, hx2⟩
          obtain ⟨h1, h2⟩ := (so2 x).2 ⟨List.mem_cons_of_mem _ hx1, hx2⟩
          refine ⟨h1, ?_⟩
          intro hn
          rcases List.mem_append.1 hn with hn | hn
          · exact h2 hn
          · rw [List.mem_singleton.1 hn] at hx1
            exact hvis hx1

/-- On an acyclic heap `build_topological_order` returns, and its result is duplicate-free,
ordered, and holds exactly the nodes reachable from `self`. -/
theorem build_topological_order_spec (h : Heap R) (hac : Acyclic h) (r : Nat)
    (hr : r < h.length) :
    ∃ order, build_topological_order h r = some order ∧ order.Nodup ∧ Ordered h order ∧
      ∀ x, x ∈ order ↔ Reach h r x := by
  obtain ⟨st1, e, inv, ⟨added, ea, hreach⟩, hmem, _⟩ :=
    build_topo_spec h hac (h.length + 1) r ([], []) (Nat.lt_succ_of_lt hr)
      ⟨by simp, List.nodup_nil, fun x hx => absurd hx (List.not_mem_nil _)⟩
      (fun x hx => absurd hx (List.not_mem_nil _))
  refine ⟨st1.2, by simp [build_topological_order, e], inv.2.1, inv.2.2, ?_⟩
  intro x
  constructor
  · intro hx
    have : st1.2 = added := by simpa using ea
    exact hreach x (this ▸ hx)
  · intro hx
    exact ordered_closed inv.2.2 hmem hx
end Dfs

/-! ## Heaps built through the public interface are acyclic -/

section
variable {R : Type} [CommRing R]

theorem acyclic_nil : Acyclic ([] : Heap R) := by
  intro x p hp
  simp [node_nil, default_prev] at hp

theorem acyclic_append {h : Heap R} (hac : Acyclic h) (t : Heap R)
    (ht : ∀ k, ∀ p ∈ (Heap.node t k).prev_, p < h.length + k) : Acyclic (h ++ t) := by
  intro x p hp
  by_cases hx : x < h.length
  · rw [node_append_left _ _ _ hx] at hp
    exact hac x p hp
  · obtain ⟨k, rfl⟩ : ∃ k, x = h.length + k := ⟨x - h.length, by omega⟩
    rw [node_append_right] at hp
    exact ht k p hp

theorem acyclic_snoc {h : Heap R} (hac : Acyclic h) (v : Value R)
    (hv : ∀ p ∈ v.prev_, p < h.length) : Acyclic (h ++ [v]) := by
  apply acyclic_append hac
  intro k p hp
  cases k with
  | zero => rw [node_cons_zero] at hp; exact hv p hp
  | succ k =>
    simp [node_cons_succ, node_nil, default_prev] at hp
end
section
variable {R : Type} [LinearOrderedField R]

theorem built_acyclic {L : Libm R} {h : Heap R} (hb : Built L h) : Acyclic h := by
  induction hb with
  | empty => exact acyclic_nil
  | create_value v prev op rg lf _ hp ih => exact acyclic_snoc ih _ hp
  | add a b _ ha hb ih =>
    rw [operator_add_eq]
    apply acyclic_snoc ih
    intro p hp
    simp at hp
    rcases hp with rfl | rfl <;> assumption
  | mul a b _ ha hb ih =>
    rw [operator_mul_eq]
    apply acyclic_snoc ih
    intro p hp
    simp at hp
    rcases hp with rfl | rfl <;> assumption
  | neg a _ ha ih =>
    rw [operator_neg_eq _ _ ha]
    apply acyclic_append ih
    intro k p hp
    match k with
    | 0 => simp [node_cons_zero] at hp
    | 1 =>
      simp [node_cons_zero, node_cons_succ] at hp
      rcases hp with rfl | rfl <;> omega
    | k + 2 => simp [node_cons_succ, node_nil, default_prev] at hp
  | sub a b _ ha hb ih =>
    rw [operator_sub_eq _ _ _ ha hb]
    apply acyclic_append ih
    intro k p hp
    match k with
    | 0 => simp [node_cons_zero] at hp
    | 1 =>
      simp [node_cons_zero, node_cons_succ] at hp
      rcases hp with rfl | rfl <;> omega
    | 2 =>
      simp [node_cons_zero, node_cons_succ] at hp
      rcases hp with rfl | rfl <;> omega
    | k + 3 => simp [node_cons_succ, node_nil, default_prev] at hp
  | pow a b _ ha hb ih =>
    rw [pow_eq]
    apply acyclic_snoc ih
    intro p hp
    simp at hp
    rcases hp with rfl | rfl <;> assumption
  | @div h0 a b r _ ha hb hr ih =>
    have hnz : ¬ |(h0.node b).data| < tiny := by
      intro hz
      unfold operator_div at hr
      rw [if_pos ((operator_div_guard _).2 hz)] at hr
      cases hr
    rw [operator_div_eq L _ a b ha hb hnz] at hr
    cases hr
    apply acyclic_append ih
    intro k p hp
    match k with
    | 0 => simp [node_cons_zero] at hp
    | 1 =>
      simp [node_cons_zero, node_cons_succ] at hp
      rcases hp with rfl | rfl <;> omega
    | 2 =>
      simp [node_cons_zero, node_cons_succ] at hp
      rcases hp with rfl | rfl <;> omega
    | k + 3 => simp [node_cons_succ, node_nil, default_prev] at hp
  | exp a _ ha ih =>
    rw [exp_eq]
    apply acyclic_snoc ih
    intro p hp
    simp at hp
    rw [hp]; exact ha
  | tanh a _ ha ih =>
    rw [tanh_eq]
    apply acyclic_snoc ih
    intro p hp
    simp at hp
    rw [hp]; exact ha
end

/-! ## Claims C2 and C3: the topological sequencer -/

section TopoClaims

variable {R : Type} [LinearOrderedField R]

theorem exShared_built : Built exLibm exShared :=
  Built.add 1 0
    (Built.mul 0 0 (Built.create_value 3 [] "" true true Built.empty (by simp)) (by decide)
      (by decide))
    (by decide) (by decide)

/-- Claim C2.  On every heap built through the public constructors and builders, and for every
node `r` of it, `build_topological_order` returns a sequence in which each member comes
strictly after each of its predecessors (which are members too). -/
theorem topological_order_valid (L : Libm R) (h : Heap R) (hb : Built L h) (r : Nat)
    (hr : r < h.length) :
    ∃ order, build_topological_order h r = some order ∧
      ∀ x ∈ order, ∀ p ∈ (h.node x).prev_,
        p ∈ order ∧ order.indexOf p < order.indexOf x := by
  obtain ⟨order, e, _, ho, _⟩ := build_topological_order_spec h (built_acyclic hb) r hr
  exact ⟨order, e, ho⟩

/-- Instance of C2 on `y = x*x + x`. -/
theorem topological_order_valid_witness :
    2 < exShared.length ∧
    ∃ order, build_topological_order exShared 2 = some order ∧
      ∀ x ∈ order, ∀ p ∈ (exShared.node x).prev_,
        p ∈ order ∧ order.indexOf p < order.indexOf x :=
  ⟨by decide, topological_order_valid exLibm exShared exShared_built 2 (by decide)⟩

/-- Claim C3.  On every heap built through the public constructors and builders, and for every
node `r` of it, `build_topological_order` terminates and returns a sequence without repetition
whose members are exactly the nodes reachable from `r` through `prev_` (with `r` itself). -/
theorem topological_order_coverage (L : Libm R) (h : Heap R) (hb : Built L h) (r : Nat)
    (hr : r < h.length) :
    ∃ order, build_topological_order h r = some order ∧ order.Nodup ∧
      ∀ x, x ∈ order ↔ Reach h r x := by
  obtain ⟨order, e, hn, _, hm⟩ := build_topological_order_spec h (built_acyclic hb) r hr
  exact ⟨order, e, hn, hm⟩

/-- Instance of C3 on `y = x*x + x`, where `x` is reachable along three paths. -/
theorem topological_order_coverage_witness :
    build_topological_order exShared 2 = some [0, 1, 2] ∧
    ∃ order, build_topological_order exShared 2 = some order ∧ order.Nodup ∧
      ∀ x, x ∈ order ↔ Reach exShared 2 x :=
  ⟨by decide, topological_order_coverage exLibm exShared exShared_built 2 (by decide)⟩

end TopoClaims

/-! ## Which fields `backward` writes -/

section Frame

variable {R : Type} [CommRing R]

theorem forgetGrad_fields {v w : Value R} (e : v.forgetGrad = w.forgetGrad) :
    v.data = w.data ∧ v.prev_ = w.prev_ ∧ v.op = w.op ∧ v.backward_ = w.backward_ ∧
      v.requires_grad = w.requires_grad ∧ v.is_leaf = w.is_leaf := by
  cases v; cases w
  simp only [Value.forgetGrad, Value.mk.injEq] at e
  simp [e]

theorem gradOnly_refl (h : Heap R) : GradOnly h h := ⟨rfl, fun _ => rfl⟩

theorem gradOnly_trans {h h1 h2 : Heap R} (a : GradOnly h h1) (b : GradOnly h1 h2) :
    GradOnly h h2 :=
  ⟨b.1.trans a.1, fun p => (b.2 p).trans (a.2 p)⟩

theorem gradOnly_modify (h : Heap R) (f : Value R → Value R) (p : Nat)
    (hf : ∀ v, (f v).forgetGrad = v.forgetGrad) : GradOnly h (List.modify f p h) := by
  refine ⟨List.length_modify _ _ _, fun q => ?_⟩
  rw [node_modify]
  split
  · exact hf _
  · rfl

theorem gradOnly_set_grad (h : Heap R) (p : Nat) (g : R) : GradOnly h (set_grad h p g) :=
  gradOnly_modify h _ p (fun _ => rfl)

theorem gradOnly_add_grad (h : Heap R) (p : Nat) (g : R) : GradOnly h (add_grad h p g) :=
  gradOnly_modify h _ p (fun _ => rfl)

theorem gradOnly_clear_grads (topo : List Nat) (h : Heap R) : GradOnly h (clear_grads topo h) := by
  unfold clear_grads
  induction topo generalizing h with
  | nil => exact gradOnly_refl h
  | cons n t ih =>
    rw [List.foldl_cons]
    refine gradOnly_trans ?_ (ih _)
    split
    · exact gradOnly_set_grad h n 0
    · exact gradOnly_refl h

theorem gradOnly_prev {h h1 : Heap R} (g : GradOnly h h1) (p : Nat) :
    (h1.node p).prev_ = (h.node p).prev_ :=
  (forgetGrad_fields (g.2 p)).2.1

theorem build_topo_congr {h h1 : Heap R} (hp : ∀ p, (h1.node p).prev_ = (h.node p).prev_) :
    ∀ (fuel v : Nat) (st : List Nat × List Nat), build_topo h1 fuel v st = build_topo h fuel v st := by
  intro fuel
  induction fuel with
  | zero => intro v st; rfl
  | succ fuel ih =>
    intro v st
    obtain ⟨visited, topo⟩ := st
    unfold build_topo
    rw [hp v]
    have : (fun st child => build_topo h1 fuel child st) =
        (fun st child => build_topo h fuel child st) := by
      funext st child
      exact ih child st
    rw [this]

theorem build_topological_order_congr {h h1 : Heap R} (g : GradOnly h h1) (r : Nat) :
    build_topological_order h1 r = build_topological_order h r := by
  unfold build_topological_order
  rw [g.1, build_topo_congr (gradOnly_prev g)]

theorem reach_congr {h h1 : Heap R} (hp : ∀ p, (h1.node p).prev_ = (h.node p).prev_)
    {r x : Nat} (hx : Reach h r x) : Reach h1 r x := by
  induction hx with
  | root => exact Reach.root
  | pred _ hq ih => exact Reach.pred ih (by rw [hp]; exact hq)

theorem reach_gradOnly {h h1 : Heap R} (g : GradOnly h h1) (r x : Nat) :
    Reach h1 r x ↔ Reach h r x :=
  ⟨reach_congr (fun p => (gradOnly_prev g p).symm), reach_congr (gradOnly_prev g)⟩

theorem acyclic_gradOnly {h h1 : Heap R} (g : GradOnly h h1) (hac : Acyclic h) : Acyclic h1 := by
  intro x p hp
  rw [gradOnly_prev g] at hp
  exact hac x p hp

theorem node_clear_grads (topo : List Nat) (h : Heap R) (x : Nat) :
    Heap.node (clear_grads topo h) x =
      if x ∈ topo ∧ (h.node x).is_leaf = false then { h.node x with grad := 0 } else h.node x := by
  unfold clear_grads
  induction topo generalizing h with
  | nil => simp
  | cons n t ih =>
    rw [List.foldl_cons, ih]
    by_cases hl : (h.node n).is_leaf = false
    · simp only [hl, Bool.not_false, if_true, set_grad, node_modify]
      by_cases hx : x = n
      · subst hx
        by_cases hlen : x < h.length
        · simp [hl, hlen]
        · have := node_of_length_le h x (Nat.le_of_not_lt hlen)
          rw [this] at hl
          cases hl
      · simp [hx]
    · have hl1 : (h.node n).is_leaf = true := by simpa using hl
      simp only [hl1, Bool.not_true]
      by_cases hx : x = n
      · subst hx
        simp [hl1]
      · simp [hx]

theorem node_clear_graph (topo : List Nat) (h : Heap R) (x : Nat) :
    Heap.node (clear_graph topo h) x =
      if x ∈ topo then { h.node x with backward_ := none, prev_ := [] } else h.node x := by
  unfold clear_graph
  induction topo generalizing h with
  | nil => simp
  | cons n t ih =>
    rw [List.foldl_cons, ih, node_modify]
    by_cases hx : x = n
    · subst hx
      by_cases hlen : x < h.length
      · simp [hlen]
      · have := node_of_length_le h x (Nat.le_of_not_lt hlen)
        simp [hlen, this]
        intro _
        rfl
    · simp [hx]

omit [CommRing R] in
theorem length_clear_graph (topo : List Nat) (h : Heap R) :
    (clear_graph topo h).length = h.length := by
  unfold clear_graph
  induction topo generalizing h with
  | nil => rfl
  | cons n t ih => rw [List.foldl_cons, ih, List.length_modify]

end Frame

/-! ## The backward executor -/

section Executor

variable {R : Type} [LinearOrderedField R]

theorem gradOnly_ite (h : Heap R) (c : Prop) [Decidable c] (p : Nat) (g : R) :
    GradOnly h (if c then add_grad h p g else h) := by
  split
  · exact gradOnly_add_grad _ _ _
  · exact gradOnly_refl _

theorem gradOnly_call (L : Libm R) (c : Closure) (h h1 : Heap R) (e : c.call L h = .ok h1) :
    GradOnly h h1 := by
  cases c with
  | add wl wr wout =>
    simp only [Closure.call] at e
    split at e
    · cases e
      exact gradOnly_trans (gradOnly_ite _ _ _ _) (gradOnly_ite _ _ _ _)
    · cases e
  | mul wl wr wout =>
    simp only [Closure.call] at e
    split at e
    · cases e
      exact gradOnly_trans (gradOnly_ite _ _ _ _) (gradOnly_ite _ _ _ _)
    · cases e
  | pow wb we wout =>
    simp only [Closure.call] at e
    split at e
    · split at e
      · cases e
      · cases e
        exact gradOnly_trans (gradOnly_ite _ _ _ _) (gradOnly_ite _ _ _ _)
    · cases e
  | exp wv wout =>
    simp only [Closure.call] at e
    split at e
    · cases e
      exact gradOnly_add_grad _ _ _
    · cases e
  | tanh wv wout =>
    simp only [Closure.call] at e
    split at e
    · cases e
      exact gradOnly_add_grad _ _ _
    · cases e

theorem propagate_cons_call (L : Libm R) (n : Nat) (t : List Nat) (h : Heap R) (c : Closure)
    (hrg : (h.node n).requires_grad = true) (hb : (h.node n).backward_ = some c) :
    propagate L (n :: t) h =
      match c.call L h with
      | .ok h1 => propagate L t h1
      | .error e => .error (e, h) := by
  rw [propagate]
  simp only [hrg, hb]

theorem propagate_cons_skip (L : Libm R) (n : Nat) (t : List Nat) (h : Heap R)
    (hs : (h.node n).requires_grad = false ∨ (h.node n).backward_ = none) :
    propagate L (n :: t) h = propagate L t h := by
  rw [propagate]
  rcases hs with hs | hs
  · simp only [hs]
  · cases hrg : (h.node n).requires_grad <;> simp only [hs]

theorem gradOnly_propagate (L : Libm R) (topo : List Nat) (h h1 : Heap R)
    (e : propagate L topo h = .ok h1) : GradOnly h h1 := by
  induction topo generalizing h with
  | nil =>
    simp only [propagate] at e
    cases e
    exact gradOnly_refl _
  | cons n t ih =>
    cases hrg : (h.node n).requires_grad with
    | false => rw [propagate_cons_skip L n t h (Or.inl hrg)] at e; exact ih h e
    | true =>
      cases hb : (h.node n).backward_ with
      | none => rw [propagate_cons_skip L n t h (Or.inr hb)] at e; exact ih h e
      | some c =>
        rw [propagate_cons_call L n t h c hrg hb] at e
        cases hc : c.call L h with
        | error err => simp only [hc] at e; cases e
        | ok h2 =>
          simp only [hc] at e
          exact gradOnly_trans (gradOnly_call L c h h2 hc) (ih h2 e)

/-- Decomposition of a returning `backward` call into its phases. -/
theorem backward_ok (L : Libm R) (h : Heap R) (self : Nat) (g : R) (rg rgr : Bool)
    (h3 : Heap R) (e : backward L h self g rg rgr = .ok h3) :
    ∃ order h1, build_topological_order (set_grad h self g) self = some order ∧
      propagate L order.reverse (set_grad h self g) = .ok h1 ∧
      h3 = (if !rgr then clear_graph order.reverse
              (if !rg then clear_grads order.reverse h1 else h1)
            else (if !rg then clear_grads order.reverse h1 else h1)) := by
  cases ho : build_topological_order (set_grad h self g) self with
  | none => simp only [backward, ho] at e; cases e
  | some order =>
    cases hp : propagate L order.reverse (set_grad h self g) with
    | error err => simp only [backward, ho, hp] at e; cases e
    | ok h1 =>
      simp only [backward, ho, hp] at e
      cases e
      exact ⟨order, h1, rfl, hp, rfl⟩

theorem backward_of_phases (L : Libm R) (h : Heap R) (self : Nat) (g : R) (rg rgr : Bool)
    (order : List Nat) (h1 : Heap R)
    (ho : build_topological_order (set_grad h self g) self = some order)
    (hp : propagate L order.reverse (set_grad h self g) = .ok h1) :
    backward L h self g rg rgr = .ok
      (if !rgr then clear_graph order.reverse
          (if !rg then clear_grads order.reverse h1 else h1)
        else (if !rg then clear_grads order.reverse h1 else h1)) := by
  unfold backward
  simp only [ho, hp]

end Executor

/-! ## Claims C6, C7 and C8: the retention flags -/

section Retention

variable {R : Type} [LinearOrderedField R]

theorem heap_ext {h1 h2 : Heap R} (hl : h1.length = h2.length)
    (hn : ∀ p, h1.node p = h2.node p) : h1 = h2 := by
  apply List.ext_getElem? 
  intro n
  by_cases hlt : n < h1.length
  · have hlt2 : n < h2.length := hl ▸ hlt
    have := hn n
    simp only [Heap.node, List.getElem?_eq_getElem hlt, List.getElem?_eq_getElem hlt2,
      Option.getD_some] at this
    rw [List.getElem?_eq_getElem hlt, List.getElem?_eq_getElem hlt2, this]
  · have hlt2 : ¬ n < h2.length := hl ▸ hlt
    rw [List.getElem?_eq_none (Nat.le_of_not_lt hlt), List.getElem?_eq_none (Nat.le_of_not_lt hlt2)]

theorem modify_eq_self (h : Heap R) (f : Value R → Value R) (p : Nat)
    (hf : f (h.node p) = h.node p) : List.modify f p h = h := by
  apply heap_ext (List.length_modify _ _ _)
  intro q
  rw [node_modify]
  split
  · rename_i hq
    rw [hq.1, hf]
  · rfl

theorem set_grad_set_grad (h : Heap R) (p : Nat) (a b : R) :
    set_grad (set_grad h p a) p b = set_grad h p b := by
  unfold set_grad
  apply heap_ext (by simp)
  intro q
  simp only [node_modify, List.length_modify]
  by_cases hq : q = p ∧ p < h.length
  · simp [hq]
  · simp [hq]

theorem get_grad_clear_graph (topo : List Nat) (h : Heap R) (x : Nat) :
    get_grad (clear_graph topo h) x = get_grad h x := by
  unfold get_grad
  rw [node_clear_graph]
  split <;> rfl

/-- The order computed by `backward`, with what is known of it on an acyclic heap. -/
theorem backward_order (h : Heap R) (hac : Acyclic h) (root : Nat) (hr : root < h.length)
    (seed : R) :
    ∃ order, build_topological_order (set_grad h root seed) root = some order ∧ order.Nodup ∧
      Ordered h order ∧ ∀ x, x ∈ order ↔ Reach h root x := by
  have g0 := gradOnly_set_grad h root seed
  obtain ⟨order, e, hn, ho, hm⟩ := build_topological_order_spec h hac root hr
  refine ⟨order, ?_, hn, ho, hm⟩
  rw [build_topological_order_congr g0, e]

/-- Claim C6.  On an acyclic heap (every heap the interface can produce), if
`backward(seed, retain_grads = false, retain_graph)` returns, then the same call with
`retain_grads = true` returns too, and for every node reachable from the root: a node with
`is_leaf = false` ends with `grad = 0`, a node with `is_leaf = true` ends with the `grad` it has
after the `retain_grads = true` call; `is_leaf` itself is not changed by the call. -/
theorem retain_grads_false (L : Libm R) (h : Heap R) (hac : Acyclic h) (root : Nat)
    (hr : root < h.length) (seed : R) (retain_graph : Bool) (h1 : Heap R)
    (e : backward L h root seed false retain_graph = .ok h1) :
    ∃ h2, backward L h root seed true retain_graph = .ok h2 ∧
      ∀ x, Reach h root x →
        (h1.node x).is_leaf = (h.node x).is_leaf ∧
        ((h.node x).is_leaf = false → get_grad h1 x = 0) ∧
        ((h.node x).is_leaf = true → get_grad h1 x = get_grad h2 x) := by
  obtain ⟨order, hp1, ho, hp, rfl⟩ := backward_ok L h root seed false retain_graph h1 e
  obtain ⟨order1, ho1, _, _, hm⟩ := backward_order h hac root hr seed
  rw [ho] at ho1
  cases ho1
  refine ⟨_, backward_of_phases L h root seed true retain_graph order hp1 ho hp, ?_⟩
  intro x hx
  have hmem : x ∈ order.reverse := List.mem_reverse.2 ((hm x).2 hx)
  have g : GradOnly h hp1 :=
    gradOnly_trans (gradOnly_set_grad h root seed) (gradOnly_propagate L _ _ _ hp)
  have hleaf : (hp1.node x).is_leaf = (h.node x).is_leaf := (forgetGrad_fields (g.2 x)).2.2.2.2.2
  cases retain_graph with
  | true =>
    simp only [Bool.not_true, Bool.not_false, if_true, Bool.false_eq_true, if_false, get_grad,
      node_clear_grads]
    cases hl : (h.node x).is_leaf <;> simp [hleaf, hl, hmem]
  | false =>
    simp only [Bool.not_true, Bool.not_false, if_true, Bool.false_eq_true, if_false, get_grad,
      node_clear_graph, node_clear_grads, hmem]
    cases hl : (h.node x).is_leaf <;> simp [hleaf, hl, hmem]

theorem build_topological_order_isolated (h : Heap R) (root : Nat)
    (hp : (h.node root).prev_ = []) : build_topological_order h root = some [root] := by
  unfold build_topological_order build_topo
  simp [hp]

/-- The severing loop reaches every node that was reachable from the root. -/
theorem sever_clears (L : Libm R) (h : Heap R) (hac : Acyclic h) (root : Nat)
    (hr : root < h.length) (seed : R) (retain_grads : Bool) (h1 : Heap R)
    (e : backward L h root seed retain_grads false = .ok h1) :
    ∀ x, Reach h root x → (h1.node x).backward_ = none ∧ (h1.node x).prev_ = [] := by
  obtain ⟨order, hp1, ho, hp, rfl⟩ := backward_ok L h root seed retain_grads false h1 e
  obtain ⟨order1, ho1, _, _, hm⟩ := backward_order h hac root hr seed
  rw [ho] at ho1
  cases ho1
  intro x hx
  have hmem : x ∈ order.reverse := List.mem_reverse.2 ((hm x).2 hx)
  simp only [Bool.not_false, if_true]
  rw [node_clear_graph, if_pos hmem]
  exact ⟨rfl, rfl⟩

/-- Claim C7.  On an acyclic heap (every heap the interface can produce), after
`backward(seed, retain_grads, retain_graph = false)` has returned, every node that was reachable
from the root before the call has no `backward_` closure and an empty `prev_`, and the
topological order of the root is the one-element sequence holding the root. -/
theorem retain_graph_false (L : Libm R) (h : Heap R) (hac : Acyclic h) (root : Nat)
    (hr : root < h.length) (seed : R) (retain_grads : Bool) (h1 : Heap R)
    (e : backward L h root seed retain_grads false = .ok h1) :
    (∀ x, Reach h root x → (h1.node x).backward_ = none ∧ (h1.node x).prev_ = []) ∧
      build_topological_order h1 root = some [root] := by
  have hall := sever_clears L h hac root hr seed retain_grads h1 e
  exact ⟨hall, build_topological_order_isolated _ root (hall root Reach.root).2⟩

/-- Instance of C7 on `y = x*x + x`. -/
theorem retain_graph_false_witness :
    (∀ x, Reach exShared 2 x →
      (Heap.node exSharedSevered x).backward_ = none ∧
      (Heap.node exSharedSevered x).prev_ = []) ∧
    build_topological_order exSharedSevered 2 = some [2] :=
  retain_graph_false exLibm exShared (built_acyclic exShared_built) 2 (by decide) 1 true _ rfl

/-- Instance of C6 on `y = x*x + x`: `x*x` and `y` are reset, the leaf `x` keeps `7`. -/
theorem retain_grads_false_witness :
    ∃ h2, backward exLibm exShared 2 1 true true = .ok h2 ∧
      ∀ x, Reach exShared 2 x →
        (Heap.node exSharedReset x).is_leaf = (exShared.node x).is_leaf ∧
        ((exShared.node x).is_leaf = false → get_grad exSharedReset x = 0) ∧
        ((exShared.node x).is_leaf = true → get_grad exSharedReset x = get_grad h2 x) :=
  retain_grads_false exLibm exShared (built_acyclic exShared_built) 2 (by decide) 1 true _ rfl

/-- Claim C8, as amended.  After `backward(s1, rg1, retain_graph = false)` has returned on an
acyclic heap, any further `backward(s2, rg2, rgr2)` on the same root returns without error and
changes nothing but the root's `grad`: that ends as the seed `s2` when `rg2` is true or the root
is a leaf, and as `0` otherwise (the root is seeded, then reset by the `retain_grads = false`
loop).  No closure runs and no other node is written. -/
theorem second_backward_after_sever (L : Libm R) (h : Heap R) (hac : Acyclic h) (y : Nat)
    (hy : y < h.length) (s1 : R) (rg1 : Bool) (h1 : Heap R)
    (e : backward L h y s1 rg1 false = .ok h1) (s2 : R) (rg2 rgr2 : Bool) :
    backward L h1 y s2 rg2 rgr2 =
      .ok (set_grad h1 y (if rg2 || (h1.node y).is_leaf then s2 else 0)) := by
  obtain ⟨hb, hp⟩ := sever_clears L h hac y hy s1 rg1 h1 e y Reach.root
  have g0 := gradOnly_set_grad h1 y s2
  have hf := forgetGrad_fields (g0.2 y)
  have ho : build_topological_order (set_grad h1 y s2) y = some [y] :=
    build_topological_order_isolated _ y (by rw [hf.2.1, hp])
  have hprop : propagate L [y].reverse (set_grad h1 y s2) = .ok (set_grad h1 y s2) := by
    rw [List.reverse_singleton, propagate_cons_skip L y [] _ (Or.inr (by rw [hf.2.2.2.1, hb]))]
    rfl
  rw [backward_of_phases L h1 y s2 rg2 rgr2 [y] _ ho hprop]
  have hclear : ∀ h2 : Heap R, GradOnly h1 h2 → clear_graph [y] h2 = h2 := by
    intro h2 g2
    have hf2 := forgetGrad_fields (g2.2 y)
    unfold clear_graph
    rw [List.foldl_cons, List.foldl_nil]
    apply modify_eq_self
    have e1 : (h2.node y).backward_ = none := by rw [hf2.2.2.2.1, hb]
    have e2 : (h2.node y).prev_ = [] := by rw [hf2.2.1, hp]
    cases hn : h2.node y
    rw [hn] at e1 e2
    simp only at e1 e2
    simp [e1, e2]
  have hgrads : clear_grads [y] (set_grad h1 y s2) =
      set_grad h1 y (if (h1.node y).is_leaf then s2 else 0) := by
    unfold clear_grads
    rw [List.foldl_cons, List.foldl_nil, hf.2.2.2.2.2]
    cases (h1.node y).is_leaf
    · simp [set_grad_set_grad]
    · simp
  have hfinal : (if !rg2 then clear_grads [y].reverse (set_grad h1 y s2) else set_grad h1 y s2) =
      set_grad h1 y (if rg2 || (h1.node y).is_leaf then s2 else 0) := by
    rw [List.reverse_singleton]
    cases rg2
    · simp [hgrads]
    · simp
  rw [hfinal, List.reverse_singleton, hclear _ (gradOnly_set_grad h1 y _)]
  cases rgr2 <;> simp

/-- Instance of the amended C8 on `y = x*x + x`: the second pass only seeds `y.grad`. -/
theorem second_backward_after_sever_witness :
    backward exLibm exSharedSevered 2 5 true false =
      .ok (set_grad exSharedSevered 2 (if true || (exSharedSevered.node 2).is_leaf then 5 else 0)) :=
  second_backward_after_sever exLibm exShared (built_acyclic exShared_built) 2 (by decide) 1 true
    exSharedSevered rfl 5 true false

/-- Counterexample to C8 as stated.  On `y = x*x + x`, after `y.backward(1, true, false)`, the
call `y.backward(5, false, false)` leaves `y.grad = 0`, not the supplied seed `5`: the seeding
is not the only write, the `retain_grads = false` loop resets the root. -/
theorem second_backward_counterexample :
    ∃ h1 h2, backward exLibm exShared 2 1 true false = .ok h1 ∧
      backward exLibm h1 2 5 false false = .ok h2 ∧
      get_grad h2 2 = 0 ∧ get_grad h2 2 ≠ 5 ∧ h2 ≠ set_grad h1 2 5 := by
  refine ⟨exSharedSevered, set_grad exSharedSevered 2 0, rfl, rfl, rfl, ?_, ?_⟩
  · show (0 : ℚ) ≠ 5
    norm_num
  · intro hc
    have := congrArg (fun hh => get_grad hh 2) hc
    have h0 : get_grad (set_grad exSharedSevered 2 0) 2 = (0 : ℚ) := rfl
    have h5 : get_grad (set_grad exSharedSevered 2 5) 2 = (5 : ℚ) := rfl
    simp only [h0, h5] at this
    norm_num at this

end Retention

/-! ## Claim C4 and the graphs of C4 and C5 -/

section ScenarioShared

variable {R : Type} [Zero R] [Add R] [Mul R]

omit [Zero R] [Add R] [Mul R] in
theorem modify_append_right (h t : Heap R) (f : Value R → Value R) (k : Nat) :
    List.modify f (h.length + k) (h ++ t) = h ++ List.modify f k t := by
  induction h with
  | nil => simp
  | cons a s ih =>
    have : (a :: s).length + k = (s.length + k) + 1 := by simp; omega
    rw [this, List.cons_append, List.modify_succ_cons, ih]
    rfl

omit [Zero R] [Add R] [Mul R] in
theorem modify_append_zero (h t : Heap R) (f : Value R → Value R) :
    List.modify f h.length (h ++ t) = h ++ List.modify f 0 t :=
  modify_append_right h t f 0

theorem sharedGraph_eq (h0 : Heap R) (v : R) :
    sharedGraph h0 v =
      (h0 ++ [⟨v, 0, [], "", none, true, true⟩,
              ⟨v * v, 0, [h0.length, h0.length], "*",
                some (Closure.mul h0.length h0.length (h0.length + 1)), true, false⟩,
              ⟨v * v + v, 0, [h0.length + 1, h0.length], "+",
                some (Closure.add (h0.length + 1) h0.length (h0.length + 2)), true, false⟩],
        h0.length, h0.length + 2) := by
  simp only [sharedGraph, create_parameter, create_value, operator_mul_eq, operator_add_eq,
    List.append_assoc, List.length_append, List.length_singleton, List.singleton_append,
    List.cons_append, List.nil_append, List.length_cons, List.length_nil, Value.mk0]
  simp only [node_append_length, node_append_right, node_cons_succ, node_cons_zero]
  simp

theorem topo_sharedGraph (h0 : Heap R) (v g : R) :
    build_topological_order (h0 ++ [⟨v, 0, [], "", none, true, true⟩,
              ⟨v * v, 0, [h0.length, h0.length], "*",
                some (Closure.mul h0.length h0.length (h0.length + 1)), true, false⟩,
              ⟨v * v + v, g, [h0.length + 1, h0.length], "+",
                some (Closure.add (h0.length + 1) h0.length (h0.length + 2)), true, false⟩])
        (h0.length + 2) =
      some [h0.length, h0.length + 1, h0.length + 2] := by
  simp [build_topological_order, build_topo, node_append_right, node_append_length,
    node_cons_succ, node_cons_zero]

end ScenarioShared

/-- Claim C4, as amended.  In every arithmetic (no law of `+` or `*` is used, so the statement
holds for IEEE doubles as for exact numbers), for every value `v` and whatever is already on
the heap: with `x` a fresh parameter of data `v` and `y = x*x + x`, the call
`y.backward(1.0, retain_grads, true)` returns and leaves
`x.grad = ((0 + 1) + v*(0 + 1)) + v*(0 + 1)`: the seed arriving through the sum, then the two
contributions of the product, each added with `+=`.  Where `0 + 1 = 1` and `v * 1 = v`, as for
doubles, this is `(1 + v) + v`. -/
theorem accumulation_shared {R : Type} [Zero R] [One R] [Add R] [Mul R] [Sub R] [Div R]
    [NatCast R] [Pow R ℕ] [LT R] [DecidableEq R] [DecidableRel (fun a b : R => a < b)]
    (L : Libm R) (h0 : Heap R) (v : R) (retain_grads : Bool) :
    ∃ h, backward L (sharedGraph h0 v).1 (sharedGraph h0 v).2.2 1 retain_grads true = .ok h ∧
      get_grad h (sharedGraph h0 v).2.1 = 0 + 1 + v * (0 + 1) + v * (0 + 1) ∧
      ((0 : R) + 1 = 1 → v * 1 = v → get_grad h (sharedGraph h0 v).2.1 = 1 + v + v) := by
  rw [sharedGraph_eq]
  simp only [backward, set_grad, modify_append_right, List.modify_succ_cons, List.modify_zero_cons,
    topo_sharedGraph]
  cases retain_grads <;>
    simp [propagate, Closure.call, add_grad, modify_append_right, modify_append_zero,
      node_append_right, node_append_length, node_cons_succ, node_cons_zero, clear_grads,
      set_grad, get_grad] <;>
    (intro h1 h2; rw [h1, h2])

section Scenario

variable {R : Type} [LinearOrderedField R]

theorem tanhGraph_eq (L : Libm R) (h0 : Heap R) (va vb vc : R) :
    tanhGraph L h0 va vb vc =
      (h0 ++ [⟨va, 0, [], "", none, true, true⟩,
              ⟨vb, 0, [], "", none, true, true⟩,
              ⟨vc, 0, [], "", none, true, true⟩,
              ⟨va * vb, 0, [h0.length, h0.length + 1], "*",
                some (Closure.mul h0.length (h0.length + 1) (h0.length + 3)), true, false⟩,
              ⟨va * vb + vc, 0, [h0.length + 3, h0.length + 2], "+",
                some (Closure.add (h0.length + 3) (h0.length + 2) (h0.length + 4)), true, false⟩,
              ⟨L.tanh (va * vb + vc), 0, [h0.length + 4], "tanh",
                some (Closure.tanh (h0.length + 4) (h0.length + 5)), true, false⟩],
        h0.length, h0.length + 1, h0.length + 2, h0.length + 4, h0.length + 5) := by
  simp only [tanhGraph, create_parameter, create_value, operator_mul_eq, operator_add_eq, tanh_eq,
    List.append_assoc, List.length_append, List.length_singleton, List.singleton_append,
    List.cons_append, List.nil_append, List.length_cons, List.length_nil, Value.mk0]
  simp only [node_append_length, node_append_right, node_cons_succ, node_cons_zero]
  simp

theorem topo_tanhGraph (L : Libm R) (h0 : Heap R) (va vb vc g : R) :
    build_topological_order (h0 ++ [⟨va, 0, [], "", none, true, true⟩,
              ⟨vb, 0, [], "", none, true, true⟩,
              ⟨vc, 0, [], "", none, true, true⟩,
              ⟨va * vb, 0, [h0.length, h0.length + 1], "*",
                some (Closure.mul h0.length (h0.length + 1) (h0.length + 3)), true, false⟩,
              ⟨va * vb + vc, 0, [h0.length + 3, h0.length + 2], "+",
                some (Closure.add (h0.length + 3) (h0.length + 2) (h0.length + 4)), true, false⟩,
              ⟨L.tanh (va * vb + vc), g, [h0.length + 4], "tanh",
                some (Closure.tanh (h0.length + 4) (h0.length + 5)), true, false⟩])
        (h0.length + 5) =
      some [h0.length, h0.length + 1, h0.length + 3, h0.length + 2, h0.length + 4,
        h0.length + 5] := by
  simp [build_topological_order, build_topo, node_append_right, node_append_length,
    node_cons_succ, node_cons_zero]

end Scenario

/-! ## Reverse mode computes the derivative: the conservation argument -/

section Conservation

variable {R : Type} [CommRing R]

theorem revTopo_of_ordered (H : Heap R) (order : List Nat) (hn : order.Nodup)
    (ho : Ordered H order) : RevTopo H order.reverse := by
  induction order using List.reverseRecOn with
  | nil => exact True.intro
  | append_singleton init x ih =>
    rw [List.reverse_append, List.reverse_singleton, List.singleton_append]
    have hx : x ∉ init := by
      intro hx
      have := List.nodup_append.1 hn
      exact this.2.2 hx (List.mem_singleton_self x)
    have hninit : init.Nodup := (List.nodup_append.1 hn).1
    refine ⟨?_, ?_, ih hninit ?_⟩
    · intro p hp
      obtain ⟨h1, h2⟩ := ho x (List.mem_append_right _ (List.mem_singleton_self x)) p hp
      rw [List.mem_reverse]
      by_contra hpn
      rw [List.indexOf_append_of_not_mem hpn, List.indexOf_append_of_not_mem hx] at h2
      rcases List.mem_append.1 h1 with h1 | h1
      · exact hpn h1
      · rw [List.mem_singleton.1 h1] at h2
        exact Nat.lt_irrefl _ h2
    · rw [List.mem_reverse]
      exact hx
    · intro y hy p hp
      obtain ⟨h1, h2⟩ := ho y (List.mem_append_left _ hy) p hp
      rw [List.indexOf_append_of_mem hy] at h2
      have hpi : p ∈ init := by
        by_contra hpn
        rw [List.indexOf_append_of_not_mem hpn] at h2
        have := List.indexOf_lt_length.2 hy
        omega
      rw [List.indexOf_append_of_mem hpi] at h2
      exact ⟨hpi, h2⟩

theorem gradSum_add_grad (h : Heap R) (a : Nat) (ha : a < h.length) (d : R) (w : Nat → R) :
    gradSum (add_grad h a d) w = gradSum h w + d * w a := by
  unfold gradSum add_grad
  rw [List.length_modify]
  have : ∀ i ∈ Finset.range h.length,
      (Heap.node (List.modify (fun v => { v with grad := v.grad + d }) a h) i).grad * w i =
        (h.node i).grad * w i + (if a = i then d * w i else 0) := by
    intro i _
    rw [node_modify]
    by_cases hi : i = a
    · subst hi
      simp [ha]
      ring
    · have : ¬ a = i := fun e => hi e.symm
      simp [hi, this]
  rw [Finset.sum_congr rfl this, Finset.sum_add_distrib, Finset.sum_ite_eq]
  simp [ha]

theorem gradSum_ite_add_grad (h : Heap R) (c : Prop) [Decidable c] (a : Nat) (ha : a < h.length)
    (d : R) (w : Nat → R) :
    gradSum (if c then add_grad h a d else h) w = gradSum h w + (if c then d * w a else 0) := by
  split
  · exact gradSum_add_grad h a ha d w
  · simp

theorem grad_ite_add_grad_ne (h : Heap R) (c : Prop) [Decidable c] (a x : Nat) (hx : x ≠ a)
    (d : R) : (Heap.node (if c then add_grad h a d else h) x).grad = (h.node x).grad := by
  split
  · unfold add_grad
    rw [node_modify]
    simp [hx]
  · rfl

theorem gradSum_congr (h : Heap R) (w w1 : Nat → R) (e : ∀ i, w i = w1 i) :
    gradSum h w = gradSum h w1 := by
  have : w = w1 := funext e
  rw [this]

theorem gradSum_pending_cons (h : Heap R) (D : Nat → R) (l x : Nat) (rest : List Nat)
    (hx : x < h.length) (hnot : x ∉ rest) (hxl : x ≠ l) :
    gradSum h (pendingWeight D l (x :: rest)) =
      gradSum h (pendingWeight D l rest) + (h.node x).grad * D x := by
  unfold gradSum
  have : ∀ i ∈ Finset.range h.length,
      (h.node i).grad * pendingWeight D l (x :: rest) i =
        (h.node i).grad * pendingWeight D l rest i + (if x = i then (h.node i).grad * D i else 0) := by
    intro i _
    unfold pendingWeight
    by_cases hi : i = x
    · subst hi
      simp [hnot, hxl]
    · have : ¬ x = i := fun e => hi e.symm
      simp [hi, this]
  rw [Finset.sum_congr rfl this, Finset.sum_add_distrib, Finset.sum_ite_eq]
  simp [hx]

theorem pending_cons_skip (D : Nat → R) (l x : Nat) (rest : List Nat)
    (hs : x = l ∨ D x = 0) (i : Nat) :
    pendingWeight D l (x :: rest) i = pendingWeight D l rest i := by
  unfold pendingWeight
  by_cases hi : i = x
  · subst hi
    rcases hs with hs | hs
    · simp [hs]
    · simp [hs]
  · simp [hi]

theorem tangent_zero_of_no_grad (H : Heap R) (l : Nat) (D : Nat → R)
    (hT : ∀ i, i < H.length → TangentAt H l D i) (hl : (H.node l).requires_grad = true) :
    ∀ i, i < H.length → (H.node i).requires_grad = false → D i = 0 := by
  intro i
  induction i using Nat.strong_induction_on with
  | _ i ih =>
    intro hi hrg
    obtain ⟨_, hcase | ⟨a, b, ha, hb, _, hr, _, hD⟩ | ⟨a, b, ha, hb, _, hr, _, hD⟩⟩ := hT i hi
    · obtain ⟨_, _, hD⟩ := hcase
      have : i ≠ l := by
        intro e
        rw [e, hl] at hrg
        cases hrg
      rw [hD, if_neg this]
    · rw [hrg] at hr
      have h2 := Bool.or_eq_false_iff.1 hr.symm
      rw [hD, ih a ha (Nat.lt_trans ha hi) h2.1, ih b hb (Nat.lt_trans hb hi) h2.2, add_zero]
    · rw [hrg] at hr
      have h2 := Bool.or_eq_false_iff.1 hr.symm
      rw [hD, ih a ha (Nat.lt_trans ha hi) h2.1, ih b hb (Nat.lt_trans hb hi) h2.2]
      simp

end Conservation
section ConservationEngine

variable {R : Type} [LinearOrderedField R]

theorem propagate_conserves (L : Libm R) (H : Heap R) (l : Nat) (D : Nat → R)
    (hT : ∀ i, i < H.length → TangentAt H l D i)
    (hzero : ∀ i, i < H.length → (H.node i).requires_grad = false → D i = 0)
    (hlp : (H.node l).prev_ = []) :
    ∀ (todo : List Nat) (h : Heap R), GradOnly H h → RevTopo H todo →
      (∀ x ∈ todo, x < H.length) →
      ∃ h1, propagate L todo h = .ok h1 ∧
        gradSum h1 (pendingWeight D l []) = gradSum h (pendingWeight D l todo) := by
  intro todo
  induction todo with
  | nil =>
    intro h _ _ _
    exact ⟨h, rfl, rfl⟩
  | cons x rest ih =>
    intro h g hrev hlt
    obtain ⟨hpred, hxr, hrevr⟩ := hrev
    have hx : x < H.length := hlt x (List.mem_cons_self _ _)
    have hltr : ∀ y ∈ rest, y < H.length := fun y hy => hlt y (List.mem_cons_of_mem _ hy)
    have hf := forgetGrad_fields (g.2 x)
    -- the step is skipped and the weight of `x` is zero (or `x` is the leaf itself)
    have skip : (x = l ∨ D x = 0) →
        ((h.node x).requires_grad = false ∨ (h.node x).backward_ = none) →
        ∃ h1, propagate L (x :: rest) h = .ok h1 ∧
          gradSum h1 (pendingWeight D l []) = gradSum h (pendingWeight D l (x :: rest)) := by
      intro hs hsk
      obtain ⟨h1, e1, q1⟩ := ih h g hrevr hltr
      refine ⟨h1, ?_, ?_⟩
      · rw [propagate_cons_skip L x rest h hsk, e1]
      · rw [q1]
        exact (gradSum_congr h _ _ (pending_cons_skip D l x rest hs)).symm
    cases hrg : (H.node x).requires_grad with
    | false =>
      exact skip (Or.inr (hzero x hx hrg)) (Or.inl (by rw [hf.2.2.2.2.1, hrg]))
    | true =>
      obtain ⟨_, hcase | ⟨a, b, ha, hb, hprev, hr, hbw, hD⟩ | ⟨a, b, ha, hb, hprev, hr, hbw, hD⟩⟩ :=
        hT x hx
      · obtain ⟨_, hb0, hD⟩ := hcase
        refine skip ?_ (Or.inr (by rw [hf.2.2.2.1, hb0]))
        by_cases hxl : x = l
        · exact Or.inl hxl
        · exact Or.inr (by rw [hD, if_neg hxl])
      · -- a sum node with a closure
        rw [hrg, if_pos rfl] at hbw
        have hxl : x ≠ l := by
          intro e
          rw [e, hlp] at hprev
          cases hprev
        have hal : a < h.length := by rw [g.1]; exact Nat.lt_trans ha hx
        have hbl : b < h.length := by rw [g.1]; exact Nat.lt_trans hb hx
        have hxl2 : x < h.length := by rw [g.1]; exact hx
        have har : a ∈ rest := hpred a (by rw [hprev]; exact List.mem_cons_self _ _)
        have hbr : b ∈ rest :=
          hpred b (by rw [hprev]; exact List.mem_cons_of_mem _ (List.mem_cons_self _ _))
        have hga := forgetGrad_fields (g.2 a)
        let h1 : Heap R :=
          if (h.node a).requires_grad = true then add_grad h a (h.node x).grad else h
        have g1 : GradOnly h h1 := gradOnly_ite h _ a _
        have hgb := forgetGrad_fields ((gradOnly_trans g g1).2 b)
        let h2 : Heap R :=
          if (h1.node b).requires_grad = true then add_grad h1 b (h1.node x).grad else h1
        have g2 : GradOnly h1 h2 := gradOnly_ite h1 _ b _
        have hcall : (Closure.add a b x).call L h = .ok h2 := by
          simp only [Closure.call]
          rw [if_pos ⟨hxl2, hal, hbl⟩]
        obtain ⟨h3, e3, q3⟩ := ih h2 (gradOnly_trans g (gradOnly_trans g1 g2)) hrevr hltr
        refine ⟨h3, ?_, ?_⟩
        · rw [propagate_cons_call L x rest h (Closure.add a b x) (by rw [hf.2.2.2.2.1, hrg])
            (by rw [hf.2.2.2.1, hbw])]
          simp only [hcall]
          exact e3
        · rw [q3, gradSum_pending_cons h D l x rest hxl2 hxr hxl]
          have hxg : (h1.node x).grad = (h.node x).grad :=
            grad_ite_add_grad_ne h _ a x (Nat.ne_of_gt ha) _
          have hbl1 : b < h1.length := by rw [g1.1]; exact hbl
          show gradSum (if (h1.node b).requires_grad = true then add_grad h1 b (h1.node x).grad
            else h1) _ = _
          rw [gradSum_ite_add_grad h1 _ b hbl1, hxg]
          show gradSum (if (h.node a).requires_grad = true then add_grad h a (h.node x).grad
            else h) _ + _ = _
          rw [gradSum_ite_add_grad h _ a hal]
          have wa : pendingWeight D l rest a = D a := by simp [pendingWeight, har]
          have wb : pendingWeight D l rest b = D b := by simp [pendingWeight, hbr]
          rw [wa, wb, hD, hga.2.2.2.2.1, hgb.2.2.2.2.1]
          have za : (if (H.node a).requires_grad = true then (h.node x).grad * D a else 0) =
              (h.node x).grad * D a := by
            cases hra : (H.node a).requires_grad
            · rw [hzero a (Nat.lt_trans ha hx) hra]; simp
            · simp
          have zb : (if (H.node b).requires_grad = true then (h.node x).grad * D b else 0) =
              (h.node x).grad * D b := by
            cases hrb : (H.node b).requires_grad
            · rw [hzero b (Nat.lt_trans hb hx) hrb]; simp
            · simp
          rw [za, zb]
          ring
      · -- a product node with a closure
        rw [hrg, if_pos rfl] at hbw
        have hxl : x ≠ l := by
          intro e
          rw [e, hlp] at hprev
          cases hprev
        have hal : a < h.length := by rw [g.1]; exact Nat.lt_trans ha hx
        have hbl : b < h.length := by rw [g.1]; exact Nat.lt_trans hb hx
        have hxl2 : x < h.length := by rw [g.1]; exact hx
        have har : a ∈ rest := hpred a (by rw [hprev]; exact List.mem_cons_self _ _)
        have hbr : b ∈ rest :=
          hpred b (by rw [hprev]; exact List.mem_cons_of_mem _ (List.mem_cons_self _ _))
        have hga := forgetGrad_fields (g.2 a)
        have hgb0 := forgetGrad_fields (g.2 b)
        let h1 : Heap R :=
          if (h.node a).requires_grad = true then
            add_grad h a ((h.node b).data * (h.node x).grad) else h
        have g1 : GradOnly h h1 := gradOnly_ite h _ a _
        have hgb := forgetGrad_fields ((gradOnly_trans g g1).2 b)
        have hga1 := forgetGrad_fields ((gradOnly_trans g g1).2 a)
        let h2 : Heap R :=
          if (h1.node b).requires_grad = true then
            add_grad h1 b ((h1.node a).data * (h1.node x).grad) else h1
        have g2 : GradOnly h1 h2 := gradOnly_ite h1 _ b _
        have hcall : (Closure.mul a b x).call L h = .ok h2 := by
          simp only [Closure.call]
          rw [if_pos ⟨hxl2, hal, hbl⟩]
        obtain ⟨h3, e3, q3⟩ := ih h2 (gradOnly_trans g (gradOnly_trans g1 g2)) hrevr hltr
        refine ⟨h3, ?_, ?_⟩
        · rw [propagate_cons_call L x rest h (Closure.mul a b x) (by rw [hf.2.2.2.2.1, hrg])
            (by rw [hf.2.2.2.1, hbw])]
          simp only [hcall]
          exact e3
        · rw [q3, gradSum_pending_cons h D l x rest hxl2 hxr hxl]
          have hxg : (h1.node x).grad = (h.node x).grad :=
            grad_ite_add_grad_ne h _ a x (Nat.ne_of_gt ha) _
          have hbl1 : b < h1.length := by rw [g1.1]; exact hbl
          show gradSum (if (h1.node b).requires_grad = true then
            add_grad h1 b ((h1.node a).data * (h1.node x).grad) else h1) _ = _
          rw [gradSum_ite_add_grad h1 _ b hbl1, hxg]
          show gradSum (if (h.node a).requires_grad = true then
            add_grad h a ((h.node b).data * (h.node x).grad) else h) _ + _ = _
          rw [gradSum_ite_add_grad h _ a hal]
          have wa : pendingWeight D l rest a = D a := by simp [pendingWeight, har]
          have wb : pendingWeight D l rest b = D b := by simp [pendingWeight, hbr]
          rw [wa, wb, hD, hga.2.2.2.2.1, hgb.2.2.2.2.1, hga1.1, hgb0.1]
          have za : (if (H.node a).requires_grad = true then
              (H.node b).data * (h.node x).grad * D a else 0) =
              (H.node b).data * (h.node x).grad * D a := by
            cases hra : (H.node a).requires_grad
            · rw [hzero a (Nat.lt_trans ha hx) hra]; simp
            · simp
          have zb : (if (H.node b).requires_grad = true then
              (H.node a).data * (h.node x).grad * D b else 0) =
              (H.node a).data * (h.node x).grad * D b := by
            cases hrb : (H.node b).requires_grad
            · rw [hzero b (Nat.lt_trans hb hx) hrb]; simp
            · simp
          rw [za, zb]
          ring

end ConservationEngine
section TangentBackward

variable {R : Type} [LinearOrderedField R]

theorem acyclic_of_tangent (H : Heap R) (l : Nat) (D : Nat → R)
    (hT : ∀ i, i < H.length → TangentAt H l D i) : Acyclic H := by
  intro x p hp
  by_cases hx : x < H.length
  · obtain ⟨_, hcase | ⟨a, b, ha, hb, hprev, _⟩ | ⟨a, b, ha, hb, hprev, _⟩⟩ := hT x hx
    · rw [hcase.1] at hp
      exact absurd hp (List.not_mem_nil _)
    · rw [hprev] at hp
      simp only [List.mem_cons, List.mem_singleton, List.not_mem_nil, or_false] at hp
      rcases hp with rfl | rfl <;> assumption
    · rw [hprev] at hp
      simp only [List.mem_cons, List.mem_singleton, List.not_mem_nil, or_false] at hp
      rcases hp with rfl | rfl <;> assumption
  · rw [node_of_length_le H x (Nat.le_of_not_lt hx), default_prev] at hp
    exact absurd hp (List.not_mem_nil _)

theorem gradSum_seed (H : Heap R) (hz : ∀ i, i < H.length → (H.node i).grad = 0) (root : Nat)
    (hr : root < H.length) (seed : R) (w : Nat → R) :
    gradSum (set_grad H root seed) w = seed * w root := by
  unfold gradSum set_grad
  rw [List.length_modify]
  have : ∀ i ∈ Finset.range H.length,
      (Heap.node (List.modify (fun v => { v with grad := seed }) root H) i).grad * w i =
        (if root = i then seed * w i else 0) := by
    intro i hi
    rw [node_modify]
    by_cases hir : i = root
    · subst hir
      simp [hr]
    · have : ¬ root = i := fun e => hir e.symm
      simp [hir, this, hz i (Finset.mem_range.1 hi)]
  rw [Finset.sum_congr rfl this, Finset.sum_ite_eq]
  simp [hr]

theorem gradSum_final (h : Heap R) (D : Nat → R) (l : Nat) (hl : l < h.length) :
    gradSum h (pendingWeight D l []) = (h.node l).grad * D l := by
  unfold gradSum pendingWeight
  have : ∀ i ∈ Finset.range h.length,
      (h.node i).grad * (if i ∈ ([] : List Nat) ∨ i = l then D i else 0) =
        (if l = i then (h.node i).grad * D i else 0) := by
    intro i _
    by_cases hil : i = l
    · subst hil
      simp
    · have : ¬ l = i := fun e => hil e.symm
      simp [hil, this]
  rw [Finset.sum_congr rfl this, Finset.sum_ite_eq]
  simp [hl]

/-- The conserved quantity over a whole `backward` call: on a heap whose nodes obey the
differentiation rules, `backward(seed, true, _)` returns, and the `grad`-weighted sum that is
left equals `seed * D root`. -/
theorem backward_conserves (L : Libm R) (H : Heap R) (l : Nat) (D : Nat → R)
    (hT : ∀ i, i < H.length → TangentAt H l D i)
    (hzero : ∀ i, i < H.length → (H.node i).requires_grad = false → D i = 0)
    (hlp : (H.node l).prev_ = [])
    (root : Nat) (hr : root < H.length) (seed : R) (retain_graph : Bool) :
    ∃ h1 h2, backward L H root seed true retain_graph = .ok h2 ∧ h1.length = H.length ∧
      (∀ x, get_grad h2 x = get_grad h1 x) ∧
      gradSum h1 (pendingWeight D l []) = seed * D root := by
  have hac := acyclic_of_tangent H l D hT
  obtain ⟨order, ho, hn, hord, hm⟩ := backward_order H hac root hr seed
  have hrev := revTopo_of_ordered H order hn hord
  have hlt : ∀ x ∈ order.reverse, x < H.length := by
    intro x hx
    have := reach_le hac ((hm x).1 (List.mem_reverse.1 hx))
    omega
  have g0 := gradOnly_set_grad H root seed
  obtain ⟨h1, e1, q1⟩ :=
    propagate_conserves L H l D hT hzero hlp order.reverse (set_grad H root seed) g0 hrev hlt
  have g1 := gradOnly_trans g0 (gradOnly_propagate L _ _ _ e1)
  refine ⟨h1, _, backward_of_phases L H root seed true retain_graph order h1 ho e1, g1.1, ?_, ?_⟩
  · intro x
    cases retain_graph with
    | true => rfl
    | false =>
      simp only [Bool.not_false, Bool.not_true, if_true, Bool.false_eq_true, if_false]
      rw [get_grad_clear_graph]
  · rw [q1, gradSum_seed H (fun i hi => (hT i hi).1) root hr]
    have : root ∈ order.reverse := List.mem_reverse.2 ((hm root).2 Reach.root)
    simp [pendingWeight, this]

/-- Reverse mode computes the tangent: if `D` obeys the differentiation rules of the graph for
the leaf `l`, then `backward(seed, true, _)` returns and leaves `l.grad = seed * D root`. -/
theorem backward_grad_tangent (L : Libm R) (H : Heap R) (l : Nat) (D : Nat → R)
    (hT : ∀ i, i < H.length → TangentAt H l D i) (hll : l < H.length)
    (hl : (H.node l).requires_grad = true) (hlp : (H.node l).prev_ = [])
    (root : Nat) (hr : root < H.length) (seed : R) (retain_graph : Bool) :
    ∃ h1, backward L H root seed true retain_graph = .ok h1 ∧ get_grad h1 l = seed * D root := by
  obtain ⟨h1, h2, e, hlen, hg, q⟩ :=
    backward_conserves L H l D hT (tangent_zero_of_no_grad H l D hT hl) hlp root hr seed
      retain_graph
  have hDl : D l = 1 := by
    obtain ⟨_, hcase | ⟨a, b, _, _, hprev, _⟩ | ⟨a, b, _, _, hprev, _⟩⟩ := hT l hll
    · rw [hcase.2.2, if_pos rfl]
    · rw [hlp] at hprev; cases hprev
    · rw [hlp] at hprev; cases hprev
  refine ⟨h2, e, ?_⟩
  rw [hg l, ← q, gradSum_final h1 D l (by rw [hlen]; exact hll), hDl, mul_one]
  rfl

end TangentBackward

/-! ## Programs that build polynomial graphs -/

section Programs

variable {R : Type} [CommRing R]

theorem shape_append_left (h t : Heap R) (env : Nat → R) (i : Nat) (hi : i < h.length)
    (hs : Shape h env i) : Shape (h ++ t) env i := by
  unfold Shape at hs ⊢
  rw [node_append_left h t i hi]
  obtain ⟨hg, hcase | ⟨a, b, ha, hb, h1, h2, h3, h4, h5⟩ | ⟨a, b, ha, hb, h1, h2, h3, h4, h5⟩⟩ := hs
  · exact ⟨hg, Or.inl hcase⟩
  · refine ⟨hg, Or.inr (Or.inl ⟨a, b, ha, hb, h1, h2, ?_, h4, ?_⟩)⟩
    · rw [node_append_left h t a (Nat.lt_trans ha hi), node_append_left h t b (Nat.lt_trans hb hi)]
      exact h3
    · rw [node_append_left h t a (Nat.lt_trans ha hi), node_append_left h t b (Nat.lt_trans hb hi)]
      exact h5
  · refine ⟨hg, Or.inr (Or.inr ⟨a, b, ha, hb, h1, h2, ?_, h4, ?_⟩)⟩
    · rw [node_append_left h t a (Nat.lt_trans ha hi), node_append_left h t b (Nat.lt_trans hb hi)]
      exact h3
    · rw [node_append_left h t a (Nat.lt_trans ha hi), node_append_left h t b (Nat.lt_trans hb hi)]
      exact h5

theorem shape_snoc (h : Heap R) (v : Value R) (env : Nat → R)
    (hold : ∀ i, i < h.length → Shape h env i) (hnew : Shape (h ++ [v]) env h.length) :
    ∀ i, i < (h ++ [v]).length → Shape (h ++ [v]) env i := by
  intro i hi
  rw [List.length_append, List.length_singleton] at hi
  by_cases hlt : i < h.length
  · exact shape_append_left h [v] env i hlt (hold i hlt)
  · have : i = h.length := by omega
    rw [this]
    exact hnew

theorem shape_leaf (h : Heap R) (env : Nat → R) (rg : Bool)
    (hold : ∀ i, i < h.length → Shape h env i) :
    ∀ i, i < (create_value h (env h.length) [] "" rg true).1.length →
      Shape (create_value h (env h.length) [] "" rg true).1 env i := by
  unfold create_value
  apply shape_snoc h _ env hold
  unfold Shape
  rw [node_append_length]
  exact ⟨rfl, Or.inl ⟨rfl, rfl, rfl, Or.inl rfl⟩⟩

theorem shape_const (h : Heap R) (env : Nat → R)
    (hold : ∀ i, i < h.length → Shape h env i) :
    ∀ i, i < (create_value h (-1) [] "" false true).1.length →
      Shape (create_value h (-1) [] "" false true).1 env i := by
  unfold create_value
  apply shape_snoc h _ env hold
  unfold Shape
  rw [node_append_length]
  exact ⟨rfl, Or.inl ⟨rfl, rfl, rfl, Or.inr ⟨rfl, rfl⟩⟩⟩

theorem shape_add (h : Heap R) (env : Nat → R) (a b : Nat) (ha : a < h.length)
    (hb : b < h.length) (hold : ∀ i, i < h.length → Shape h env i) :
    ∀ i, i < (operator_add h a b).1.length → Shape (operator_add h a b).1 env i := by
  rw [operator_add_eq]
  apply shape_snoc h _ env hold
  unfold Shape
  rw [node_append_length]
  refine ⟨rfl, Or.inr (Or.inl ⟨a, b, ha, hb, rfl, rfl, ?_, rfl, ?_⟩)⟩
  · rw [node_append_left h _ a ha, node_append_left h _ b hb]
  · rw [node_append_left h _ a ha, node_append_left h _ b hb]

theorem shape_mul (h : Heap R) (env : Nat → R) (a b : Nat) (ha : a < h.length)
    (hb : b < h.length) (hold : ∀ i, i < h.length → Shape h env i) :
    ∀ i, i < (operator_mul h a b).1.length → Shape (operator_mul h a b).1 env i := by
  rw [operator_mul_eq]
  apply shape_snoc h _ env hold
  unfold Shape
  rw [node_append_length]
  refine ⟨rfl, Or.inr (Or.inr ⟨a, b, ha, hb, rfl, rfl, ?_, rfl, ?_⟩)⟩
  · rw [node_append_left h _ a ha, node_append_left h _ b hb]
  · rw [node_append_left h _ a ha, node_append_left h _ b hb]

theorem length_operator_add (h : Heap R) (a b : Nat) :
    (operator_add h a b).1.length = h.length + 1 := by
  rw [operator_add_eq]; simp

theorem length_operator_mul (h : Heap R) (a b : Nat) :
    (operator_mul h a b).1.length = h.length + 1 := by
  rw [operator_mul_eq]; simp

theorem snd_operator_mul (h : Heap R) (a b : Nat) : (operator_mul h a b).2 = h.length := by
  rw [operator_mul_eq]

theorem length_run (env : Nat → R) (h : Heap R) (c : Cmd) :
    (c.run env h).length = h.length + c.allocs := by
  cases c with
  | leaf rg => simp [Cmd.run, Cmd.allocs, create_value]
  | add a b => simp [Cmd.run, Cmd.allocs, length_operator_add]
  | mul a b => simp [Cmd.run, Cmd.allocs, length_operator_mul]
  | neg a => simp [Cmd.run, Cmd.allocs, operator_neg, length_operator_mul, create_value]
  | sub a b =>
    simp [Cmd.run, Cmd.allocs, operator_sub, operator_neg, length_operator_add,
      length_operator_mul, create_value]

theorem shape_neg (h : Heap R) (env : Nat → R) (a : Nat) (ha : a < h.length)
    (hold : ∀ i, i < h.length → Shape h env i) :
    ∀ i, i < (operator_neg h a).1.length → Shape (operator_neg h a).1 env i := by
  have e : operator_neg h a = operator_mul (create_value h (-1) [] "" false true).1 a h.length :=
    rfl
  have h1 := shape_const h env hold
  have hl : (create_value h (-1 : R) [] "" false true).1.length = h.length + 1 := by
    simp [create_value]
  have hal : a < (create_value h (-1 : R) [] "" false true).1.length := by rw [hl]; omega
  have hcl : h.length < (create_value h (-1 : R) [] "" false true).1.length := by rw [hl]; omega
  rw [e]
  exact shape_mul _ env a h.length hal hcl h1

theorem shape_run (env : Nat → R) (h : Heap R) (c : Cmd)
    (hv : ∀ a ∈ c.operands, a < h.length) (hold : ∀ i, i < h.length → Shape h env i) :
    ∀ i, i < (c.run env h).length → Shape (c.run env h) env i := by
  cases c with
  | leaf rg => exact shape_leaf h env rg hold
  | add a b => exact shape_add h env a b (hv a (by simp [Cmd.operands])) (hv b (by simp [Cmd.operands])) hold
  | mul a b => exact shape_mul h env a b (hv a (by simp [Cmd.operands])) (hv b (by simp [Cmd.operands])) hold
  | neg a => exact shape_neg h env a (hv a (by simp [Cmd.operands])) hold
  | sub a b =>
    have ha : a < h.length := hv a (by simp [Cmd.operands])
    have hb : b < h.length := hv b (by simp [Cmd.operands])
    have h1 := shape_neg h env b hb hold
    have hl : (operator_neg h b).1.length = h.length + 2 := by
      simp [operator_neg, length_operator_mul, create_value]
    have h2 : (operator_neg h b).2 = h.length + 1 := by
      simp [operator_neg, snd_operator_mul, create_value]
    have e : operator_sub h a b = operator_add (operator_neg h b).1 a (operator_neg h b).2 := rfl
    have hal : a < (operator_neg h b).1.length := by rw [hl]; omega
    have hnl : (operator_neg h b).2 < (operator_neg h b).1.length := by rw [hl, h2]; omega
    show ∀ i, i < (operator_sub h a b).1.length → Shape (operator_sub h a b).1 env i
    rw [e]
    exact shape_add _ env a _ hal hnl h1

theorem shape_execFrom (env : Nat → R) (cmds : List Cmd) :
    ∀ (h : Heap R), ValidFrom h.length cmds → (∀ i, i < h.length → Shape h env i) →
      ∀ i, i < (execFrom env h cmds).length → Shape (execFrom env h cmds) env i := by
  induction cmds with
  | nil => intro h _ hold; exact hold
  | cons c cs ih =>
    intro h hv hold
    unfold execFrom
    rw [List.foldl_cons]
    apply ih (c.run env h)
    · rw [length_run]
      exact hv.2
    · exact shape_run env h c hv.1 hold

theorem shape_exec (env : Nat → R) (cmds : List Cmd) (hv : ValidFrom 0 cmds) :
    ∀ i, i < (exec env cmds).length → Shape (exec env cmds) env i :=
  shape_execFrom env cmds [] hv (fun i hi => absurd hi (Nat.not_lt_zero i))

end Programs

/-! ## Programs commute with a change of scalars -/

section ChangeOfScalars

variable {R S : Type} [CommRing R] [CommRing S] (f : R →+* S)

theorem node_map (h : Heap R) (i : Nat) :
    Heap.node (h.map (Value.map f)) i = Value.map f (h.node i) := by
  unfold Heap.node
  rw [List.getElem?_map]
  cases h[i]? with
  | none =>
    show (default : Value S) = Value.map f default
    simp [Value.map, default]
  | some v => rfl

theorem create_value_map (h : Heap R) (v : R) (prev : List Nat) (op : String) (rg lf : Bool) :
    (create_value (h.map (Value.map f)) (f v) prev op rg lf).1 =
      (create_value h v prev op rg lf).1.map (Value.map f) := by
  simp [create_value, Value.map, Value.mk0]

theorem operator_add_map (h : Heap R) (a b : Nat) :
    (operator_add (h.map (Value.map f)) a b).1 = (operator_add h a b).1.map (Value.map f) := by
  rw [operator_add_eq, operator_add_eq]
  simp [node_map, Value.map]

theorem operator_mul_map (h : Heap R) (a b : Nat) :
    (operator_mul (h.map (Value.map f)) a b).1 = (operator_mul h a b).1.map (Value.map f) := by
  rw [operator_mul_eq, operator_mul_eq]
  simp [node_map, Value.map]

theorem operator_neg_map (h : Heap R) (a : Nat) :
    (operator_neg (h.map (Value.map f)) a).1 = (operator_neg h a).1.map (Value.map f) := by
  have e1 : operator_neg (h.map (Value.map f)) a =
      operator_mul (create_value (h.map (Value.map f)) (-1) [] "" false true).1 a
        (h.map (Value.map f)).length := rfl
  have e2 : operator_neg h a =
      operator_mul (create_value h (-1) [] "" false true).1 a h.length := rfl
  have e3 := create_value_map f h (-1) [] "" false true
  rw [map_neg, map_one] at e3
  rw [e1, e2, e3, List.length_map, operator_mul_map]

theorem snd_operator_neg (h : Heap R) (a : Nat) : (operator_neg h a).2 = h.length + 1 := by
  simp [operator_neg, snd_operator_mul, create_value]

theorem operator_sub_map (h : Heap R) (a b : Nat) :
    (operator_sub (h.map (Value.map f)) a b).1 = (operator_sub h a b).1.map (Value.map f) := by
  have e1 : operator_sub (h.map (Value.map f)) a b =
      operator_add (operator_neg (h.map (Value.map f)) b).1 a
        (operator_neg (h.map (Value.map f)) b).2 := rfl
  have e2 : operator_sub h a b = operator_add (operator_neg h b).1 a (operator_neg h b).2 := rfl
  rw [e1, e2, operator_neg_map, snd_operator_neg, snd_operator_neg, List.length_map,
    operator_add_map]

theorem run_map (env : Nat → R) (h : Heap R) (c : Cmd) :
    Cmd.run (fun i => f (env i)) (h.map (Value.map f)) c = (Cmd.run env h c).map (Value.map f) := by
  cases c with
  | leaf rg =>
    simp only [Cmd.run, List.length_map]
    exact create_value_map f h (env h.length) [] "" rg true
  | add a b => exact operator_add_map f h a b
  | mul a b => exact operator_mul_map f h a b
  | neg a => exact operator_neg_map f h a
  | sub a b => exact operator_sub_map f h a b

theorem execFrom_map (env : Nat → R) (cmds : List Cmd) :
    ∀ h : Heap R, execFrom (fun i => f (env i)) (h.map (Value.map f)) cmds =
      (execFrom env h cmds).map (Value.map f) := by
  induction cmds with
  | nil => intro h; rfl
  | cons c cs ih =>
    intro h
    unfold execFrom
    rw [List.foldl_cons, List.foldl_cons, run_map]
    exact ih (c.run env h)

theorem exec_map (env : Nat → R) (cmds : List Cmd) :
    exec (fun i => f (env i)) cmds = (exec env cmds).map (Value.map f) :=
  execFrom_map f env cmds []

end ChangeOfScalars

/-! ## Claim C1: reverse-mode correctness on polynomial graphs -/

section PolynomialCorrectness

variable {R : Type} [LinearOrderedField R]

theorem tangent_zero_shape (env : Nat → R) (cmds : List Cmd) (hv : ValidFrom 0 cmds) (i : Nat)
    (hi : i < (exec env cmds).length) :
    TangentAt (exec env cmds) (exec env cmds).length (fun _ => 0) i := by
  obtain ⟨hg, hcase | ⟨a, b, ha, hb, h1, _, h3, h4, _⟩ | ⟨a, b, ha, hb, h1, _, h3, h4, _⟩⟩ :=
    shape_exec env cmds hv i hi
  · exact ⟨hg, Or.inl ⟨hcase.1, hcase.2.1, by rw [if_neg (Nat.ne_of_lt hi)]⟩⟩
  · exact ⟨hg, Or.inr (Or.inl ⟨a, b, ha, hb, h1, h3, h4, by simp⟩)⟩
  · exact ⟨hg, Or.inr (Or.inr ⟨a, b, ha, hb, h1, h3, h4, by simp⟩)⟩

theorem exec_eval (env : Nat → R) (cmds : List Cmd) (l : Nat) (t : R) :
    exec (Function.update env l t) cmds =
      (exec (fun i => if i = l then Polynomial.X else Polynomial.C (env i)) cmds).map
        (Value.map (Polynomial.evalRingHom t)) := by
  rw [← exec_map]
  congr 1
  funext i
  by_cases hi : i = l
  · subst hi
    simp
  · simp [hi, Function.update_noteq hi]

theorem tangent_exec (env : Nat → R) (cmds : List Cmd) (hv : ValidFrom 0 cmds) (l : Nat)
    (hl : ((exec env cmds).node l).requires_grad = true) (i : Nat)
    (hi : i < (exec env cmds).length) :
    TangentAt (exec env cmds) l
      (fun j => Polynomial.eval (env l) (Polynomial.derivative
        (Heap.node (exec (fun i => if i = l then Polynomial.X else Polynomial.C (env i)) cmds)
          j).data)) i := by
  have hmap := exec_eval env cmds l (env l)
  rw [Function.update_eq_self] at hmap
  have hnode : ∀ j, (exec env cmds).node j = Value.map (Polynomial.evalRingHom (env l))
      (Heap.node (exec (fun i => if i = l then Polynomial.X else Polynomial.C (env i)) cmds) j) := by
    intro j
    rw [hmap, node_map]
  have hlen : (exec env cmds).length =
      (exec (fun i => if i = l then (Polynomial.X : Polynomial R)
        else Polynomial.C (env i)) cmds).length := by
    rw [hmap, List.length_map]
  have hs := shape_exec (fun i => if i = l then (Polynomial.X : Polynomial R)
    else Polynomial.C (env i)) cmds hv i (hlen ▸ hi)
  rw [hnode l] at hl
  unfold TangentAt
  simp only [hnode, Value.map] at hl ⊢
  obtain ⟨hg, hcase | ⟨a, b, ha, hb, h1, _, h3, h4, h5⟩ | ⟨a, b, ha, hb, h1, _, h3, h4, h5⟩⟩ := hs
  · refine ⟨by rw [hg]; simp, Or.inl ⟨hcase.1, hcase.2.1, ?_⟩⟩
    rcases hcase.2.2.2 with hd | ⟨hd, hrg⟩
    · rw [hd]
      by_cases hil : i = l
      · simp [hil]
      · simp [hil]
    · have hil : i ≠ l := by
        intro e
        rw [e, hl] at hrg
        cases hrg
      rw [hd, if_neg hil]
      simp
  · refine ⟨by rw [hg]; simp, Or.inr (Or.inl ⟨a, b, ha, hb, h1, h3, h4, ?_⟩)⟩
    rw [h5]
    simp
  · refine ⟨by rw [hg]; simp, Or.inr (Or.inr ⟨a, b, ha, hb, h1, h3, h4, ?_⟩)⟩
    rw [h5, Polynomial.derivative_mul]
    simp

/-- Claim C1, as amended.  In exact arithmetic (`R` an ordered field): take any program that
builds a graph from client leaves with `+`, `*`, unary `-` and binary `-`, sharing
sub-expressions freely, and any node `root` of the heap it leaves.  Then
`root.backward(1, true, true)` returns (with `retain_graph = true` no object is released), and
for every leaf `l` reachable from `root` with `requires_grad = true` the final `l.grad` is the
exact partial derivative of the root's value with respect to `l`'s data: there is a polynomial
`p` that gives the root's value as a function of the value `t` put into leaf `l` (all other
inputs fixed), it is the only such polynomial, and `l.grad` is the derivative of `p` evaluated
at `l`'s data. -/
theorem backward_exact_on_polynomials (L : Libm R) (env : Nat → R) (cmds : List Cmd)
    (hv : ValidFrom 0 cmds) (root : Nat) (hr : root < (exec env cmds).length) :
    ∃ h1, backward L (exec env cmds) root 1 true true = .ok h1 ∧
      ∀ l, Reach (exec env cmds) root l → ((exec env cmds).node l).is_leaf = true →
        ((exec env cmds).node l).requires_grad = true →
        ∃ p : Polynomial R,
          (∀ t, get_data (exec (Function.update env l t) cmds) root = p.eval t) ∧
          (∀ q : Polynomial R,
            (∀ t, get_data (exec (Function.update env l t) cmds) root = q.eval t) → q = p) ∧
          get_grad h1 l = (Polynomial.derivative p).eval (get_data (exec env cmds) l) := by
  have hshape := shape_exec env cmds hv
  obtain ⟨_, h1, e1, _, _, _⟩ :=
    backward_conserves L (exec env cmds) (exec env cmds).length (fun _ => 0)
      (tangent_zero_shape env cmds hv) (fun _ _ _ => rfl)
      (by rw [node_of_length_le _ _ (Nat.le_refl _), default_prev]) root hr 1 true
  refine ⟨h1, e1, ?_⟩
  intro l _ hleaf hrg
  have hll : l < (exec env cmds).length := by
    by_contra hn
    rw [node_of_length_le _ _ (Nat.le_of_not_lt hn)] at hrg
    cases hrg
  have hlshape := hshape l hll
  have hlp : ((exec env cmds).node l).prev_ = [] ∧ ((exec env cmds).node l).data = env l := by
    obtain ⟨_, hcase | ⟨a, b, _, _, _, h2, _⟩ | ⟨a, b, _, _, _, h2, _⟩⟩ := hlshape
    · refine ⟨hcase.1, ?_⟩
      rcases hcase.2.2.2 with hd | ⟨_, hr0⟩
      · exact hd
      · rw [hrg] at hr0
        cases hr0
    · rw [hleaf] at h2
      cases h2
    · rw [hleaf] at h2
      cases h2
  obtain ⟨h2, e2, hgrad⟩ :=
    backward_grad_tangent L (exec env cmds) l _ (tangent_exec env cmds hv l hrg) hll hrg hlp.1
      root hr 1 true
  rw [e1] at e2
  cases e2
  have hval : ∀ t, get_data (exec (Function.update env l t) cmds) root =
      Polynomial.eval t (Heap.node (exec (fun i => if i = l then Polynomial.X
        else Polynomial.C (env i)) cmds) root).data := by
    intro t
    rw [get_data, exec_eval env cmds l t, node_map]
    rfl
  refine ⟨(Heap.node (exec (fun i => if i = l then Polynomial.X else Polynomial.C (env i)) cmds)
    root).data, hval, ?_, ?_⟩
  · intro q hq
    apply Polynomial.funext
    intro t
    rw [← hq t, hval t]
  · rw [hgrad, one_mul, get_data, hlp.2]

theorem exProgram_valid : ValidFrom 0 exProgram := by
  simp [ValidFrom, exProgram, Cmd.operands, Cmd.allocs]

/-- Instance of the amended C1 on `y = x*x + x` at `x = 3`, over the rationals. -/
theorem backward_exact_on_polynomials_witness :
    2 < (exec (fun _ => (3 : ℚ)) exProgram).length ∧
    ∃ h1, backward exLibm (exec (fun _ => (3 : ℚ)) exProgram) 2 1 true true = .ok h1 ∧
      ∀ l, Reach (exec (fun _ => (3 : ℚ)) exProgram) 2 l →
        ((exec (fun _ => (3 : ℚ)) exProgram).node l).is_leaf = true →
        ((exec (fun _ => (3 : ℚ)) exProgram).node l).requires_grad = true →
        ∃ p : Polynomial ℚ,
          (∀ t, get_data (exec (Function.update (fun _ => (3 : ℚ)) l t) exProgram) 2 = p.eval t) ∧
          (∀ q : Polynomial ℚ,
            (∀ t, get_data (exec (Function.update (fun _ => (3 : ℚ)) l t) exProgram) 2 = q.eval t) →
              q = p) ∧
          get_grad h1 l =
            (Polynomial.derivative p).eval (get_data (exec (fun _ => (3 : ℚ)) exProgram) l) :=
  ⟨by decide,
    backward_exact_on_polynomials exLibm (fun _ => 3) exProgram exProgram_valid 2 (by decide)⟩

end PolynomialCorrectness

/-! ## Claims C12, C13 and C14: forward values, zeroing, leaves -/

section ForwardClaims

variable {R : Type} [LinearOrderedField R]

theorem preserves_append (h t : Heap R) (p : Nat) : Preserves h (h ++ t, p) :=
  fun q hq => node_append_left h t q hq

/-- Claim C12, as amended.  For existing operands `a`, `b`: the node returned by `+` holds
`a.data + b.data`, by `*` holds `a.data * b.data`, by unary `-` holds `-a.data`, by binary `-`
holds `a.data - b.data`, and by `/`, when `|b.data| >= 1e-12`, holds the product
`a.data * pow(b.data, -1)` (in exact arithmetic, when `pow(x, -1)` is the inverse, that is
`a.data / b.data`); and no builder (these five, `pow`, `exp`, `tanh`) changes any existing
object, in particular not the `data` or `grad` of an operand. -/
theorem forward_values (L : Libm R) (h : Heap R) (a b : Nat) (ha : a < h.length)
    (hb : b < h.length) :
    (get_data (operator_add h a b).1 (operator_add h a b).2 = get_data h a + get_data h b ∧
      Preserves h (operator_add h a b)) ∧
    (get_data (operator_mul h a b).1 (operator_mul h a b).2 = get_data h a * get_data h b ∧
      Preserves h (operator_mul h a b)) ∧
    (get_data (operator_neg h a).1 (operator_neg h a).2 = -get_data h a ∧
      Preserves h (operator_neg h a)) ∧
    (get_data (operator_sub h a b).1 (operator_sub h a b).2 = get_data h a - get_data h b ∧
      Preserves h (operator_sub h a b)) ∧
    (¬ |get_data h b| < tiny →
      ∃ r, operator_div L h a b = .ok r ∧
        get_data r.1 r.2 = get_data h a * L.pow (get_data h b) (-1) ∧
        (L.pow (get_data h b) (-1) = (get_data h b)⁻¹ →
          get_data r.1 r.2 = get_data h a / get_data h b) ∧
        Preserves h r) ∧
    Preserves h (pow L h a b) ∧ Preserves h (exp L h a) ∧ Preserves h (tanh L h a) := by
  refine ⟨?_, ?_, ?_, ?_, ?_, ?_, ?_, ?_⟩
  · rw [operator_add_eq]
    exact ⟨by simp [get_data, node_append_length], preserves_append _ _ _⟩
  · rw [operator_mul_eq]
    exact ⟨by simp [get_data, node_append_length], preserves_append _ _ _⟩
  · rw [operator_neg_eq h a ha]
    exact ⟨by simp [get_data, node_append_right, node_cons_succ, node_cons_zero],
      preserves_append _ _ _⟩
  · rw [operator_sub_eq h a b ha hb]
    refine ⟨?_, preserves_append _ _ _⟩
    simp only [get_data, node_append_right, node_cons_succ, node_cons_zero]
    ring
  · intro hnz
    refine ⟨_, operator_div_eq L h a b ha hb hnz, ?_, ?_, preserves_append _ _ _⟩
    · simp [get_data, node_append_right, node_cons_succ, node_cons_zero]
    · intro hinv
      simp only [get_data, node_append_right, node_cons_succ, node_cons_zero]
      simp only [get_data] at hinv
      rw [hinv, div_eq_mul_inv]
  · rw [pow_eq]
    exact preserves_append _ _ _
  · rw [exp_eq]
    exact preserves_append _ _ _
  · rw [tanh_eq]
    exact preserves_append _ _ _

/-- Instance of the amended C12 on the leaves `2` and `3`: `2 / 3` with an exact `pow`. -/
theorem forward_values_witness :
    ∃ r, operator_div ratLibm exLeaves 0 1 = .ok r ∧
      get_data r.1 r.2 = get_data exLeaves 0 / get_data exLeaves 1 := by
  obtain ⟨r, hr, _, hq, _⟩ :=
    (forward_values ratLibm exLeaves 0 1 (by decide) (by decide)).2.2.2.2.1
      (by
        have : get_data exLeaves 1 = (3 : ℚ) := rfl
        rw [this, tiny]
        norm_num [abs_of_pos])
  exact ⟨r, hr, hq (by simp [ratLibm])⟩

/-- Claim C13.  `zero_grad` on a node sets its `grad` to `0` and changes no other field of it
and no other node; `Module::zero_grad` does so for every node returned by `parameters()`: each
of them ends with `grad = 0`, and the `data` of every node is unchanged. -/
theorem zeroing (h : Heap R) (p : Nat) (parameters : List Nat) :
    (Heap.node (zero_grad h p) p = { h.node p with grad := 0 } ∧
      get_grad (zero_grad h p) p = 0 ∧
      ∀ q, q ≠ p → Heap.node (zero_grad h p) q = h.node q) ∧
    ((∀ q, Heap.node (Module_zero_grad parameters h) q =
        if q ∈ parameters then { h.node q with grad := 0 } else h.node q) ∧
      (∀ q, q ∈ parameters → get_grad (Module_zero_grad parameters h) q = 0) ∧
      (∀ q, get_data (Module_zero_grad parameters h) q = get_data h q)) := by
  have hone : ∀ (k : Heap R) (x q : Nat),
      Heap.node (zero_grad k x) q = if q = x then { k.node q with grad := 0 } else k.node q := by
    intro k x q
    unfold zero_grad
    rw [node_modify]
    by_cases hq : q = x
    · subst hq
      by_cases hl : q < k.length
      · simp [hl]
      · rw [node_of_length_le k q (Nat.le_of_not_lt hl)]
        simp [hl]
        rfl
    · simp [hq]
  have hall : ∀ (ps : List Nat) (k : Heap R) (q : Nat),
      Heap.node (Module_zero_grad ps k) q =
        if q ∈ ps then { k.node q with grad := 0 } else k.node q := by
    intro ps
    induction ps with
    | nil => intro k q; simp [Module_zero_grad]
    | cons x xs ih =>
      intro k q
      have e : Module_zero_grad (x :: xs) k = Module_zero_grad xs (zero_grad k x) := rfl
      rw [e, ih, hone]
      by_cases hq : q = x
      · subst hq
        simp
      · simp [hq]
  refine ⟨⟨?_, ?_, ?_⟩, hall parameters h, ?_, ?_⟩
  · rw [hone, if_pos rfl]
  · rw [get_grad, hone, if_pos rfl]
  · intro q hq
    rw [hone, if_neg hq]
  · intro q hq
    rw [get_grad, hall, if_pos hq]
  · intro q
    rw [get_data, hall]
    split <;> rfl

theorem leafInv_append (h t : Heap R)
    (hh : ∀ i, (h.node i).is_leaf = true → (h.node i).prev_ = [])
    (ht : ∀ i, (Heap.node t i).is_leaf = true → (Heap.node t i).prev_ = []) :
    ∀ i, (Heap.node (h ++ t) i).is_leaf = true → (Heap.node (h ++ t) i).prev_ = [] := by
  intro i
  by_cases hi : i < h.length
  · rw [node_append_left h t i hi]
    exact hh i
  · obtain ⟨k, rfl⟩ : ∃ k, i = h.length + k := ⟨i - h.length, by omega⟩
    rw [node_append_right]
    exact ht k

theorem leafInv_non_leaf (v : Value R) (hv : v.is_leaf = false) :
    ∀ i, (Heap.node [v] i).is_leaf = true → (Heap.node [v] i).prev_ = [] := by
  intro i
  cases i with
  | zero => rw [node_cons_zero, hv]; intro hc; cases hc
  | succ k => rw [node_cons_succ, node_nil]; intro _; rfl

theorem leafInv_const_then (v : Value R) (t : Heap R)
    (hv : v.prev_ = [])
    (ht : ∀ i, (Heap.node t i).is_leaf = true → (Heap.node t i).prev_ = []) :
    ∀ i, (Heap.node (v :: t) i).is_leaf = true → (Heap.node (v :: t) i).prev_ = [] := by
  intro i
  cases i with
  | zero => rw [node_cons_zero]; intro _; exact hv
  | succ k => rw [node_cons_succ]; exact ht k

theorem leafInv_two_non_leaf (v w : Value R) (hv : v.is_leaf = false) (hw : w.is_leaf = false) :
    ∀ i, (Heap.node [v, w] i).is_leaf = true → (Heap.node [v, w] i).prev_ = [] := by
  intro i
  cases i with
  | zero => rw [node_cons_zero, hv]; intro hc; cases hc
  | succ k => rw [node_cons_succ]; exact leafInv_non_leaf w hw k

/-- Claim C14, as amended.  On every heap produced by `create_parameter`, the builders, and
`create_value` (or the `Value` constructor) called without the combination `is_leaf = true`
and non-empty `prev`, every node with `is_leaf = true` has an empty `prev_`. -/
theorem leaf_invariant (L : Libm R) (h : Heap R) (hb : BuiltLeafSafe L h) :
    ∀ i, (h.node i).is_leaf = true → (h.node i).prev_ = [] := by
  induction hb with
  | empty => intro i _; rw [node_nil]; rfl
  | create_value v prev op rg lf _ _ hsafe ih =>
    apply leafInv_append _ _ ih
    intro i
    cases i with
    | zero => rw [node_cons_zero]; intro hl; exact hsafe hl
    | succ k => rw [node_cons_succ, node_nil]; intro _; rfl
  | create_parameter v _ ih =>
    apply leafInv_append _ _ ih
    exact leafInv_const_then _ [] rfl (fun i _ => by rw [node_nil]; rfl)
  | add a b _ _ _ ih =>
    rw [operator_add_eq]
    exact leafInv_append _ _ ih (leafInv_non_leaf _ rfl)
  | mul a b _ _ _ ih =>
    rw [operator_mul_eq]
    exact leafInv_append _ _ ih (leafInv_non_leaf _ rfl)
  | neg a _ ha ih =>
    rw [operator_neg_eq _ a ha]
    exact leafInv_append _ _ ih (leafInv_const_then _ _ rfl (leafInv_non_leaf _ rfl))
  | sub a b _ ha hb ih =>
    rw [operator_sub_eq _ a b ha hb]
    exact leafInv_append _ _ ih (leafInv_const_then _ _ rfl (leafInv_two_non_leaf _ _ rfl rfl))
  | pow a b _ _ _ ih =>
    rw [pow_eq]
    exact leafInv_append _ _ ih (leafInv_non_leaf _ rfl)
  | @div h0 a b r _ ha hb hr ih =>
    have hnz : ¬ |(h0.node b).data| < tiny := by
      intro hz
      unfold operator_div at hr
      rw [if_pos ((operator_div_guard _).2 hz)] at hr
      cases hr
    rw [operator_div_eq L _ a b ha hb hnz] at hr
    cases hr
    exact leafInv_append _ _ ih (leafInv_const_then _ _ rfl (leafInv_two_non_leaf _ _ rfl rfl))
  | exp a _ _ ih =>
    rw [exp_eq]
    exact leafInv_append _ _ ih (leafInv_non_leaf _ rfl)
  | tanh a _ _ ih =>
    rw [tanh_eq]
    exact leafInv_append _ _ ih (leafInv_non_leaf _ rfl)

/-- Instance of the amended C14 on `y = x*x + x`: the leaf `x` has no predecessors. -/
theorem leaf_invariant_witness :
    (exShared.node 0).is_leaf = true ∧ (exShared.node 0).prev_ = [] :=
  ⟨rfl, leaf_invariant exLibm exShared
    (BuiltLeafSafe.add 1 0
      (BuiltLeafSafe.mul 0 0 (BuiltLeafSafe.create_parameter 3 BuiltLeafSafe.empty) (by decide)
        (by decide))
      (by decide) (by decide)) 0 rfl⟩

theorem exLeaves_built : Built exLibm exLeaves :=
  Built.create_value 3 [] "" false true
    (Built.create_value 2 [] "" true true Built.empty (by simp)) (by simp)

/-- Counterexample to C14 as stated.  `create_value(1, {p}, "", false, true)`, with `p` the
first of two existing leaves, is a call of the public interface; the node it returns has
`is_leaf = true` and the predecessor list `[p]`. -/
theorem leaf_invariant_counterexample :
    Built exLibm (create_value exLeaves 1 [0] "" false true).1 ∧
    (Heap.node (create_value exLeaves 1 [0] "" false true).1
      (create_value exLeaves 1 [0] "" false true).2).is_leaf = true ∧
    (Heap.node (create_value exLeaves 1 [0] "" false true).1
      (create_value exLeaves 1 [0] "" false true).2).prev_ = [0] ∧
    ¬ ∀ i, (Heap.node (create_value exLeaves 1 [0] "" false true).1 i).is_leaf = true →
      (Heap.node (create_value exLeaves 1 [0] "" false true).1 i).prev_ = [] := by
  have h1 : (Heap.node (create_value exLeaves 1 [0] "" false true).1 2).is_leaf = true := by
    decide
  have h2 : (Heap.node (create_value exLeaves 1 [0] "" false true).1 2).prev_ = [0] := by
    decide
  refine ⟨Built.create_value 1 [0] "" false true exLeaves_built (by decide), h1, h2, ?_⟩
  intro hall
  have := hall 2 h1
  rw [h2] at this
  cases this

end ForwardClaims

/-! ## Claims C11 and C16: `pow` -/

section PowClaims

variable {R : Type} [LinearOrderedField R]

theorem node_add_grad (h : Heap R) (p q : Nat) (d : R) :
    Heap.node (add_grad h p d) q =
      if q = p ∧ p < h.length then { h.node q with grad := (h.node q).grad + d } else h.node q := by
  unfold add_grad
  rw [node_modify]

theorem length_add_grad (h : Heap R) (p : Nat) (d : R) : (add_grad h p d).length = h.length := by
  unfold add_grad
  rw [List.length_modify]

theorem node_set_grad (h : Heap R) (p q : Nat) (g : R) :
    Heap.node (set_grad h p g) q =
      if q = p ∧ p < h.length then { h.node q with grad := g } else h.node q := by
  unfold set_grad
  rw [node_modify]

omit [LinearOrderedField R] in
theorem length_set_grad (h : Heap R) (p : Nat) (g : R) : (set_grad h p g).length = h.length := by
  unfold set_grad
  rw [List.length_modify]

/-- Claim C16.  Let `out = pow(base, exponent)` with `base` and `exponent` distinct existing
nodes that both require grad, and not (`base.data == 0` and `exponent.data < 1`).  The closure
stored in `out` is the `pow` closure; invoked when `out.grad = g`, it returns without error,
adds `exponent.data * pow(base.data, exponent.data - 1) * g` to `base.grad`, adds
`log(base.data) * pow(base.data, exponent.data) * g` to `exponent.grad` when
`base.data > 1e-12` and leaves `exponent.grad` as it is otherwise, and writes nothing else. -/
theorem pow_closure_rule (L : Libm R) (h : Heap R) (base exponent : Nat)
    (hb : base < h.length) (he : exponent < h.length) (hne : base ≠ exponent)
    (hrb : (h.node base).requires_grad = true) (hre : (h.node exponent).requires_grad = true)
    (hdef : ¬ ((h.node base).data = 0 ∧ (h.node exponent).data < 1)) (g : R) :
    (Heap.node (pow L h base exponent).1 (pow L h base exponent).2).backward_ =
        some (Closure.pow base exponent (pow L h base exponent).2) ∧
    ∃ h2, (Closure.pow base exponent (pow L h base exponent).2).call L
          (set_grad (pow L h base exponent).1 (pow L h base exponent).2 g) = .ok h2 ∧
      get_grad h2 base = get_grad h base +
        (h.node exponent).data * L.pow (h.node base).data ((h.node exponent).data - 1) * g ∧
      get_grad h2 exponent = get_grad h exponent +
        (if (h.node base).data > tiny then
          L.log (h.node base).data * L.pow (h.node base).data (h.node exponent).data * g
         else 0) ∧
      ∀ q, q ≠ base → q ≠ exponent →
        h2.node q = Heap.node (set_grad (pow L h base exponent).1 (pow L h base exponent).2 g) q := by
  rw [pow_eq]
  simp only [hrb, hre, Bool.or_self, if_true]
  refine ⟨by rw [node_append_length], ?_⟩
  -- the heap on which the closure runs
  obtain ⟨k, hk, hklen, hkb, hke, hko⟩ : ∃ k : Heap R,
      k = set_grad (h ++ [⟨L.pow (h.node base).data (h.node exponent).data, 0,
        [base, exponent], "pow", some (Closure.pow base exponent h.length), true, false⟩])
        h.length g ∧
      k.length = h.length + 1 ∧ k.node base = h.node base ∧ k.node exponent = h.node exponent ∧
      (k.node h.length).grad = g := by
    refine ⟨_, rfl, ?_, ?_, ?_, ?_⟩
    · rw [length_set_grad]; simp
    · rw [node_set_grad, if_neg (fun hc => Nat.ne_of_lt hb hc.1), node_append_left _ _ _ hb]
    · rw [node_set_grad, if_neg (fun hc => Nat.ne_of_lt he hc.1), node_append_left _ _ _ he]
    · rw [node_set_grad, if_pos ⟨rfl, by simp⟩]
  rw [← hk]
  have hbk : base < k.length := by rw [hklen]; omega
  have hek : exponent < k.length := by rw [hklen]; omega
  have hok : h.length < k.length := by rw [hklen]; omega
  have hbo : base ≠ h.length := Nat.ne_of_lt hb
  have heo : exponent ≠ h.length := Nat.ne_of_lt he
  simp only [Closure.call]
  rw [if_pos ⟨hok, hbk, hek⟩, hkb, hke, if_neg hdef]
  simp only [hrb, if_true, hko]
  generalize (h.node exponent).data *
    L.pow (h.node base).data ((h.node exponent).data - 1) * g = d1
  obtain ⟨k1, hk1, hk1len, hk1b, hk1bd, hk1e, hk1o⟩ : ∃ k1 : Heap R,
      k1 = add_grad k base d1 ∧ k1.length = k.length ∧
      (k1.node base).grad = (h.node base).grad + d1 ∧
      (k1.node base).data = (h.node base).data ∧
      k1.node exponent = h.node exponent ∧ (k1.node h.length).grad = g := by
    refine ⟨_, rfl, length_add_grad _ _ _, ?_, ?_, ?_, ?_⟩
    · rw [node_add_grad, if_pos ⟨rfl, hbk⟩, hkb]
    · rw [node_add_grad, if_pos ⟨rfl, hbk⟩, hkb]
    · rw [node_add_grad, if_neg (fun hc => hne hc.1.symm), hke]
    · rw [node_add_grad, if_neg (fun hc => hbo hc.1.symm), hko]
  rw [← hk1, hk1bd, hk1e, hk1o]
  simp only [hre, and_true]
  generalize L.log (h.node base).data * L.pow (h.node base).data (h.node exponent).data * g = d2
  refine ⟨_, rfl, ?_, ?_, ?_⟩
  · unfold get_grad
    split
    · rw [node_add_grad, if_neg (fun hc => hne hc.1), hk1b]
    · rw [hk1b]
  · unfold get_grad
    by_cases ht : (h.node base).data > tiny
    · rw [if_pos ht, if_pos ht, node_add_grad, if_pos ⟨rfl, by rw [hk1len]; exact hek⟩, hk1e]
    · rw [if_neg ht, if_neg ht, hk1e, add_zero]
  · intro q hqb hqe
    have hq1 : k1.node q = k.node q := by
      rw [hk1, node_add_grad, if_neg (fun hc => hqb hc.1)]
    split
    · rw [node_add_grad, if_neg (fun hc => hqe hc.1), hq1]
    · exact hq1

theorem propagate_all_skip (L : Libm R) (l : List Nat) (h : Heap R)
    (hs : ∀ n ∈ l, (h.node n).backward_ = none) : propagate L l h = .ok h := by
  induction l with
  | nil => rfl
  | cons n t ih =>
    rw [propagate_cons_skip L n t h (Or.inr (hs n (List.mem_cons_self _ _)))]
    exact ih (fun m hm => hs m (List.mem_cons_of_mem _ hm))

theorem topo_two_leaves (k : Heap R) (out a b : Nat) (hk : 0 < k.length)
    (ho : (k.node out).prev_ = [a, b]) (ha : (k.node a).prev_ = []) (hb : (k.node b).prev_ = [])
    (hao : a ≠ out) (hbo : b ≠ out) :
    build_topological_order k out = some (if a = b then [a, out] else [a, b, out]) := by
  obtain ⟨n, hn⟩ : ∃ n, k.length = n + 1 := ⟨k.length - 1, by omega⟩
  unfold build_topological_order
  rw [hn]
  by_cases hab : a = b
  · subst hab
    simp [build_topo, ho, ha, hao]
  · have hba : ¬ b = a := fun e => hab e.symm
    simp [build_topo, ho, ha, hb, hao, hbo, hab, hba]

/-- Claim C11.  Let `base` and `exponent` be existing nodes without predecessors and without a
closure.  `pow(base, exponent)` returns a node (the builder cannot raise), and `backward` on that
node, with any seed and flags, raises if and only if `base.data == 0`, `exponent.data < 1` and
at least one of the two requires grad; what it raises is the undefined-gradient error. -/
theorem pow_backward_fails_iff (L : Libm R) (h : Heap R) (base exponent : Nat)
    (hb : base < h.length) (he : exponent < h.length)
    (hbl : (h.node base).prev_ = [] ∧ (h.node base).backward_ = none)
    (hel : (h.node exponent).prev_ = [] ∧ (h.node exponent).backward_ = none)
    (seed : R) (retain_grads retain_graph : Bool) :
    (pow L h base exponent).2 < (pow L h base exponent).1.length ∧
    ((∃ e, backward L (pow L h base exponent).1 (pow L h base exponent).2 seed retain_grads
        retain_graph = .error e) ↔
      ((h.node base).data = 0 ∧ (h.node exponent).data < 1 ∧
        ((h.node base).requires_grad = true ∨ (h.node exponent).requires_grad = true))) ∧
    (∀ e, backward L (pow L h base exponent).1 (pow L h base exponent).2 seed retain_grads
        retain_graph = .error e → e.1 = Err.undefinedGradient) := by
  rw [pow_eq]
  refine ⟨by simp, ?_⟩
  generalize hv : (⟨L.pow (h.node base).data (h.node exponent).data, 0, [base, exponent], "pow",
    if ((h.node base).requires_grad || (h.node exponent).requires_grad) = true then
      some (Closure.pow base exponent h.length) else none,
    (h.node base).requires_grad || (h.node exponent).requires_grad, false⟩ : Value R) = v
  have hvp : v.prev_ = [base, exponent] := by rw [← hv]
  have hvr : v.requires_grad = ((h.node base).requires_grad || (h.node exponent).requires_grad) := by
    rw [← hv]
  have hvb : v.backward_ = if ((h.node base).requires_grad || (h.node exponent).requires_grad) = true
      then some (Closure.pow base exponent h.length) else none := by rw [← hv]
  -- the heap after seeding
  have g0 := gradOnly_set_grad (h ++ [v]) h.length seed
  generalize hk : set_grad (h ++ [v]) h.length seed = k at g0
  have hklen : k.length = h.length + 1 := by rw [g0.1]; simp
  have fo := forgetGrad_fields (g0.2 h.length)
  rw [node_append_length] at fo
  have fb := forgetGrad_fields (g0.2 base)
  rw [node_append_left _ _ _ hb] at fb
  have fe := forgetGrad_fields (g0.2 exponent)
  rw [node_append_left _ _ _ he] at fe
  have hord : build_topological_order k h.length =
      some (if base = exponent then [base, h.length] else [base, exponent, h.length]) :=
    topo_two_leaves k h.length base exponent (by rw [hklen]; omega)
      (by rw [fo.2.1, hvp]) (by rw [fb.2.1, hbl.1]) (by rw [fe.2.1, hel.1])
      (Nat.ne_of_lt hb) (Nat.ne_of_lt he)
  -- the leaves are skipped whatever the gradients are
  have hleaves : ∀ k2 : Heap R, GradOnly k k2 → ∀ l : List Nat, (∀ n ∈ l, n = base ∨ n = exponent) →
      propagate L l k2 = .ok k2 := by
    intro k2 g2 l hl
    apply propagate_all_skip
    intro n hn
    rcases hl n hn with rfl | rfl
    · rw [(forgetGrad_fields (g2.2 n)).2.2.2.1, fb.2.2.2.1, hbl.2]
    · rw [(forgetGrad_fields (g2.2 n)).2.2.2.1, fe.2.2.2.1, hel.2]
  have hrev : ∃ l : List Nat, (if base = exponent then [base, h.length]
      else [base, exponent, h.length]).reverse = h.length :: l ∧ ∀ n ∈ l, n = base ∨ n = exponent := by
    by_cases hab : base = exponent
    · exact ⟨[base], by simp [hab], by simp⟩
    · exact ⟨[exponent, base], by simp [hab], by
        intro n hn
        simp at hn
        rcases hn with rfl | rfl
        · exact Or.inr rfl
        · exact Or.inl rfl⟩
  obtain ⟨l, hl, hlm⟩ := hrev
  cases hrg : ((h.node base).requires_grad || (h.node exponent).requires_grad) with
  | false =>
    -- no closure: nothing runs
    have hnone : (k.node h.length).backward_ = none := by
      rw [fo.2.2.2.1, hvb, hrg]
      rfl
    have hp : propagate L (if base = exponent then [base, h.length]
        else [base, exponent, h.length]).reverse k = .ok k := by
      rw [hl, propagate_cons_skip L _ _ _ (Or.inr hnone)]
      exact hleaves k (gradOnly_refl k) l hlm
    have hok := backward_of_phases L (h ++ [v]) h.length seed retain_grads retain_graph _ k
      (by rw [hk]; exact hord) (by rw [hk]; exact hp)
    rw [hok]
    have h2 := Bool.or_eq_false_iff.1 hrg
    constructor
    · constructor
      · rintro ⟨e, he⟩
        cases he
      · rintro ⟨_, _, hor⟩
        rcases hor with hor | hor
        · rw [h2.1] at hor; cases hor
        · rw [h2.2] at hor; cases hor
    · intro e he
      cases he
  | true =>
    have hsome : (k.node h.length).backward_ = some (Closure.pow base exponent h.length) := by
      rw [fo.2.2.2.1, hvb, hrg]
      rfl
    have hrgk : (k.node h.length).requires_grad = true := by rw [fo.2.2.2.2.1, hvr, hrg]
    have hor : (h.node base).requires_grad = true ∨ (h.node exponent).requires_grad = true := by
      cases hb1 : (h.node base).requires_grad
      · rw [hb1] at hrg
        exact Or.inr (by simpa using hrg)
      · exact Or.inl rfl
    have hbk : base < k.length := by rw [hklen]; omega
    have hek : exponent < k.length := by rw [hklen]; omega
    have hok : h.length < k.length := by rw [hklen]; omega
    by_cases hbad : (h.node base).data = 0 ∧ (h.node exponent).data < 1
    · -- the closure throws
      have hcall : (Closure.pow base exponent h.length).call L k = .error Err.undefinedGradient := by
        simp only [Closure.call]
        rw [if_pos ⟨hok, hbk, hek⟩, fb.1, fe.1, if_pos hbad]
      have hp : propagate L (if base = exponent then [base, h.length]
          else [base, exponent, h.length]).reverse k = .error (Err.undefinedGradient, k) := by
        rw [hl, propagate_cons_call L _ _ _ _ hrgk hsome]
        simp only [hcall]
      have herr : backward L (h ++ [v]) h.length seed retain_grads retain_graph =
          .error (Err.undefinedGradient, k) := by
        unfold backward
        simp only [hk, hord, hp]
      rw [herr]
      refine ⟨⟨fun _ => ⟨hbad.1, hbad.2, hor⟩, fun _ => ⟨_, rfl⟩⟩, ?_⟩
      intro e he
      cases he
      rfl
    · -- the closure returns, and the leaves are skipped
      obtain ⟨k2, hcall⟩ : ∃ k2, (Closure.pow base exponent h.length).call L k = .ok k2 := by
        simp only [Closure.call]
        rw [if_pos ⟨hok, hbk, hek⟩, fb.1, fe.1, if_neg hbad]
        exact ⟨_, rfl⟩
      have g2 := gradOnly_call L _ k k2 hcall
      have hp : propagate L (if base = exponent then [base, h.length]
          else [base, exponent, h.length]).reverse k = .ok k2 := by
        rw [hl, propagate_cons_call L _ _ _ _ hrgk hsome]
        simp only [hcall]
        exact hleaves k2 g2 l hlm
      have hok2 := backward_of_phases L (h ++ [v]) h.length seed retain_grads retain_graph _ k2
        (by rw [hk]; exact hord) (by rw [hk]; exact hp)
      rw [hok2]
      constructor
      · constructor
        · rintro ⟨e, he⟩
          cases he
        · rintro ⟨h1, h2, _⟩
          exact absurd ⟨h1, h2⟩ hbad
      · intro e he
        cases he

/-- Instance of C11: `base = leaf(0.0, true)`, `exponent = leaf(-1.0, true)`; `backward` on
`pow(base, exponent)` raises the undefined-gradient error. -/
theorem pow_backward_fails_iff_witness :
    ∃ e, backward exLibm (pow exLibm exZeroPow 0 1).1 (pow exLibm exZeroPow 0 1).2 1 true false =
        .error e ∧ e.1 = Err.undefinedGradient := by
  have h := pow_backward_fails_iff exLibm exZeroPow 0 1 (by decide) (by decide) ⟨rfl, rfl⟩
    ⟨rfl, rfl⟩ 1 true false
  have hd0 : (exZeroPow.node 0).data = 0 := by simp [exZeroPow, Heap.node, Value.mk0]
  have hd1 : (exZeroPow.node 1).data < 1 := by simp [exZeroPow, Heap.node, Value.mk0]
  obtain ⟨e, he⟩ := h.2.1.2 ⟨hd0, hd1, Or.inl rfl⟩
  exact ⟨e, he, h.2.2 e he⟩

/-- Instance of C16 on `pow(2, 3)` with `out.grad = 1`. -/
theorem pow_closure_rule_witness :
    ∃ h2, (Closure.pow 0 1 2).call exLibm (set_grad (pow exLibm exParams 0 1).1 2 1) = .ok h2 ∧
      get_grad h2 0 = get_grad exParams 0 +
        (exParams.node 1).data * exLibm.pow (exParams.node 0).data ((exParams.node 1).data - 1) * 1 ∧
      get_grad h2 1 = get_grad exParams 1 +
        (if (exParams.node 0).data > tiny then
          exLibm.log (exParams.node 0).data *
            exLibm.pow (exParams.node 0).data (exParams.node 1).data * 1
         else 0) := by
  have hdef : ¬ ((exParams.node 0).data = 0 ∧ (exParams.node 1).data < 1) := by
    simp [exParams, Heap.node, Value.mk0]
  obtain ⟨_, h2, e, hb, he, _⟩ :=
    pow_closure_rule exLibm exParams 0 1 (by decide) (by decide) (by decide) rfl rfl hdef 1
  exact ⟨h2, e, hb, he⟩

end PowClaims

/-! ## Claim C17: the gradient of the derived divide -/

section DivideClaim

/-- The closed form of `operator/` when its guard lets the call through, in any arithmetic. -/
theorem operator_div_of_guard {R : Type} [Zero R] [One R] [Mul R] [Neg R] [Div R]
    [NatCast R] [Pow R ℕ] [LT R] [DecidableEq R] [DecidableRel (fun a b : R => a < b)]
    (L : Libm R) (h : Heap R) (a b : Nat) (ha : a < h.length) (hb : b < h.length)
    (hg : ¬ ((h.node b).data = 0 ∨ fabs (h.node b).data < tiny)) :
    operator_div L h a b = .ok
      (h ++ [⟨-1, 0, [], "", none, false, true⟩,
             ⟨L.pow (h.node b).data (-1), 0, [b, h.length], "pow",
              if (h.node b).requires_grad then some (Closure.pow b h.length (h.length + 1))
              else none,
              (h.node b).requires_grad, false⟩,
             ⟨(h.node a).data * L.pow (h.node b).data (-1), 0, [a, h.length + 1], "*",
              if (h.node a).requires_grad || (h.node b).requires_grad
                then some (Closure.mul a (h.length + 1) (h.length + 2)) else none,
              (h.node a).requires_grad || (h.node b).requires_grad, false⟩], h.length + 2) := by
  unfold operator_div
  rw [if_neg hg]
  simp only [create_value, pow_eq, operator_mul_eq, List.append_assoc, List.length_append,
    List.length_singleton, List.singleton_append, List.cons_append, List.nil_append]
  rw [node_append_left _ _ _ hb, node_append_length, node_append_left _ _ _ ha,
    node_append_right]
  simp [node_cons_succ, node_cons_zero, Value.mk0]

theorem divGraph_eq {R : Type} [Zero R] [One R] [Mul R] [Neg R] [Div R]
    [NatCast R] [Pow R ℕ] [LT R] [DecidableEq R] [DecidableRel (fun a b : R => a < b)]
    (L : Libm R) (h0 : Heap R) (va vb : R) (hg : ¬ (vb = 0 ∨ fabs vb < tiny)) :
    divGraph L h0 va vb = .ok
      (h0 ++ [⟨va, 0, [], "", none, true, true⟩,
              ⟨vb, 0, [], "", none, true, true⟩,
              ⟨-1, 0, [], "", none, false, true⟩,
              ⟨L.pow vb (-1), 0, [h0.length + 1, h0.length + 2], "pow",
                some (Closure.pow (h0.length + 1) (h0.length + 2) (h0.length + 3)), true, false⟩,
              ⟨va * L.pow vb (-1), 0, [h0.length, h0.length + 3], "*",
                some (Closure.mul h0.length (h0.length + 3) (h0.length + 4)), true, false⟩],
        h0.length, h0.length + 1, h0.length + 4) := by
  have e2 : (create_parameter (create_parameter h0 va).1 vb).1 =
      h0 ++ [⟨va, 0, [], "", none, true, true⟩, ⟨vb, 0, [], "", none, true, true⟩] := by
    simp [create_parameter, create_value, Value.mk0]
  have hlen : (h0 ++ [(⟨va, 0, [], "", none, true, true⟩ : Value R),
      ⟨vb, 0, [], "", none, true, true⟩]).length = h0.length + 2 := by simp
  have hb : Heap.node (h0 ++ [(⟨va, 0, [], "", none, true, true⟩ : Value R),
      ⟨vb, 0, [], "", none, true, true⟩]) (h0.length + 1) = ⟨vb, 0, [], "", none, true, true⟩ := by
    rw [node_append_right, node_cons_succ, node_cons_zero]
  have ha : Heap.node (h0 ++ [(⟨va, 0, [], "", none, true, true⟩ : Value R),
      ⟨vb, 0, [], "", none, true, true⟩]) h0.length = ⟨va, 0, [], "", none, true, true⟩ := by
    rw [node_append_length]
  have hdiv := operator_div_of_guard L (h0 ++ [(⟨va, 0, [], "", none, true, true⟩ : Value R),
      ⟨vb, 0, [], "", none, true, true⟩]) h0.length (h0.length + 1)
      (by rw [hlen]; omega) (by rw [hlen]; omega) (by rw [hb]; exact hg)
  rw [hb, ha, hlen] at hdiv
  have e1 : (create_parameter (create_parameter h0 va).1 vb).2 = h0.length + 1 := by
    simp [create_parameter, create_value]
  have e0 : (create_parameter h0 va).2 = h0.length := rfl
  show (match operator_div L (create_parameter (create_parameter h0 va).1 vb).1
      (create_parameter h0 va).2 (create_parameter (create_parameter h0 va).1 vb).2 with
    | .ok (h3, out) => Except.ok (h3, (create_parameter h0 va).2,
        (create_parameter (create_parameter h0 va).1 vb).2, out)
    | .error e => .error e) = _
  rw [e2, e1, e0, hdiv]
  simp

theorem topo_divGraph {R : Type} [Zero R] [One R] [Mul R] [Neg R]
    (L : Libm R) (h0 : Heap R) (va vb g : R) :
    build_topological_order
      (h0 ++ [⟨va, 0, [], "", none, true, true⟩,
              ⟨vb, 0, [], "", none, true, true⟩,
              ⟨-1, 0, [], "", none, false, true⟩,
              ⟨L.pow vb (-1), 0, [h0.length + 1, h0.length + 2], "pow",
                some (Closure.pow (h0.length + 1) (h0.length + 2) (h0.length + 3)), true, false⟩,
              ⟨va * L.pow vb (-1), g, [h0.length, h0.length + 3], "*",
                some (Closure.mul h0.length (h0.length + 3) (h0.length + 4)), true, false⟩])
      (h0.length + 4) =
      some [h0.length, h0.length + 1, h0.length + 2, h0.length + 3, h0.length + 4] := by
  simp [build_topological_order, build_topo, node_append_right, node_append_length,
    node_cons_succ, node_cons_zero]

/-- Claim C17, as amended.  In every arithmetic (no law of `+`, `*` or `pow` is used, so the
statement holds for IEEE doubles), for all values `va`, `vb` on which the guard of `operator/`
does not fire (`vb != 0` and not `|vb| < 1e-12`), any seed, either `retain_grads`, and whatever
is already on the heap: with fresh parameters `a`, `b` and `out = a / b`, the call
`out.backward(seed, retain_grads, true)` returns, and then
`a.grad = 0 + pow(vb, -1) * seed`, `b.grad = 0 + (-1 * pow(vb, -1 - 1)) * (0 + va * seed)`, and
the exponent constant `-1` that `operator/` allocated has `grad = 0`. -/
theorem divide_gradient {R : Type} [Zero R] [One R] [Add R] [Mul R] [Neg R] [Sub R] [Div R]
    [NatCast R] [Pow R ℕ] [LT R] [DecidableEq R] [DecidableRel (fun a b : R => a < b)]
    (L : Libm R) (h0 : Heap R) (va vb seed : R) (retain_grads : Bool)
    (hg : ¬ (vb = 0 ∨ fabs vb < tiny)) :
    ∃ g a b out, divGraph L h0 va vb = .ok (g, a, b, out) ∧ a ≠ b ∧
      ∃ p c, (g.node out).prev_ = [a, p] ∧ (g.node p).prev_ = [b, c] ∧ (g.node c).data = -1 ∧
      ∃ h, backward L g out seed retain_grads true = .ok h ∧
        get_grad h a = 0 + L.pow vb (-1) * seed ∧
        get_grad h b = 0 + -1 * L.pow vb (-1 - 1) * (0 + va * seed) ∧
        get_grad h c = 0 := by
  have hvb : vb ≠ 0 := fun e => hg (Or.inl e)
  refine ⟨_, _, _, _, divGraph_eq L h0 va vb hg, by omega, h0.length + 3, h0.length + 2, ?_, ?_,
    ?_, ?_⟩
  · simp [node_append_right, node_cons_succ, node_cons_zero]
  · simp [node_append_right, node_cons_succ, node_cons_zero]
  · simp [node_append_right, node_cons_succ, node_cons_zero]
  simp only [backward, set_grad, modify_append_right, List.modify_succ_cons, List.modify_zero_cons,
    topo_divGraph]
  cases retain_grads <;>
    simp [propagate, Closure.call, add_grad, modify_append_right, modify_append_zero,
      node_append_right, node_append_length, node_cons_succ, node_cons_zero, clear_grads,
      set_grad, get_grad, hvb]

end DivideClaim

/-! ## Closures of built heaps -/

section ClosureLemmas

variable {R : Type} [LinearOrderedField R]

theorem closuresOK_nil : ClosuresOK ([] : Heap R) := by
  intro x c hc
  rw [node_nil] at hc
  cases hc

/-- Appending nodes keeps the invariant when each new closure is in order; the operands of a
new closure may be old or new. -/
theorem closuresOK_append {h : Heap R} (hok : ClosuresOK h) (hac : Acyclic h) (t : Heap R)
    (ht : ∀ k c, (Heap.node t k).backward_ = some c →
      c.out = h.length + k ∧ (Heap.node t k).is_leaf = false ∧
        c.targets = (Heap.node t k).prev_ ∧
        ∀ u ∈ c.unguarded, (Heap.node (h ++ t) u).requires_grad = true) :
    ClosuresOK (h ++ t) := by
  intro x c hc
  by_cases hx : x < h.length
  · rw [node_append_left h t x hx] at hc ⊢
    obtain ⟨h1, h2, h3, h4⟩ := hok x c hc
    refine ⟨h1, h2, h3, ?_⟩
    intro u hu
    have hut : u ∈ c.targets := by
      cases c <;> simp [Closure.unguarded] at hu <;> simp [Closure.targets, hu]
    rw [h3] at hut
    rw [node_append_left h t u (Nat.lt_trans (hac x u hut) hx)]
    exact h4 u hu
  · obtain ⟨k, rfl⟩ : ∃ k, x = h.length + k := ⟨x - h.length, by omega⟩
    rw [node_append_right] at hc ⊢
    exact ht k c hc

theorem closuresOK_snoc {h : Heap R} (hok : ClosuresOK h) (hac : Acyclic h) (v : Value R)
    (hv : ∀ c, v.backward_ = some c →
      c.out = h.length ∧ v.is_leaf = false ∧ c.targets = v.prev_ ∧
        ∀ u ∈ c.unguarded, u < h.length ∧ (h.node u).requires_grad = true) :
    ClosuresOK (h ++ [v]) := by
  apply closuresOK_append hok hac
  intro k c hc
  cases k with
  | zero =>
    rw [node_cons_zero] at hc ⊢
    obtain ⟨h1, h2, h3, h4⟩ := hv c hc
    refine ⟨h1, h2, h3, ?_⟩
    intro u hu
    rw [node_append_left h _ u (h4 u hu).1]
    exact (h4 u hu).2
  | succ k =>
    rw [node_cons_succ, node_nil] at hc
    cases hc

theorem closuresOK_const {h : Heap R} (hok : ClosuresOK h) (hac : Acyclic h) (d : R) (rg : Bool)
    (prev : List Nat) (op : String) (lf : Bool) :
    ClosuresOK (create_value h d prev op rg lf).1 := by
  unfold create_value
  apply closuresOK_snoc hok hac
  intro c hc
  cases hc

theorem closuresOK_add {h : Heap R} (hok : ClosuresOK h) (hac : Acyclic h) (a b : Nat) :
    ClosuresOK (operator_add h a b).1 := by
  rw [operator_add_eq]
  apply closuresOK_snoc hok hac
  intro c hc
  simp only at hc
  split at hc
  · cases hc
    exact ⟨rfl, rfl, rfl, by simp [Closure.unguarded]⟩
  · cases hc

theorem closuresOK_mul {h : Heap R} (hok : ClosuresOK h) (hac : Acyclic h) (a b : Nat) :
    ClosuresOK (operator_mul h a b).1 := by
  rw [operator_mul_eq]
  apply closuresOK_snoc hok hac
  intro c hc
  simp only at hc
  split at hc
  · cases hc
    exact ⟨rfl, rfl, rfl, by simp [Closure.unguarded]⟩
  · cases hc

theorem closuresOK_pow (L : Libm R) {h : Heap R} (hok : ClosuresOK h) (hac : Acyclic h)
    (a b : Nat) : ClosuresOK (pow L h a b).1 := by
  rw [pow_eq]
  apply closuresOK_snoc hok hac
  intro c hc
  simp only at hc
  split at hc
  · cases hc
    exact ⟨rfl, rfl, rfl, by simp [Closure.unguarded]⟩
  · cases hc

theorem closuresOK_exp (L : Libm R) {h : Heap R} (hok : ClosuresOK h) (hac : Acyclic h)
    (a : Nat) (ha : a < h.length) : ClosuresOK (exp L h a).1 := by
  rw [exp_eq]
  apply closuresOK_snoc hok hac
  intro c hc
  simp only at hc
  split at hc
  · rename_i hrg
    cases hc
    refine ⟨rfl, rfl, rfl, ?_⟩
    intro u hu
    simp [Closure.unguarded] at hu
    rw [hu]
    exact ⟨ha, hrg⟩
  · cases hc

theorem closuresOK_tanh (L : Libm R) {h : Heap R} (hok : ClosuresOK h) (hac : Acyclic h)
    (a : Nat) (ha : a < h.length) : ClosuresOK (tanh L h a).1 := by
  rw [tanh_eq]
  apply closuresOK_snoc hok hac
  intro c hc
  simp only at hc
  split at hc
  · rename_i hrg
    cases hc
    refine ⟨rfl, rfl, rfl, ?_⟩
    intro u hu
    simp [Closure.unguarded] at hu
    rw [hu]
    exact ⟨ha, hrg⟩
  · cases hc

theorem built_closuresOK {L : Libm R} {h : Heap R} (hb : Built L h) : ClosuresOK h := by
  induction hb with
  | empty => exact closuresOK_nil
  | create_value v prev op rg lf hb0 _ ih => exact closuresOK_const ih (built_acyclic hb0) _ _ _ _ _
  | add a b hb0 _ _ ih => exact closuresOK_add ih (built_acyclic hb0) a b
  | mul a b hb0 _ _ ih => exact closuresOK_mul ih (built_acyclic hb0) a b
  | @neg h0 a hb0 ha ih =>
    have e : operator_neg h0 a =
        operator_mul (create_value h0 (-1) [] "" false true).1 a h0.length := rfl
    have hb1 : Built L (create_value h0 (-1) [] "" false true).1 :=
      Built.create_value (-1) [] "" false true hb0 (by simp)
    rw [e]
    exact closuresOK_mul (closuresOK_const ih (built_acyclic hb0) _ _ _ _ _) (built_acyclic hb1) _ _
  | @sub h0 a b hb0 ha hb ih =>
    have e : operator_sub h0 a b =
        operator_add (operator_neg h0 b).1 a (operator_neg h0 b).2 := rfl
    have e1 : operator_neg h0 b =
        operator_mul (create_value h0 (-1) [] "" false true).1 b h0.length := rfl
    have hb1 : Built L (create_value h0 (-1) [] "" false true).1 :=
      Built.create_value (-1) [] "" false true hb0 (by simp)
    have hb2 : Built L (operator_neg h0 b).1 := Built.neg b hb0 hb
    have ok2 : ClosuresOK (operator_neg h0 b).1 := by
      rw [e1]
      exact closuresOK_mul (closuresOK_const ih (built_acyclic hb0) _ _ _ _ _)
        (built_acyclic hb1) _ _
    rw [e]
    exact closuresOK_add ok2 (built_acyclic hb2) _ _
  | pow a b hb0 _ _ ih => exact closuresOK_pow L ih (built_acyclic hb0) a b
  | @div h0 a b r hb0 ha hb hr ih =>
    have hb1 : Built L (create_value h0 (-1) [] "" false true).1 :=
      Built.create_value (-1) [] "" false true hb0 (by simp)
    have hl1 : (create_value h0 (-1 : R) [] "" false true).1.length = h0.length + 1 := by
      simp [create_value]
    have hb2 : Built L (pow L (create_value h0 (-1) [] "" false true).1 b h0.length).1 :=
      Built.pow b h0.length hb1 (by rw [hl1]; omega) (by rw [hl1]; omega)
    have ok2 : ClosuresOK (pow L (create_value h0 (-1) [] "" false true).1 b h0.length).1 :=
      closuresOK_pow L (closuresOK_const ih (built_acyclic hb0) _ _ _ _ _) (built_acyclic hb1) _ _
    unfold operator_div at hr
    split at hr
    · cases hr
    · cases hr
      exact closuresOK_mul ok2 (built_acyclic hb2) _ _
  | exp a hb0 ha ih => exact closuresOK_exp L ih (built_acyclic hb0) a ha
  | tanh a hb0 ha ih => exact closuresOK_tanh L ih (built_acyclic hb0) a ha

theorem built_grad_zero {L : Libm R} {h : Heap R} (hb : Built L h) :
    ∀ i, (h.node i).grad = 0 := by
  have happ : ∀ (k t : Heap R), (∀ i, (k.node i).grad = 0) → (∀ i, (Heap.node t i).grad = 0) →
      ∀ i, (Heap.node (k ++ t) i).grad = 0 := by
    intro k t hk ht i
    by_cases hi : i < k.length
    · rw [node_append_left k t i hi]
      exact hk i
    · obtain ⟨j, rfl⟩ : ∃ j, i = k.length + j := ⟨i - k.length, by omega⟩
      rw [node_append_right]
      exact ht j
  have hone : ∀ v : Value R, v.grad = 0 → ∀ i, (Heap.node [v] i).grad = 0 := by
    intro v hv i
    cases i with
    | zero => rw [node_cons_zero]; exact hv
    | succ j => rw [node_cons_succ, node_nil]; rfl
  induction hb with
  | empty => intro i; rw [node_nil]; rfl
  | create_value v prev op rg lf _ _ ih => exact happ _ _ ih (hone _ rfl)
  | add a b _ _ _ ih => rw [operator_add_eq]; exact happ _ _ ih (hone _ rfl)
  | mul a b _ _ _ ih => rw [operator_mul_eq]; exact happ _ _ ih (hone _ rfl)
  | @neg h0 a _ ha ih =>
    have e : operator_neg h0 a =
        operator_mul (create_value h0 (-1) [] "" false true).1 a h0.length := rfl
    rw [e, operator_mul_eq]
    exact happ _ _ (happ _ _ ih (hone _ rfl)) (hone _ rfl)
  | @sub h0 a b _ ha hb ih =>
    have e : operator_sub h0 a b =
        operator_add (operator_neg h0 b).1 a (operator_neg h0 b).2 := rfl
    have e1 : operator_neg h0 b =
        operator_mul (create_value h0 (-1) [] "" false true).1 b h0.length := rfl
    rw [e, operator_add_eq, e1, operator_mul_eq]
    exact happ _ _ (happ _ _ (happ _ _ ih (hone _ rfl)) (hone _ rfl)) (hone _ rfl)
  | pow a b _ _ _ ih => rw [pow_eq]; exact happ _ _ ih (hone _ rfl)
  | @div h0 a b r _ ha hb hr ih =>
    have hnz : ¬ |(h0.node b).data| < tiny := by
      intro hz
      unfold operator_div at hr
      rw [if_pos ((operator_div_guard _).2 hz)] at hr
      cases hr
    rw [operator_div_eq L _ a b ha hb hnz] at hr
    cases hr
    apply happ _ _ ih
    intro i
    match i with
    | 0 => rw [node_cons_zero]
    | 1 => rw [node_cons_succ, node_cons_zero]
    | 2 => rw [node_cons_succ, node_cons_succ, node_cons_zero]
    | j + 3 => rw [node_cons_succ, node_cons_succ, node_cons_succ, node_nil]; rfl
  | exp a _ _ ih => rw [exp_eq]; exact happ _ _ ih (hone _ rfl)
  | tanh a _ _ ih => rw [tanh_eq]; exact happ _ _ ih (hone _ rfl)

end ClosureLemmas

/-! ## Claim C19: constants receive no gradient -/

section Constants

variable {R : Type} [LinearOrderedField R]

theorem node_ite_add_grad_keep (h : Heap R) (c : Prop) [Decidable c] (p q : Nat) (d : R)
    (hq : q ≠ p ∨ ¬ c) : Heap.node (if c then add_grad h p d else h) q = h.node q := by
  split
  · rename_i hc
    rcases hq with hq | hq
    · rw [node_add_grad, if_neg (fun hx => hq hx.1)]
    · exact absurd hc hq
  · rfl

/-- A closure call writes only to the captured operands. -/
theorem call_frame (L : Libm R) (c : Closure) (h h1 : Heap R) (e : c.call L h = .ok h1) :
    ∀ q, q ∉ c.targets → h1.node q = h.node q := by
  intro q hq
  cases c with
  | add wl wr wout =>
    simp only [Closure.targets, List.mem_cons, List.mem_singleton, List.not_mem_nil, or_false,
      not_or] at hq
    simp only [Closure.call] at e
    split at e
    · cases e
      rw [node_ite_add_grad_keep _ _ _ _ _ (Or.inl hq.2), node_ite_add_grad_keep _ _ _ _ _ (Or.inl hq.1)]
    · cases e
  | mul wl wr wout =>
    simp only [Closure.targets, List.mem_cons, List.mem_singleton, List.not_mem_nil, or_false,
      not_or] at hq
    simp only [Closure.call] at e
    split at e
    · cases e
      rw [node_ite_add_grad_keep _ _ _ _ _ (Or.inl hq.2), node_ite_add_grad_keep _ _ _ _ _ (Or.inl hq.1)]
    · cases e
  | pow wb we wout =>
    simp only [Closure.targets, List.mem_cons, List.mem_singleton, List.not_mem_nil, or_false,
      not_or] at hq
    simp only [Closure.call] at e
    split at e
    · split at e
      · cases e
      · cases e
        rw [node_ite_add_grad_keep _ _ _ _ _ (Or.inl hq.2),
          node_ite_add_grad_keep _ _ _ _ _ (Or.inl hq.1)]
    · cases e
  | exp wv wout =>
    simp only [Closure.targets, List.mem_singleton] at hq
    simp only [Closure.call] at e
    split at e
    · cases e
      rw [node_add_grad, if_neg (fun hx => hq hx.1)]
    · cases e
  | tanh wv wout =>
    simp only [Closure.targets, List.mem_singleton] at hq
    simp only [Closure.call] at e
    split at e
    · cases e
      rw [node_add_grad, if_neg (fun hx => hq hx.1)]
    · cases e

/-- A closure call does not write to a node that does not require grad, provided the operands
it writes without a test do require grad. -/
theorem call_guard (L : Libm R) (c : Closure) (h h1 : Heap R) (e : c.call L h = .ok h1)
    (hu : ∀ t ∈ c.unguarded, (h.node t).requires_grad = true) :
    ∀ q, (h.node q).requires_grad = false → h1.node q = h.node q := by
  intro q hq
  have two : ∀ (c1 c2 : Prop) [Decidable c1] [Decidable c2] (p1 p2 : Nat) (d1 d2 : R),
      (q = p1 → ¬ c1) →
      (q = p2 → (Heap.node (if c1 then add_grad h p1 d1 else h) q).requires_grad = false → ¬ c2) →
      Heap.node (if c2 then add_grad (if c1 then add_grad h p1 d1 else h) p2 d2
        else (if c1 then add_grad h p1 d1 else h)) q = h.node q := by
    intro c1 c2 _ _ p1 p2 d1 d2 h1c h2c
    have s1 : Heap.node (if c1 then add_grad h p1 d1 else h) q = h.node q := by
      apply node_ite_add_grad_keep
      by_cases hx : q = p1
      · exact Or.inr (h1c hx)
      · exact Or.inl hx
    rw [node_ite_add_grad_keep, s1]
    by_cases hx : q = p2
    · exact Or.inr (h2c hx (by rw [s1]; exact hq))
    · exact Or.inl hx
  cases c with
  | add wl wr wout =>
    simp only [Closure.call] at e
    split at e
    · cases e
      apply two
      · intro hx hc
        subst hx
        rw [hq] at hc
        cases hc
      · intro hx hrg hc
        subst hx
        rw [hrg] at hc
        cases hc
    · cases e
  | mul wl wr wout =>
    simp only [Closure.call] at e
    split at e
    · cases e
      apply two
      · intro hx hc
        subst hx
        rw [hq] at hc
        cases hc
      · intro hx hrg hc
        subst hx
        rw [hrg] at hc
        cases hc
    · cases e
  | pow wb we wout =>
    simp only [Closure.call] at e
    split at e
    · split at e
      · cases e
      · cases e
        apply two
        · intro hx hc
          subst hx
          rw [hq] at hc
          cases hc
        · intro hx hrg hc
          subst hx
          have h2 := hc.2
          rw [hrg] at h2
          cases h2
    · cases e
  | exp wv wout =>
    simp only [Closure.call] at e
    split at e
    · cases e
      have hne : q ≠ wv := by
        intro hx
        have := hu wv (by simp [Closure.unguarded])
        rw [← hx, hq] at this
        cases this
      rw [node_add_grad, if_neg (fun hx => hne hx.1)]
    · cases e
  | tanh wv wout =>
    simp only [Closure.call] at e
    split at e
    · cases e
      have hne : q ≠ wv := by
        intro hx
        have := hu wv (by simp [Closure.unguarded])
        rw [← hx, hq] at this
        cases this
      rw [node_add_grad, if_neg (fun hx => hne hx.1)]
    · cases e

theorem propagate_guard (L : Libm R) (H : Heap R) (hok : ClosuresOK H) :
    ∀ (todo : List Nat) (h h1 : Heap R), GradOnly H h → propagate L todo h = .ok h1 →
      ∀ q, (H.node q).requires_grad = false → h1.node q = h.node q := by
  intro todo
  induction todo with
  | nil =>
    intro h h1 _ e q _
    simp only [propagate] at e
    cases e
    rfl
  | cons n t ih =>
    intro h h1 g e q hq
    cases hrg : (h.node n).requires_grad with
    | false => rw [propagate_cons_skip L n t h (Or.inl hrg)] at e; exact ih h h1 g e q hq
    | true =>
      cases hb : (h.node n).backward_ with
      | none => rw [propagate_cons_skip L n t h (Or.inr hb)] at e; exact ih h h1 g e q hq
      | some c =>
        rw [propagate_cons_call L n t h c hrg hb] at e
        cases hc : c.call L h with
        | error err => simp only [hc] at e; cases e
        | ok h2 =>
          simp only [hc] at e
          have hbH : (H.node n).backward_ = some c := by
            rw [← (forgetGrad_fields (g.2 n)).2.2.2.1, hb]
          have hu : ∀ u ∈ c.unguarded, (h.node u).requires_grad = true := by
            intro u hu
            rw [(forgetGrad_fields (g.2 u)).2.2.2.2.1]
            exact (hok n c hbH).2.2.2 u hu
          have hqh : (h.node q).requires_grad = false := by
            rw [(forgetGrad_fields (g.2 q)).2.2.2.2.1, hq]
          rw [ih h2 h1 (gradOnly_trans g (gradOnly_call L c h h2 hc)) e q hq,
            call_guard L c h h2 hc hu q hqh]

/-- Claim C19.  On every heap built through the public constructors and builders, for every
root, seed and `retain_graph`: if `backward(seed, true, retain_graph)` returns, then every node
other than the root whose `requires_grad` is false (reachable or not) has the `grad` it had
before, and every node has the `data` it had before. -/
theorem constants_receive_no_gradient (L : Libm R) (h : Heap R) (hb : Built L h) (root : Nat)
    (seed : R) (retain_graph : Bool) (h1 : Heap R)
    (e : backward L h root seed true retain_graph = .ok h1) :
    (∀ q, q ≠ root → (h.node q).requires_grad = false → get_grad h1 q = get_grad h q) ∧
    (∀ q, get_data h1 q = get_data h q) := by
  obtain ⟨order, hp, _, ep, rfl⟩ := backward_ok L h root seed true retain_graph h1 e
  have g0 := gradOnly_set_grad h root seed
  have g1 := gradOnly_trans g0 (gradOnly_propagate L _ _ _ ep)
  have hfin : ∀ q, get_grad (if !retain_graph then clear_graph order.reverse
        (if !true then clear_grads order.reverse hp else hp)
      else (if !true then clear_grads order.reverse hp else hp)) q = get_grad hp q ∧
      get_data (if !retain_graph then clear_graph order.reverse
        (if !true then clear_grads order.reverse hp else hp)
      else (if !true then clear_grads order.reverse hp else hp)) q = get_data hp q := by
    intro q
    cases retain_graph
    · simp only [Bool.not_true, Bool.not_false, if_true, Bool.false_eq_true, if_false]
      refine ⟨get_grad_clear_graph _ _ _, ?_⟩
      rw [get_data, node_clear_graph]
      split <;> rfl
    · exact ⟨rfl, rfl⟩
  constructor
  · intro q hq hrg
    rw [(hfin q).1, get_grad, propagate_guard L h (built_closuresOK hb) _ _ _ g0 ep q hrg,
      node_set_grad, if_neg (fun hx => hq hx.1)]
    rfl
  · intro q
    rw [(hfin q).2, get_data, (forgetGrad_fields (g1.2 q)).1]
    rfl

/-- Instance of C19 on `-x`: the constant `-1` and the fixed input keep `grad = 0`. -/
theorem constants_receive_no_gradient_witness :
    ∃ h1, backward exLibm exNeg 3 1 true false = .ok h1 ∧
      (∀ q, q ≠ 3 → (exNeg.node q).requires_grad = false → get_grad h1 q = get_grad exNeg q) ∧
      (∀ q, get_data h1 q = get_data exNeg q) :=
  ⟨_, rfl,
    constants_receive_no_gradient exLibm exNeg (Built.neg 0 exLeaves_built (by decide)) 3 1 false
      _ rfl⟩

end Constants


/-! ## Claim C15: the order of closure calls -/

section Trace

variable {R : Type} [LinearOrderedField R]

theorem trace_cons_call (L : Libm R) (n : Nat) (t : List Nat) (h : Heap R) (c : Closure)
    (hrg : (h.node n).requires_grad = true) (hb : (h.node n).backward_ = some c) :
    propagate_trace L (n :: t) h =
      match c.call L h with
      | .ok h1 => (n, h, h1) :: propagate_trace L t h1
      | .error _ => [(n, h, h)] := by
  rw [propagate_trace]
  simp only [hrg, hb]

theorem trace_cons_skip (L : Libm R) (n : Nat) (t : List Nat) (h : Heap R)
    (hs : (h.node n).requires_grad = false ∨ (h.node n).backward_ = none) :
    propagate_trace L (n :: t) h = propagate_trace L t h := by
  rw [propagate_trace]
  rcases hs with hs | hs
  · simp only [hs]
  · cases hrg : (h.node n).requires_grad <;> simp only [hs]

theorem revTopo_preds_mem (H : Heap R) :
    ∀ l : List Nat, RevTopo H l → ∀ y ∈ l, ∀ p ∈ (H.node y).prev_, p ∈ l := by
  intro l
  induction l with
  | nil => intro _ y hy; exact absurd hy (List.not_mem_nil _)
  | cons x rest ih =>
    intro hrev y hy p hp
    rcases List.mem_cons.1 hy with rfl | hy
    · exact List.mem_cons_of_mem _ (hrev.1 p hp)
    · exact List.mem_cons_of_mem _ (ih hrev.2.2 y hy p hp)

theorem trace_spec (L : Libm R) (H : Heap R) (hok : ClosuresOK H) :
    ∀ (todo : List Nat) (h : Heap R), GradOnly H h → RevTopo H todo →
      (∀ e ∈ propagate_trace L todo h, e.1 ∈ todo ∧ (H.node e.1).requires_grad = true ∧
        ∀ q, q ∉ (H.node e.1).prev_ → e.2.2.node q = e.2.1.node q) ∧
      (propagate_trace L todo h).Pairwise (fun e1 e2 =>
        get_grad e2.2.2 e1.1 = get_grad e2.2.1 e1.1 ∧ e1.1 ∉ (H.node e2.1).prev_) := by
  intro todo
  induction todo with
  | nil =>
    intro h _ _
    exact ⟨fun e he => absurd he (List.not_mem_nil _), List.Pairwise.nil⟩
  | cons x rest ih =>
    intro h g hrev
    have lift : (∀ e ∈ propagate_trace L rest h, e.1 ∈ rest ∧ (H.node e.1).requires_grad = true ∧
        ∀ q, q ∉ (H.node e.1).prev_ → e.2.2.node q = e.2.1.node q) →
        ∀ e ∈ propagate_trace L rest h, e.1 ∈ x :: rest ∧ (H.node e.1).requires_grad = true ∧
        ∀ q, q ∉ (H.node e.1).prev_ → e.2.2.node q = e.2.1.node q :=
      fun hm e he => ⟨List.mem_cons_of_mem _ (hm e he).1, (hm e he).2⟩
    cases hrg : (h.node x).requires_grad with
    | false =>
      rw [trace_cons_skip L x rest h (Or.inl hrg)]
      exact ⟨lift (ih h g hrev.2.2).1, (ih h g hrev.2.2).2⟩
    | true =>
      cases hb : (h.node x).backward_ with
      | none =>
        rw [trace_cons_skip L x rest h (Or.inr hb)]
        exact ⟨lift (ih h g hrev.2.2).1, (ih h g hrev.2.2).2⟩
      | some c =>
        have hbH : (H.node x).backward_ = some c := by
          rw [← (forgetGrad_fields (g.2 x)).2.2.2.1, hb]
        have hrgH : (H.node x).requires_grad = true := by
          rw [← (forgetGrad_fields (g.2 x)).2.2.2.2.1, hrg]
        rw [trace_cons_call L x rest h c hrg hb]
        cases hc : c.call L h with
        | error err =>
          simp only
          refine ⟨?_, List.pairwise_singleton _ _⟩
          intro e he
          rw [List.mem_singleton.1 he]
          exact ⟨List.mem_cons_self _ _, hrgH, fun _ _ => rfl⟩
        | ok h2 =>
          simp only
          obtain ⟨hm, hp⟩ := ih h2 (gradOnly_trans g (gradOnly_call L c h h2 hc)) hrev.2.2
          constructor
          · intro e he
            rcases List.mem_cons.1 he with rfl | he
            · refine ⟨List.mem_cons_self _ _, hrgH, ?_⟩
              intro q hq
              apply call_frame L c h h2 hc q
              rw [(hok x c hbH).2.2.1]
              exact hq
            · exact ⟨List.mem_cons_of_mem _ (hm e he).1, (hm e he).2⟩
          · rw [List.pairwise_cons]
            refine ⟨?_, hp⟩
            intro e2 he2
            have hx : x ∉ (H.node e2.1).prev_ := by
              intro hx
              exact hrev.2.1 (revTopo_preds_mem H rest hrev.2.2 e2.1 (hm e2 he2).1 x hx)
            refine ⟨?_, hx⟩
            show (e2.2.2.node x).grad = (e2.2.1.node x).grad
            rw [(hm e2 he2).2.2 x hx]

theorem trace_end (L : Libm R) :
    ∀ (todo : List Nat) (h h1 : Heap R), propagate L todo h = .ok h1 →
      traceEnd (propagate_trace L todo h) h = h1 ∧
      (propagate_trace L todo h ≠ [] → traceEnd (propagate_trace L todo h) h1 = h1) := by
  intro todo
  induction todo with
  | nil =>
    intro h h1 e
    simp only [propagate] at e
    cases e
    exact ⟨rfl, fun hc => absurd rfl hc⟩
  | cons x rest ih =>
    intro h h1 e
    cases hrg : (h.node x).requires_grad with
    | false =>
      rw [propagate_cons_skip L x rest h (Or.inl hrg)] at e
      rw [trace_cons_skip L x rest h (Or.inl hrg)]
      exact ih h h1 e
    | true =>
      cases hb : (h.node x).backward_ with
      | none =>
        rw [propagate_cons_skip L x rest h (Or.inr hb)] at e
        rw [trace_cons_skip L x rest h (Or.inr hb)]
        exact ih h h1 e
      | some c =>
        rw [propagate_cons_call L x rest h c hrg hb] at e
        rw [trace_cons_call L x rest h c hrg hb]
        cases hc : c.call L h with
        | error err => simp only [hc] at e; cases e
        | ok h2 =>
          simp only [hc] at e
          simp only
          obtain ⟨i1, i2⟩ := ih h2 h1 e
          have key : ∀ k : Heap R, traceEnd ((x, h, h2) :: propagate_trace L rest h2) k = h1 := by
            intro k
            cases htr : propagate_trace L rest h2 with
            | nil =>
              rw [htr] at i1
              simp only [traceEnd, List.getLast?_nil] at i1
              simp [traceEnd, i1]
            | cons e0 tl =>
              have := i2 (by rw [htr]; exact List.cons_ne_nil _ _)
              rw [htr] at this
              simp only [traceEnd, List.getLast?_cons_cons] at this ⊢
              exact this
          exact ⟨key h, fun _ => key h1⟩

/-- Claim C15.  On every heap built through the public constructors and builders, for every
root and seed, consider the closure calls that the propagate loop of `backward` makes, in
order.  (1) A call made after the call on node `x` does not change `x.grad`, and its node is not
a consumer of `x`: every consumer's closure has run before `x`'s own.  (2) Every called node has
`requires_grad = true` and is reachable from the root.  (3) The recorded calls are the loop's:
when the loop returns, the heap after the last call is its result. -/
theorem reverse_topological_execution (L : Libm R) (h : Heap R) (hb : Built L h) (root : Nat)
    (hr : root < h.length) (seed : R) :
    ∃ order, build_topological_order (set_grad h root seed) root = some order ∧
      (propagate_trace L order.reverse (set_grad h root seed)).Pairwise (fun e1 e2 =>
        get_grad e2.2.2 e1.1 = get_grad e2.2.1 e1.1 ∧ e1.1 ∉ (h.node e2.1).prev_) ∧
      (∀ e ∈ propagate_trace L order.reverse (set_grad h root seed),
        (h.node e.1).requires_grad = true ∧ Reach h root e.1) ∧
      (∀ h1, propagate L order.reverse (set_grad h root seed) = .ok h1 →
        traceEnd (propagate_trace L order.reverse (set_grad h root seed))
          (set_grad h root seed) = h1) := by
  obtain ⟨order, ho, hn, hord, hm⟩ := backward_order h (built_acyclic hb) root hr seed
  obtain ⟨hmem, hpair⟩ := trace_spec L h (built_closuresOK hb) order.reverse
    (set_grad h root seed) (gradOnly_set_grad h root seed) (revTopo_of_ordered h order hn hord)
  refine ⟨order, ho, hpair, ?_, ?_⟩
  · intro e he
    exact ⟨(hmem e he).2.1, (hm e.1).1 (List.mem_reverse.1 (hmem e he).1)⟩
  · intro h1 e1
    exact (trace_end L _ _ _ e1).1

/-- Instance of C15 on `y = x*x + x`: the calls are on `y`, then on `x*x`. -/
theorem reverse_topological_execution_witness :
    (propagate_trace exLibm [2, 1, 0] (set_grad exShared 2 1)).map (fun e => e.1) = [2, 1] ∧
    ∃ order, build_topological_order (set_grad exShared 2 1) 2 = some order ∧
      (propagate_trace exLibm order.reverse (set_grad exShared 2 1)).Pairwise (fun e1 e2 =>
        get_grad e2.2.2 e1.1 = get_grad e2.2.1 e1.1 ∧ e1.1 ∉ (exShared.node e2.1).prev_) ∧
      (∀ e ∈ propagate_trace exLibm order.reverse (set_grad exShared 2 1),
        (exShared.node e.1).requires_grad = true ∧ Reach exShared 2 e.1) ∧
      (∀ h1, propagate exLibm order.reverse (set_grad exShared 2 1) = .ok h1 →
        traceEnd (propagate_trace exLibm order.reverse (set_grad exShared 2 1))
          (set_grad exShared 2 1) = h1) :=
  ⟨rfl, reverse_topological_execution exLibm exShared exShared_built 2 (by decide) 1⟩

end Trace

/-! ## Claim C18: a second pass accumulates -/

section Accumulate

variable {R : Type} [LinearOrderedField R]

theorem gradOnly_symm {h k : Heap R} (g : GradOnly h k) : GradOnly k h :=
  ⟨g.1.symm, fun p => (g.2 p).symm⟩

theorem offsetRel_add_grad (off : Nat → R) (h k : Heap R) (r : OffsetRel off h k) (p : Nat)
    (d : R) : OffsetRel off (add_grad h p d) (add_grad k p d) := by
  obtain ⟨g, hg⟩ := r
  refine ⟨⟨by rw [length_add_grad, length_add_grad, g.1], ?_⟩, ?_⟩
  · intro q
    rw [node_add_grad, node_add_grad, g.1]
    have := g.2 q
    split
    · simp only [Value.forgetGrad] at this ⊢
      exact this
    · exact this
  · intro q
    rw [node_add_grad, node_add_grad, g.1]
    split
    · simp only
      rw [hg q]
      ring
    · exact hg q

theorem offsetRel_ite (off : Nat → R) (h k : Heap R) (r : OffsetRel off h k) (c : Prop)
    [Decidable c] (p : Nat) (d : R) :
    OffsetRel off (if c then add_grad h p d else h) (if c then add_grad k p d else k) := by
  split
  · exact offsetRel_add_grad off h k r p d
  · exact r

/-- Two heaps that differ by an offset which vanishes on the closure's own node take the same
closure call to heaps that differ by the same offset. -/
theorem call_rel (L : Libm R) (off : Nat → R) (c : Closure) (h k h1 : Heap R)
    (r : OffsetRel off h k) (hoff : off c.out = 0) (e : c.call L h = .ok h1) :
    ∃ k1, c.call L k = .ok k1 ∧ OffsetRel off h1 k1 := by
  have rg : ∀ (a b : Heap R), OffsetRel off a b → ∀ x,
      (b.node x).requires_grad = (a.node x).requires_grad :=
    fun a b rr x => (forgetGrad_fields (rr.1.2 x)).2.2.2.2.1
  have dt : ∀ (a b : Heap R), OffsetRel off a b → ∀ x, (b.node x).data = (a.node x).data :=
    fun a b rr x => (forgetGrad_fields (rr.1.2 x)).1
  cases c with
  | add wl wr wout =>
    simp only [Closure.out] at hoff
    have go : ∀ (a b : Heap R), OffsetRel off a b → (b.node wout).grad = (a.node wout).grad := by
      intro a b rr
      rw [rr.2 wout, hoff, add_zero]
    simp only [Closure.call] at e ⊢
    rw [r.1.1]
    split at e
    · rename_i hbd
      cases e
      rw [if_pos hbd]
      have r1 := offsetRel_ite off h k r ((h.node wl).requires_grad = true) wl (h.node wout).grad
      refine ⟨_, rfl, ?_⟩
      rw [rg h k r, go h k r, rg _ _ r1, go _ _ r1]
      exact offsetRel_ite off _ _ r1 _ wr _
    · cases e
  | mul wl wr wout =>
    simp only [Closure.out] at hoff
    have go : ∀ (a b : Heap R), OffsetRel off a b → (b.node wout).grad = (a.node wout).grad := by
      intro a b rr
      rw [rr.2 wout, hoff, add_zero]
    simp only [Closure.call] at e ⊢
    rw [r.1.1]
    split at e
    · rename_i hbd
      cases e
      rw [if_pos hbd]
      have r1 := offsetRel_ite off h k r ((h.node wl).requires_grad = true) wl
        ((h.node wr).data * (h.node wout).grad)
      refine ⟨_, rfl, ?_⟩
      rw [rg h k r, go h k r, dt h k r, rg _ _ r1, go _ _ r1, dt _ _ r1]
      exact offsetRel_ite off _ _ r1 _ wr _
    · cases e
  | pow wb we wout =>
    simp only [Closure.out] at hoff
    have go : ∀ (a b : Heap R), OffsetRel off a b → (b.node wout).grad = (a.node wout).grad := by
      intro a b rr
      rw [rr.2 wout, hoff, add_zero]
    simp only [Closure.call] at e ⊢
    rw [r.1.1, dt h k r wb, dt h k r we]
    split at e
    · rename_i hbd
      split at e
      · cases e
      · rename_i hdef
        cases e
        rw [if_pos hbd, if_neg hdef]
        have r1 := offsetRel_ite off h k r ((h.node wb).requires_grad = true) wb
          ((h.node we).data * L.pow (h.node wb).data ((h.node we).data - 1) * (h.node wout).grad)
        refine ⟨_, rfl, ?_⟩
        rw [rg h k r, go h k r, rg _ _ r1, go _ _ r1, dt _ _ r1 wb, dt _ _ r1 we]
        exact offsetRel_ite off _ _ r1 _ we _
    · cases e
  | exp wv wout =>
    simp only [Closure.out] at hoff
    simp only [Closure.call] at e ⊢
    rw [r.1.1]
    split at e
    · rename_i hbd
      cases e
      rw [if_pos hbd]
      refine ⟨_, rfl, ?_⟩
      rw [dt h k r, r.2 wout, hoff, add_zero]
      exact offsetRel_add_grad off h k r wv _
    · cases e
  | tanh wv wout =>
    simp only [Closure.out] at hoff
    simp only [Closure.call] at e ⊢
    rw [r.1.1]
    split at e
    · rename_i hbd
      cases e
      rw [if_pos hbd]
      refine ⟨_, rfl, ?_⟩
      rw [dt h k r, r.2 wout, hoff, add_zero]
      exact offsetRel_add_grad off h k r wv _
    · cases e

theorem propagate_rel (L : Libm R) (off : Nat → R) :
    ∀ (todo : List Nat) (h k h1 : Heap R), OffsetRel off h k →
      (∀ x ∈ todo, ∀ c, (h.node x).backward_ = some c → off c.out = 0) →
      propagate L todo h = .ok h1 →
      ∃ k1, propagate L todo k = .ok k1 ∧ OffsetRel off h1 k1 := by
  intro todo
  induction todo with
  | nil =>
    intro h k h1 r _ e
    simp only [propagate] at e
    cases e
    exact ⟨k, rfl, r⟩
  | cons x rest ih =>
    intro h k h1 r hcl e
    have fx := forgetGrad_fields (r.1.2 x)
    have hcl' : ∀ y ∈ rest, ∀ c, (h.node y).backward_ = some c → off c.out = 0 :=
      fun y hy => hcl y (List.mem_cons_of_mem _ hy)
    cases hrg : (h.node x).requires_grad with
    | false =>
      rw [propagate_cons_skip L x rest h (Or.inl hrg)] at e
      rw [propagate_cons_skip L x rest k (Or.inl (by rw [fx.2.2.2.2.1, hrg]))]
      exact ih h k h1 r hcl' e
    | true =>
      cases hb : (h.node x).backward_ with
      | none =>
        rw [propagate_cons_skip L x rest h (Or.inr hb)] at e
        rw [propagate_cons_skip L x rest k (Or.inr (by rw [fx.2.2.2.1, hb]))]
        exact ih h k h1 r hcl' e
      | some c =>
        rw [propagate_cons_call L x rest h c hrg hb] at e
        rw [propagate_cons_call L x rest k c (by rw [fx.2.2.2.2.1, hrg]) (by rw [fx.2.2.2.1, hb])]
        cases hc : c.call L h with
        | error err => simp only [hc] at e; cases e
        | ok h2 =>
          simp only [hc] at e
          obtain ⟨k2, ek, r2⟩ :=
            call_rel L off c h k h2 r (hcl x (List.mem_cons_self _ _) c hb) hc
          simp only [ek]
          have g2 := gradOnly_call L c h h2 hc
          apply ih h2 k2 h1 r2 _ e
          intro y hy c' hc'
          rw [(forgetGrad_fields (g2.2 y)).2.2.2.1] at hc'
          exact hcl' y hy c' hc'

end Accumulate

section AccumulateClaim

variable {R : Type} [LinearOrderedField R]

/-- Claim C18, as amended.  In exact arithmetic (`R` an ordered field): on a heap built by the
public builders (every `grad` is 0), with a root that is not a leaf: if
`backward(root, s, retain_grads = false, retain_graph = true)` returns, then the same call made
again returns too, the heap keeps its structure and data, and after the second call the `grad`
of every leaf (reachable or not) is exactly twice its `grad` after the first. -/
theorem second_pass_doubles (L : Libm R) (h : Heap R) (hb : Built L h) (root : Nat)
    (hr : root < h.length) (hnl : (h.node root).is_leaf = false) (s : R) (h1 : Heap R)
    (e1 : backward L h root s false true = .ok h1) :
    ∃ h2, backward L h1 root s false true = .ok h2 ∧ GradOnly h h2 ∧
      ∀ l, (h.node l).is_leaf = true → get_grad h2 l = 2 * get_grad h1 l := by
  obtain ⟨order, hp1, ho, hp, rfl⟩ := backward_ok L h root s false true h1 e1
  simp only [Bool.not_true, Bool.not_false, Bool.false_eq_true, if_true, if_false] at *
  have gA : GradOnly h (set_grad h root s) := gradOnly_set_grad h root s
  have gP : GradOnly (set_grad h root s) hp1 := gradOnly_propagate L _ _ _ hp
  have gC : GradOnly hp1 (clear_grads order.reverse hp1) := gradOnly_clear_grads _ _
  have gH1 : GradOnly h (clear_grads order.reverse hp1) := gradOnly_trans (gradOnly_trans gA gP) gC
  have gB : GradOnly (clear_grads order.reverse hp1)
      (set_grad (clear_grads order.reverse hp1) root s) := gradOnly_set_grad _ root s
  have g0 : GradOnly (set_grad h root s) (set_grad (clear_grads order.reverse hp1) root s) :=
    gradOnly_trans (gradOnly_symm gA) (gradOnly_trans gH1 gB)
  have ho2 : build_topological_order (set_grad (clear_grads order.reverse hp1) root s) root =
      some order := by
    rw [build_topological_order_congr g0, ho]
  have leafP : ∀ x, (hp1.node x).is_leaf = (h.node x).is_leaf :=
    fun x => (forgetGrad_fields ((gradOnly_trans gA gP).2 x)).2.2.2.2.2
  have hz := built_grad_zero hb
  have hco := built_closuresOK hb
  have hlen1 : root < (clear_grads order.reverse hp1).length := by rw [gH1.1]; exact hr
  -- the offset between the two starting heaps
  have hrel : OffsetRel
      (fun x => (Heap.node (set_grad (clear_grads order.reverse hp1) root s) x).grad -
        (Heap.node (set_grad h root s) x).grad)
      (set_grad h root s) (set_grad (clear_grads order.reverse hp1) root s) :=
    ⟨g0, fun x => by ring⟩
  have hoffleaf : ∀ l, (h.node l).is_leaf = true →
      (Heap.node (set_grad (clear_grads order.reverse hp1) root s) l).grad -
        (Heap.node (set_grad h root s) l).grad = (hp1.node l).grad := by
    intro l hl
    have hne : l ≠ root := by
      intro e
      rw [e, hnl] at hl
      cases hl
    rw [node_set_grad, node_set_grad, if_neg (fun c => hne c.1), if_neg (fun c => hne c.1),
      node_clear_grads, if_neg (by rw [leafP, hl]; simp), hz l, sub_zero]
  have hoffnl : ∀ x, x ∈ order.reverse → (h.node x).is_leaf = false →
      (Heap.node (set_grad (clear_grads order.reverse hp1) root s) x).grad -
        (Heap.node (set_grad h root s) x).grad = 0 := by
    intro x hx hl
    rw [node_set_grad, node_set_grad]
    by_cases hxr : x = root
    · rw [if_pos ⟨hxr, hlen1⟩, if_pos ⟨hxr, hr⟩]
      simp
    · rw [if_neg (fun c => hxr c.1), if_neg (fun c => hxr c.1), node_clear_grads,
        if_pos ⟨hx, by rw [leafP, hl]⟩, hz x]
      simp
  obtain ⟨k1, ek, r1⟩ := propagate_rel L _ order.reverse _ _ hp1 hrel
    (by
      intro x hx c hc
      rw [(forgetGrad_fields (gA.2 x)).2.2.2.1] at hc
      obtain ⟨hout, hleaf, _, _⟩ := hco x c hc
      rw [hout]
      exact hoffnl x hx hleaf) hp
  have e2 := backward_of_phases L (clear_grads order.reverse hp1) root s false true order k1 ho2 ek
  simp only [Bool.not_true, Bool.not_false, Bool.false_eq_true, if_true, if_false] at e2
  refine ⟨_, e2, ?_, ?_⟩
  · exact gradOnly_trans (gradOnly_trans gH1 gB)
      (gradOnly_trans (gradOnly_propagate L _ _ _ ek) (gradOnly_clear_grads _ _))
  · intro l hl
    have leafK : (k1.node l).is_leaf = true := by
      rw [(forgetGrad_fields (r1.1.2 l)).2.2.2.2.2, leafP, hl]
    unfold get_grad
    rw [node_clear_grads, if_neg (by rw [leafK]; simp), node_clear_grads,
      if_neg (by rw [leafP, hl]; simp), r1.2 l]
    beta_reduce
    rw [hoffleaf l hl]
    ring

/-- The amended C18 at `y = x*x + x`, `x = 3`, over the rationals: the first pass leaves
`x.grad = 7`, the second `14`. -/
theorem second_pass_doubles_witness :
    get_grad exSharedReset 0 = 7 ∧
      ∃ h2, backward exLibm exSharedReset 2 1 false true = .ok h2 ∧ GradOnly exShared h2 ∧
        ∀ l, (exShared.node l).is_leaf = true → get_grad h2 l = 2 * get_grad exSharedReset l :=
  ⟨by norm_num [get_grad, Heap.node, exSharedReset],
    second_pass_doubles exLibm exShared exShared_built 2 (by decide) rfl 1 exSharedReset rfl⟩

end AccumulateClaim

/-! ## Claim C20: lifetimes in the severing loop -/

section Lifetime

variable {R : Type} [LinearOrderedField R]

omit [LinearOrderedField R] in
theorem clear_graph_eq_foldl (topo : List Nat) (h : Heap R) :
    clear_graph topo h = topo.foldl sever_node h := rfl

theorem prev_sever_node (h : Heap R) (n x : Nat) :
    (Heap.node (sever_node h n) x).prev_ = if x = n then [] else (h.node x).prev_ := by
  unfold sever_node
  rw [node_modify]
  by_cases hx : x = n
  · subst hx
    by_cases hl : x < h.length
    · simp [hl]
    · simp [hl, node_of_length_le h x (Nat.le_of_not_lt hl), default_prev]
  · simp [hx]

theorem reach_of_prev_nil (h : Heap R) (r x : Nat) (hp : (h.node r).prev_ = [])
    (hx : Reach h r x) : x = r := by
  induction hx with
  | root => rfl
  | pred _ hq ih =>
    rw [ih, hp] at hq
    cases hq

/-- Severing only removes ownership edges. -/
theorem reach_sever_node (h : Heap R) (n r x : Nat) (hx : Reach (sever_node h n) r x) :
    Reach h r x := by
  induction hx with
  | root => exact Reach.root
  | pred _ hq ih =>
    rw [prev_sever_node] at hq
    split at hq
    · cases hq
    · exact Reach.pred ih hq

theorem alive_sever_node (h : Heap R) (handles : List Nat) (n x : Nat)
    (hx : Alive (sever_node h n) handles x) : Alive h handles x := by
  obtain ⟨r, hr, hreach⟩ := hx
  exact ⟨r, hr, reach_sever_node h n r x hreach⟩

theorem severSafe_alive (handles : List Nat) :
    ∀ (topo : List Nat) (h : Heap R), SeverSafe handles topo h → ∀ x ∈ topo, Alive h handles x := by
  intro topo
  induction topo with
  | nil => intro h _ x hx; cases hx
  | cons n rest ih =>
    intro h hs x hx
    rcases List.mem_cons.1 hx with rfl | hx
    · exact hs.1
    · exact alive_sever_node h handles n x (ih _ hs.2 x hx)

/-- The loop is unsafe as soon as severing its first node destroys a node it visits later. -/
theorem sever_unsafe (handles : List Nat) (h : Heap R) (n p : Nat) (rest : List Nat)
    (hp : p ∈ rest) (hdead : ¬ Alive (sever_node h n) handles p) :
    ¬ SeverSafe handles (n :: rest) h :=
  fun hs => hdead (severSafe_alive handles rest _ hs.2 p hp)

/-- When the client holds a handle on every node of the order, the loop is safe. -/
theorem severSafe_of_handles (handles : List Nat) :
    ∀ (topo : List Nat) (h : Heap R), (∀ x ∈ topo, x ∈ handles) → SeverSafe handles topo h := by
  intro topo
  induction topo with
  | nil => intro h _; trivial
  | cons n rest ih =>
    intro h hall
    exact ⟨⟨n, hall n (List.mem_cons_self _ _), Reach.root⟩,
      ih _ (fun x hx => hall x (List.mem_cons_of_mem _ hx))⟩

theorem severSafe_forward_aux (h : Heap R) (handles : List Nat) (root : Nat)
    (hroot : root ∈ handles) (order : List Nat) (hn : order.Nodup) (ho : Ordered h order)
    (hm : ∀ x, Reach h root x → x ∈ order) :
    ∀ (rest done : List Nat) (k : Heap R), order = done ++ rest →
      (∀ x, (k.node x).prev_ = if x ∈ done then [] else (h.node x).prev_) →
      (∀ x ∈ rest, Reach h root x) → SeverSafe handles rest k := by
  intro rest
  induction rest with
  | nil => intro done k _ _ _; trivial
  | cons n rest ih =>
    intro done k hsplit hk hall
    have key : ∀ x, Reach h root x → x ∉ done → Reach k root x := by
      intro x hx
      induction hx with
      | root => intro _; exact Reach.root
      | @pred y p hy hq ihy =>
        intro hpd
        have hyo : y ∈ order := hm y hy
        obtain ⟨hpo, hlt⟩ := ho y hyo p hq
        have hyd : y ∉ done := by
          intro hyd
          have hprest : p ∈ n :: rest := by
            rw [hsplit] at hpo
            rcases List.mem_append.1 hpo with c | c
            · exact absurd c hpd
            · exact c
          have i1 : order.indexOf y < done.length := by
            rw [hsplit, List.indexOf_append_of_mem hyd]
            exact List.indexOf_lt_length.2 hyd
          have i2 : done.length ≤ order.indexOf p := by
            rw [hsplit, List.indexOf_append_of_not_mem hpd]
            exact Nat.le_add_right _ _
          omega
        refine Reach.pred (ihy hyd) ?_
        rw [hk y, if_neg hyd]
        exact hq
    have hnd : n ∉ done := by
      rw [hsplit] at hn
      intro c
      exact (List.nodup_append.1 hn).2.2 c (List.mem_cons_self _ _)
    refine ⟨⟨root, hroot, key n (hall n (List.mem_cons_self _ _)) hnd⟩, ?_⟩
    apply ih (done ++ [n]) (sever_node k n)
    · rw [hsplit, List.append_assoc, List.singleton_append]
    · intro x
      rw [prev_sever_node, hk x]
      by_cases hx : x = n
      · simp [hx]
      · by_cases hxd : x ∈ done
        · simp [hx, hxd]
        · simp [hx, hxd]
    · intro x hx
      exact hall x (List.mem_cons_of_mem _ hx)

/-- Visiting the nodes in the order `build_topological_order` returns them (predecessors first),
instead of the reversed order, is safe on every acyclic heap when the caller holds the root. -/
theorem severSafe_forward (h : Heap R) (hac : Acyclic h) (handles : List Nat) (root : Nat)
    (hr : root < h.length) (hroot : root ∈ handles) :
    ∃ order, build_topological_order h root = some order ∧ SeverSafe handles order h := by
  obtain ⟨order, e, hn, ho, hm⟩ := build_topological_order_spec h hac root hr
  refine ⟨order, e, ?_⟩
  exact severSafe_forward_aux h handles root hroot order hn ho (fun x hx => (hm x).2 hx)
    order [] h rfl (fun x => by simp) (fun x hx => (hm x).1 hx)

end Lifetime

theorem exTanh_built : Built exLibm exTanh :=
  Built.tanh 4 (Built.add 3 2 (Built.mul 0 1 (Built.create_value 10 [] "" true true
    (Built.create_value (-3) [] "" true true (Built.create_value 2 [] "" true true
      Built.empty (by simp)) (by simp)) (by simp)) (by decide) (by decide))
    (by decide) (by decide)) (by decide)

/-- Claim C20 (the code does not satisfy it).  For `e = tanh(a*b + c)` with client handles on
`a`, `b`, `c`, `e` only (nodes 0, 1, 2, 5), `e->backward()` (seed 1, `retain_grads = true`,
`retain_graph = false`) computes the order `[0, 1, 3, 2, 4, 5]`, reverses it, and runs the
closures without error on a heap where every node of the order is alive.  The severing loop then
visits `e` first: emptying `e.prev_` releases the only owner of `a*b + c` (node 4), which the
loop dereferences next, so the reversed order is not lifetime-safe.  The unreversed order is. -/
theorem sever_use_after_free :
    Built exLibm exTanh ∧
      ∃ order h1, build_topological_order (set_grad exTanh 5 1) 5 = some order ∧
        order.reverse = [5, 4, 2, 3, 1, 0] ∧
        propagate exLibm order.reverse (set_grad exTanh 5 1) = .ok h1 ∧
        backward exLibm exTanh 5 1 true false = .ok (order.reverse.foldl sever_node h1) ∧
        (∀ x ∈ order, Alive h1 [0, 1, 2, 5] x) ∧
        ¬ Alive (sever_node h1 5) [0, 1, 2, 5] 4 ∧
        ¬ SeverSafe [0, 1, 2, 5] order.reverse h1 ∧
        SeverSafe [0, 1, 2, 5] order h1 := by
  have e3 : ∃ h1, propagate exLibm [5, 4, 2, 3, 1, 0] (set_grad exTanh 5 1) = .ok h1 ∧
      backward exLibm exTanh 5 1 true false = .ok ([5, 4, 2, 3, 1, 0].foldl sever_node h1) :=
    ⟨_, rfl, rfl⟩
  obtain ⟨h1, ep, eb⟩ := e3
  have g : GradOnly exTanh h1 :=
    gradOnly_trans (gradOnly_set_grad exTanh 5 1) (gradOnly_propagate exLibm _ _ _ ep)
  have hprev : ∀ x, (h1.node x).prev_ = (exTanh.node x).prev_ := gradOnly_prev g
  have p0 : (h1.node 0).prev_ = [] := by rw [hprev]; rfl
  have p1 : (h1.node 1).prev_ = [] := by rw [hprev]; rfl
  have p2 : (h1.node 2).prev_ = [] := by rw [hprev]; rfl
  have hdead : ¬ Alive (sever_node h1 5) [0, 1, 2, 5] 4 := by
    rintro ⟨r, hr, hreach⟩
    have hnil : (Heap.node (sever_node h1 5) r).prev_ = [] := by
      rw [prev_sever_node]
      simp only [List.mem_cons, List.mem_singleton, List.not_mem_nil, or_false] at hr
      rcases hr with rfl | rfl | rfl | rfl
      · simpa using p0
      · simpa using p1
      · simpa using p2
      · simp
    have h4 := reach_of_prev_nil _ r 4 hnil hreach
    subst h4
    simp at hr
  have hsafe : SeverSafe [0, 1, 2, 5] [0, 1, 3, 2, 4, 5] h1 := by
    obtain ⟨order, eo, hs⟩ := severSafe_forward h1 (acyclic_gradOnly g (built_acyclic exTanh_built))
      [0, 1, 2, 5] 5 (by rw [g.1]; decide) (by decide)
    rw [build_topological_order_congr g] at eo
    have eo2 : build_topological_order exTanh 5 = some [0, 1, 3, 2, 4, 5] := rfl
    rw [eo2] at eo
    cases eo
    exact hs
  exact ⟨exTanh_built, [0, 1, 3, 2, 4, 5], h1, rfl, rfl, ep, eb,
    severSafe_alive _ _ _ hsafe, hdead, sever_unsafe _ _ 5 4 _ (by decide) hdead, hsafe⟩

/-! ## Claim C5: the tanh scenario, values and lifetimes -/

section TanhScenario

variable {R : Type} [LinearOrderedField R]

/-- Claim C5 (the values are as claimed; the default call is not lifetime-safe).  For all leaf
values and whatever is already on the heap, with fresh parameters `a`, `b`, `c`, `d = a*b + c`
and `e = tanh(d)`:

* `e.backward(1.0, retain_grads, true)` returns, and afterwards `d.data = a.data*b.data + c.data`,
  `e.data = tanh(d.data)`, `a.grad = b.data*(1 - e.data^2)`, `b.grad = a.data*(1 - e.data^2)` and
  `c.grad = 1 - e.data^2`, with `tanh` the `Libm` function; for `a = 2`, `b = -3`, `c = 10`
  this gives `d.data = 4`;
* with the default arguments `(1.0, true, false)` the same order is computed and the same
  closures run, giving the heap `h1`; the severing loop then runs over `order.reverse` on `h1`,
  and is not lifetime-safe even when the client holds `a`, `b`, `c`, `d` and `e`: after `e` and
  `d` have been severed nothing owns `a*b`, which the loop dereferences later. -/
theorem end_to_end_tanh (L : Libm R) (h0 : Heap R) (va vb vc : R) (g : Heap R)
    (a b c d e : Nat) (hg : tanhGraph L h0 va vb vc = (g, a, b, c, d, e)) :
    (∀ retain_grads : Bool, ∃ h, backward L g e 1 retain_grads true = .ok h ∧
      get_data h a = va ∧ get_data h b = vb ∧ get_data h c = vc ∧
      get_data h d = get_data h a * get_data h b + get_data h c ∧
      get_data h e = L.tanh (get_data h d) ∧
      get_grad h a = get_data h b * (1 - get_data h e ^ 2) ∧
      get_grad h b = get_data h a * (1 - get_data h e ^ 2) ∧
      get_grad h c = 1 - get_data h e ^ 2 ∧
      (va = 2 → vb = -3 → vc = 10 → get_data h d = 4)) ∧
    (∃ order h1, build_topological_order (set_grad g e 1) e = some order ∧
      propagate L order.reverse (set_grad g e 1) = .ok h1 ∧
      ¬ SeverSafe [a, b, c, d, e] order.reverse h1) := by
  rw [tanhGraph_eq] at hg
  simp only [Prod.mk.injEq] at hg
  obtain ⟨hG, rfl, rfl, rfl, rfl, rfl⟩ := hg
  have first : ∀ retain_grads : Bool,
      ∃ h, backward L g (h0.length + 5) 1 retain_grads true = .ok h ∧
        get_data h h0.length = va ∧ get_data h (h0.length + 1) = vb ∧
        get_data h (h0.length + 2) = vc ∧
        get_data h (h0.length + 4) =
          get_data h h0.length * get_data h (h0.length + 1) + get_data h (h0.length + 2) ∧
        get_data h (h0.length + 5) = L.tanh (get_data h (h0.length + 4)) ∧
        get_grad h h0.length = get_data h (h0.length + 1) * (1 - get_data h (h0.length + 5) ^ 2) ∧
        get_grad h (h0.length + 1) = get_data h h0.length * (1 - get_data h (h0.length + 5) ^ 2) ∧
        get_grad h (h0.length + 2) = 1 - get_data h (h0.length + 5) ^ 2 ∧
        (va = 2 → vb = -3 → vc = 10 → get_data h (h0.length + 4) = 4) := by
    intro retain_grads
    subst hG
    simp only [backward, set_grad, modify_append_right, List.modify_succ_cons,
      List.modify_zero_cons, topo_tanhGraph]
    cases retain_grads <;>
      simp [propagate, Closure.call, add_grad, modify_append_right, modify_append_zero,
        node_append_right, node_append_length, node_cons_succ, node_cons_zero, clear_grads,
        set_grad, get_grad, get_data] <;>
      (refine ⟨Or.inl (by ring), Or.inl (by ring), by ring, ?_⟩
       intro h1 h2 h3
       rw [h1, h2, h3]
       norm_num)
  refine ⟨first, ?_⟩
  obtain ⟨h, eh, _⟩ := first true
  obtain ⟨order, h1, ho, hp, _⟩ := backward_ok L g (h0.length + 5) 1 true true h eh
  have htopo : build_topological_order (set_grad g (h0.length + 5) 1) (h0.length + 5) =
      some [h0.length, h0.length + 1, h0.length + 3, h0.length + 2, h0.length + 4,
        h0.length + 5] := by
    rw [build_topological_order_congr (gradOnly_set_grad g (h0.length + 5) 1), ← hG]
    exact topo_tanhGraph L h0 va vb vc 0
  rw [htopo] at ho
  cases ho
  refine ⟨_, h1, htopo, hp, ?_⟩
  have gr : GradOnly g h1 :=
    gradOnly_trans (gradOnly_set_grad g (h0.length + 5) 1) (gradOnly_propagate L _ _ _ hp)
  have pa : (h1.node h0.length).prev_ = [] := by
    rw [gradOnly_prev gr, ← hG, node_append_length]
  have pb : (h1.node (h0.length + 1)).prev_ = [] := by
    rw [gradOnly_prev gr, ← hG, node_append_right, node_cons_succ, node_cons_zero]
  have pc : (h1.node (h0.length + 2)).prev_ = [] := by
    rw [gradOnly_prev gr, ← hG, node_append_right, node_cons_succ, node_cons_succ, node_cons_zero]
  have hdead : ¬ Alive (sever_node (sever_node h1 (h0.length + 5)) (h0.length + 4))
      [h0.length, h0.length + 1, h0.length + 2, h0.length + 4, h0.length + 5]
      (h0.length + 3) := by
    rintro ⟨r, hr, hreach⟩
    have hnil : (Heap.node (sever_node (sever_node h1 (h0.length + 5)) (h0.length + 4)) r).prev_
        = [] := by
      rw [prev_sever_node, prev_sever_node]
      simp only [List.mem_cons, List.mem_singleton, List.not_mem_nil, or_false] at hr
      rcases hr with rfl | rfl | rfl | rfl | rfl
      · simpa using pa
      · simpa using pb
      · simpa using pc
      · simp
      · simp
    have h4 := reach_of_prev_nil _ r (h0.length + 3) hnil hreach
    subst h4
    simp at hr
  intro hs
  exact sever_unsafe _ _ (h0.length + 4) (h0.length + 3) _ (by simp) hdead hs.2

/-- Instance of C5: the spec's scenario `a = 2`, `b = -3`, `c = 10` on an empty heap. -/
theorem end_to_end_tanh_witness :
    (∀ retain_grads : Bool, ∃ h, backward exLibm exTanh 5 1 retain_grads true = .ok h ∧
      get_data h 0 = 2 ∧ get_data h 1 = -3 ∧ get_data h 2 = 10 ∧
      get_data h 4 = get_data h 0 * get_data h 1 + get_data h 2 ∧
      get_data h 5 = exLibm.tanh (get_data h 4) ∧
      get_grad h 0 = get_data h 1 * (1 - get_data h 5 ^ 2) ∧
      get_grad h 1 = get_data h 0 * (1 - get_data h 5 ^ 2) ∧
      get_grad h 2 = 1 - get_data h 5 ^ 2 ∧
      ((2 : ℚ) = 2 → (-3 : ℚ) = -3 → (10 : ℚ) = 10 → get_data h 4 = 4)) ∧
    (∃ order h1, build_topological_order (set_grad exTanh 5 1) 5 = some order ∧
      propagate exLibm order.reverse (set_grad exTanh 5 1) = .ok h1 ∧
      ¬ SeverSafe [0, 1, 2, 4, 5] order.reverse h1) :=
  end_to_end_tanh exLibm [] 2 (-3) 10 exTanh 0 1 2 4 5 rfl

end TanhScenario

/-! ## Rounding: the algebraic claims on the binary64 model -/

section Rounding

set_option maxRecDepth 100000

/-- Counterexample to C1 as stated.  On the binary64 model, the program `x*x + x` at the double
nearest to `0.1`, with `backward(1, true, true)`: the root's value is the polynomial `t*t + t`
of the leaf's value in exact arithmetic, its derivative at `x.data` is `2*x.data + 1`, and the
computed `x.grad` is `1.2000000000000002`, a different number. -/
theorem backward_inexact_on_doubles :
    (∀ t : ℚ, get_data (exec (fun _ => t) exProgram) 2 =
      (Polynomial.X * Polynomial.X + Polynomial.X : Polynomial ℚ).eval t) ∧
    ∃ h1, backward f64Libm (exec (fun _ => (1 / 10 : F64)) exProgram) 2 1 true true = .ok h1 ∧
      get_data (exec (fun _ => (1 / 10 : F64)) exProgram) 0 = ⟨false, 7205759403792794, -56⟩ ∧
      get_grad h1 0 = ⟨false, 5404319552844596, -52⟩ ∧
      (get_grad h1 0).toRat ≠
        (Polynomial.derivative (Polynomial.X * Polynomial.X + Polynomial.X : Polynomial ℚ)).eval
          (get_data (exec (fun _ => (1 / 10 : F64)) exProgram) 0).toRat := by
  have e1 : get_data (exec (fun _ => (1 / 10 : F64)) exProgram) 0 =
      ⟨false, 7205759403792794, -56⟩ := by decide
  have e2 : ∃ h1, backward f64Libm (exec (fun _ => (1 / 10 : F64)) exProgram) 2 1 true true
      = .ok h1 ∧ get_grad h1 0 = ⟨false, 5404319552844596, -52⟩ := ⟨_, rfl, by decide⟩
  obtain ⟨h1, eb, eg⟩ := e2
  refine ⟨?_, h1, eb, e1, eg, ?_⟩
  · intro t
    simp [exec, execFrom, exProgram, Cmd.run, create_value, operator_mul_eq, operator_add_eq,
      get_data, Heap.node, Value.mk0]
  · rw [eg, e1]
    simp only [Polynomial.derivative_add, Polynomial.derivative_mul, Polynomial.derivative_X,
      Polynomial.eval_add, Polynomial.eval_mul, Polynomial.eval_X, Polynomial.eval_one]
    norm_num [F64.toRat]

/-- Counterexample to C4 as stated.  On the binary64 model, `y = x*x + x` at the double nearest
to `0.1`: `backward(1, true, true)` leaves `x.grad = (1 + v) + v`, which is
`1.2000000000000002`, not `2*v + 1 = 1.2`. -/
theorem accumulation_shared_rounds :
    (sharedGraph [] (1 / 10 : F64)).2 = (0, 2) ∧
    ∃ h, backward f64Libm (sharedGraph [] (1 / 10 : F64)).1 2 1 true true = .ok h ∧
      get_grad h 0 = 1 + 1 / 10 + 1 / 10 ∧
      get_grad h 0 ≠ 2 * (1 / 10) + 1 :=
  ⟨rfl, _, rfl, by decide, by decide⟩

/-- Counterexample to C12 as stated.  On the binary64 model with a correctly rounded
`pow(3, -1)`, `5 / 3` built by `operator/` holds `5 * pow(3, -1) = 1.6666666666666665`, which
is not the quotient `5.0 / 3.0 = 1.6666666666666667`. -/
theorem divide_value_rounds :
    ∃ r, operator_div f64Libm [Value.mk0 5 [] "" true true, Value.mk0 3 [] "" true true] 0 1
        = .ok r ∧
      get_data r.1 r.2 = 5 * f64Libm.pow 3 (-1) ∧ get_data r.1 r.2 ≠ 5 / 3 :=
  ⟨_, rfl, by decide, by decide⟩

/-- Counterexample to C17 as stated.  On the binary64 model with a correctly rounded
`pow(3, -1)`, for `a = 1`, `b = 3` and seed `5`: `backward(seed, true, true)` on `a / b` leaves
`a.grad = pow(3, -1) * 5 = 1.6666666666666665`, not `seed / b.data = 1.6666666666666667`. -/
theorem divide_gradient_rounds :
    ∃ g, divGraph f64Libm [] 1 3 = .ok (g, 0, 1, 4) ∧
      ∃ h, backward f64Libm g 4 5 true true = .ok h ∧
        get_grad h 0 = f64Libm.pow 3 (-1) * 5 ∧ get_grad h 0 ≠ 5 / 3 :=
  ⟨_, rfl, _, rfl, by decide, by decide⟩

/-- Counterexample to C18 as stated.  On the binary64 model, `y = x*x + x` at the double
nearest to `0.2`: after one `backward(1, false, true)` `x.grad` is `1.4`, after the second it
is `2.8000000000000003`, not `2 * 1.4 = 2.8`. -/
theorem second_pass_not_double :
    ∃ h1 h2, backward f64Libm (sharedGraph [] (2 / 10 : F64)).1 2 1 false true = .ok h1 ∧
      backward f64Libm h1 2 1 false true = .ok h2 ∧
      ((sharedGraph [] (2 / 10 : F64)).1.node 2).is_leaf = false ∧
      ((sharedGraph [] (2 / 10 : F64)).1.node 0).is_leaf = true ∧
      get_grad h2 0 ≠ 2 * get_grad h1 0 :=
  ⟨_, _, rfl, rfl, rfl, rfl, by decide⟩

/-- Instance of the amended C17 on the binary64 model: `5 / 3` with seed `1`. -/
theorem divide_gradient_witness :
    ¬ ((3 : F64) = 0 ∨ fabs (3 : F64) < tiny) ∧
    ∃ g a b out, divGraph f64Libm [] 5 3 = .ok (g, a, b, out) ∧ a ≠ b ∧
      ∃ p c, (g.node out).prev_ = [a, p] ∧ (g.node p).prev_ = [b, c] ∧ (g.node c).data = -1 ∧
      ∃ h, backward f64Libm g out 1 true true = .ok h ∧
        get_grad h a = 0 + f64Libm.pow 3 (-1) * 1 ∧
        get_grad h b = 0 + -1 * f64Libm.pow 3 (-1 - 1) * (0 + 5 * 1) ∧
        get_grad h c = 0 :=
  ⟨by decide, divide_gradient f64Libm [] 5 3 1 true (by decide)⟩

end Rounding

section ExactForms

variable {R : Type} [LinearOrderedField R]

/-- In exact arithmetic, with `pow` the real power at the exponents `-1` and `-2`, the
expressions the closures evaluate for `a / b` are `seed / vb` and `-va * seed / vb^2`. -/
theorem divide_exact_forms (L : Libm R) (va vb seed : R) (hvb : vb ≠ 0)
    (hinv : L.pow vb (-1) = vb⁻¹) (hsq : L.pow vb (-1 - 1) = (vb ^ 2)⁻¹) :
    0 + L.pow vb (-1) * seed = seed / vb ∧
      0 + -1 * L.pow vb (-1 - 1) * (0 + va * seed) = -va * seed / vb ^ 2 := by
  rw [hinv, hsq]
  constructor <;> field_simp

/-- In exact arithmetic the accumulated sum of C4 is `2*v + 1`. -/
theorem shared_exact_form (v : R) : 0 + 1 + v * (0 + 1) + v * (0 + 1) = 2 * v + 1 := by
  ring

end ExactForms

end Micrograd
